import Mathlib

/-!
Verification of the ThreadedCodeDemo repository: a Brainfuck CISC-lifter
(`cisc_compiler_demo.cpp`), the threaded-code runner (the engine executing
the CISC instruction set), and the naive direct-threaded interpreter
(`direct_threading_demo.cpp`).

The embedding models:
  * machine bytes as `Nat` reduced modulo 256 at every store;
  * the tape as an unbounded function `Int → Nat` (the C++ tape is a fixed
    30000-byte vector; out-of-bounds access is undefined behaviour and all
    claims are about executions that stay in bounds, so the unbounded tape is
    the standard idealisation);
  * the C++ istream as a `List Char`;
  * undefined behaviour that the code can actually reach (popping the
    loop-index stack when it is empty) as an explicit error value.
-/

namespace TCD

/-- The sixteen opcode names of the CISC instruction set
(struct `InstructionSet` in `cisc_compiler_demo.cpp`). -/
inductive OpName where
  | SET_ZERO
  | INCR
  | DECR
  | ADD
  | ADD_OFFSET
  | XFR_MULTIPLE
  | LEFT
  | RIGHT
  | SEEK_LEFT
  | SEEK_RIGHT
  | MOVE
  | OPEN
  | CLOSE
  | GET
  | PUT
  | HALT
deriving DecidableEq, Repr

/-- The `locIsZero` column of the `InstructionSet` table in
`cisc_compiler_demo.cpp` (lines 156-171). -/
def locIsZeroFlag : OpName → Bool
  | .SET_ZERO => true
  | .SEEK_LEFT => true
  | .SEEK_RIGHT => true
  | .CLOSE => true
  | _ => false

/-- The `discardBeforeSetZero` column of the `InstructionSet` table in
`cisc_compiler_demo.cpp` (lines 156-171): true exactly for INCR, DECR, ADD. -/
def discardFlag : OpName → Bool
  | .INCR => true
  | .DECR => true
  | .ADD => true
  | _ => false

/-- One JSON record of the serialized IR, as built by the compiler:
an opcode record (with its optional `DiscardBeforeSetZero` field),
a single-operand record (idem), a dyad record, or the `null` placeholder
planted by `plantOPEN` and overwritten by `plantCLOSE`. -/
inductive Rec where
  | op (name : OpName) (discard : Bool)
  | operand (n : Int) (discard : Bool)
  | dyad (hi lo : Int)
  | null
deriving DecidableEq, Repr

/-- Whether a json record contains the `DiscardBeforeSetZero` field
(the compiler only ever writes the field with value `true`). -/
def hasDiscardField : Rec → Bool
  | .op _ d => d
  | .operand _ d => d
  | _ => false

/-- The characters of the Brainfuck command set; all other bytes are
comments and are skipped by `nextChar` of `PeekableProgramInput`. -/
def isCmdChar (c : Char) : Bool :=
  c = '>' || c = '<' || c = '+' || c = '-' || c = '.' || c = ',' || c = '[' || c = ']'

/-- `PeekableProgramInput` of `cisc_compiler_demo.cpp`: a deque buffer of
already-materialised command characters in front of the raw input stream. -/
structure PPI where
  buffer : List Char
  input : List Char
deriving DecidableEq, Repr

/-- `PeekableProgramInput::nextChar`: read raw characters until a command
character appears (returning it with the rest of the stream) or the input
is exhausted. -/
def nextChar : List Char → Option (Char × List Char)
  | [] => none
  | c :: rest => if isCmdChar c then some (c, rest) else nextChar rest

/-- The consumption measure of a scanner state: buffered plus raw length.
Every scanner operation is non-increasing on it, and destructive reads
strictly decrease it. -/
def PPI.measure (s : PPI) : Nat := s.buffer.length + s.input.length

/-- `PeekableProgramInput::peekN`: materialise characters into the buffer
until it holds more than `n`, then return the `n`-th buffered character.
On end of input the characters materialised so far stay buffered. -/
def peekN (n : Nat) (s : PPI) : Option Char × PPI :=
  if s.buffer.length ≤ n then
    match nextChar s.input with
    | none => (none, { s with input := [] })
    | some (c, rest) => peekN n { buffer := s.buffer ++ [c], input := rest }
  else
    (s.buffer[n]?, s)
termination_by (n + 1) - s.buffer.length
decreasing_by
  simp only [List.length_append, List.length_cons, List.length_nil]
  omega

/-- `PeekableProgramInput::peek`. -/
def peek (s : PPI) : Option Char × PPI :=
  match s.buffer with
  | [] =>
    match nextChar s.input with
    | none => (none, { s with input := [] })
    | some (c, rest) => (some c, { buffer := [c], input := rest })
  | c :: _ => (some c, s)

/-- `PeekableProgramInput::pop`. -/
def PPI.pop (s : PPI) : Option Char × PPI :=
  match s.buffer with
  | [] =>
    match nextChar s.input with
    | none => (none, { s with input := [] })
    | some (c, rest) => (some c, { s with input := rest })
  | c :: rest => (some c, { s with buffer := rest })

/-- `PeekableProgramInput::drop`: discard one buffered character, or one raw
character when the buffer is empty. -/
def PPI.drop (s : PPI) : PPI :=
  match s.buffer with
  | [] => { s with input := s.input.tail }
  | _ :: rest => { s with buffer := rest }

/-- `PeekableProgramInput::tryPop`. -/
def tryPop (ch : Char) (s : PPI) : Bool × PPI :=
  if (peek s).1 = some ch then (true, (peek s).2.drop) else (false, (peek s).2)

/-- The loop body of `PeekableProgramInput::tryPopString` in
`cisc_compiler_demo.cpp`: peek the characters of `str` at increasing indexes;
on full match erase the first `n` buffered characters, otherwise leave the
buffer as the peeks left it. -/
def tryPopStringAux (str : List Char) (n : Nat) (s : PPI) : Bool × PPI :=
  match str with
  | [] => (true, { s with buffer := s.buffer.drop n })
  | ch :: rest =>
    if (peekN n s).1 = some ch then tryPopStringAux rest (n + 1) (peekN n s).2
    else (false, (peekN n s).2)

/-- `PeekableProgramInput::tryPopString` (`cisc_compiler_demo.cpp` 117-126). -/
def tryPopString (str : List Char) (s : PPI) : Bool × PPI :=
  tryPopStringAux str 0 s

theorem nextChar_some_length {l rest : List Char} {c : Char}
    (h : nextChar l = some (c, rest)) : rest.length < l.length := by
  induction l with
  | nil => simp [nextChar] at h
  | cons x xs ih =>
    simp only [nextChar] at h
    by_cases hx : isCmdChar x
    · simp [hx] at h
      obtain ⟨rfl, rfl⟩ := h
      simp
    · simp [hx] at h
      exact Nat.lt_trans (ih h) (by simp)

theorem peek_measure_le (s : PPI) : (peek s).2.measure ≤ s.measure := by
  unfold peek
  match hb : s.buffer with
  | [] =>
    match hn : nextChar s.input with
    | none => simp [PPI.measure, hb]
    | some (c, rest) =>
      simp only [PPI.measure, hb]
      have := nextChar_some_length hn
      simp only [List.length_cons, List.length_nil]
      omega
  | c :: rest => simp [PPI.measure]

theorem peek_some_buffer {s : PPI} {c : Char}
    (h : (peek s).1 = some c) : ∃ rest, (peek s).2.buffer = c :: rest := by
  unfold peek at *
  match hb : s.buffer with
  | [] =>
    match hn : nextChar s.input with
    | none => simp [hb, hn] at h
    | some (c', rest) =>
      simp [hb, hn] at h ⊢
      exact h
  | c' :: rest =>
    simp [hb] at h ⊢
    exact h

theorem tryPop_measure_le (ch : Char) (s : PPI) :
    (tryPop ch s).2.measure ≤ s.measure := by
  unfold tryPop
  by_cases hc : (peek s).1 = some ch
  · rw [if_pos hc]
    obtain ⟨rest, hrest⟩ := peek_some_buffer hc
    have hle := peek_measure_le s
    unfold PPI.drop
    rw [hrest]
    simp only [PPI.measure] at *
    rw [hrest] at hle
    simp at hle ⊢
    omega
  · rw [if_neg hc]
    exact peek_measure_le s

theorem tryPop_true_measure {ch : Char} {s : PPI}
    (h : (tryPop ch s).1 = true) : (tryPop ch s).2.measure < s.measure := by
  unfold tryPop at *
  by_cases hc : (peek s).1 = some ch
  · rw [if_pos hc]
    obtain ⟨rest, hrest⟩ := peek_some_buffer hc
    have hle := peek_measure_le s
    unfold PPI.drop
    rw [hrest]
    simp only [PPI.measure] at *
    rw [hrest] at hle
    simp at hle ⊢
    omega
  · rw [if_neg hc] at h
    simp at h

theorem pop_some_measure {s : PPI} {c : Char}
    (h : (PPI.pop s).1 = some c) : (PPI.pop s).2.measure < s.measure := by
  unfold PPI.pop at *
  match hb : s.buffer with
  | [] =>
    simp only [hb] at h ⊢
    match hn : nextChar s.input with
    | none => simp [hn] at h
    | some (c2, rest) =>
      simp only [hn]
      have := nextChar_some_length hn
      simp [PPI.measure, hb]
      omega
  | x :: xs =>
    simp only [hb] at h ⊢
    simp [PPI.measure, hb]

theorem pop_measure_le (s : PPI) : (PPI.pop s).2.measure ≤ s.measure := by
  unfold PPI.pop
  match hb : s.buffer with
  | [] =>
    simp only [hb]
    match hn : nextChar s.input with
    | none => simp [PPI.measure, hb]
    | some (c2, rest) =>
      simp only [hn]
      have := nextChar_some_length hn
      simp [PPI.measure, hb]
      omega
  | x :: xs =>
    simp only [hb]
    simp [PPI.measure, hb]

/-- `sgn` of `cisc_compiler_demo.cpp`: `(0 < val) - (val < 0)`. -/
def sgn (n : Int) : Int := (if 0 < n then 1 else 0) - (if n < 0 then 1 else 0)

/-- The `(move, add, move)` window `struct MoveAddMove`. The C++ field `by`
is a Lean keyword and is rendered `addBy`. -/
structure MoveAddMove where
  lhs : Int
  addBy : Int
  rhs : Int
deriving DecidableEq, Repr

/-- `MoveAddMove::matches`. -/
def MoveAddMove.matches (m : MoveAddMove) (L N R : Int) : Bool :=
  L = m.lhs && N = m.addBy && R = m.rhs

/-- `MoveAddMove::isNonZeroBalanced`. -/
def MoveAddMove.isNonZeroBalanced (m : MoveAddMove) : Bool :=
  m.lhs ≠ 0 && m.lhs + m.rhs = 0

/-- `struct CompileFlags` with its defaults (all five features enabled). -/
structure CompileFlags where
  deadCodeRemoval : Bool := true
  seekZero : Bool := true
  locIsZero : Bool := true
  xfrMultiple : Bool := true
  unplantSuperfluousCode : Bool := true
deriving DecidableEq, Repr

/-- `CompileFlags::setAll`: note that it sets only four of the five feature
fields; `unplantSuperfluousCode` is not touched. -/
def CompileFlags.setAll (f : CompileFlags) (enabled : Bool) : CompileFlags :=
  { f with
    deadCodeRemoval := enabled
    seekZero := enabled
    locIsZero := enabled
    xfrMultiple := enabled }

/-- Character-list rendering of the command-line strings compared by
`CompileFlags::setArg`. -/
def argAll : List Char := ['-', '-', 'a', 'l', 'l']

def argNone : List Char := ['-', '-', 'n', 'o', 'n', 'e']

def argDeadcode : List Char := ['-', '-', 'd', 'e', 'a', 'd', 'c', 'o', 'd', 'e']

def argSeekzero : List Char := ['-', '-', 's', 'e', 'e', 'k', 'z', 'e', 'r', 'o']

def argPruneIfLocIsZero : List Char :=
  ['-', '-', 'p', 'r', 'u', 'n', 'e', '-', 'i', 'f', '-', 'l', 'o', 'c', '-',
   'i', 's', '-', 'z', 'e', 'r', 'o']

def argXfrmultiple : List Char :=
  ['-', '-', 'x', 'f', 'r', 'm', 'u', 'l', 't', 'i', 'p', 'l', 'e']

def argSuperfluous : List Char :=
  ['-', '-', 's', 'u', 'p', 'e', 'r', 'f', 'l', 'u', 'o', 'u', 's']

/-- The `--no-` string stripped by `CompileFlags::setArg`. -/
def noDashPrefixChars : List Char := ['-', '-', 'n', 'o', '-']

/-- `startsWith` of `cisc_compiler_demo.cpp` (`haystack.rfind(needle, 0) == 0`). -/
def strStartsWith (haystack needle : List Char) : Bool :=
  needle.isPrefixOf haystack

/-- `CompileFlags::setArg`: dispatch on the literal flag strings, else strip
one `--no-` prefix and recurse with the enable sense negated; an
unrecognised flag throws (modelled as `Except.error`). -/
def CompileFlags.setArg (f : CompileFlags) (arg : List Char) (enable : Bool) :
    Except Unit CompileFlags :=
  if arg = argAll then .ok (f.setAll true)
  else if arg = argNone then .ok (f.setAll false)
  else if arg = argDeadcode then .ok { f with deadCodeRemoval := enable }
  else if arg = argSeekzero then .ok { f with seekZero := enable }
  else if arg = argPruneIfLocIsZero then .ok { f with locIsZero := enable }
  else if arg = argXfrmultiple then .ok { f with xfrMultiple := enable }
  else if arg = argSuperfluous then .ok { f with unplantSuperfluousCode := enable }
  else if strStartsWith arg noDashPrefixChars then
    f.setArg (['-', '-'] ++ arg.drop noDashPrefixChars.length) (not enable)
  else .error ()
termination_by arg.length
decreasing_by
  rename_i h
  have hlen : noDashPrefixChars.length ≤ arg.length := by
    exact List.IsPrefix.length_le (List.isPrefixOf_iff_prefix.mp h)
  simp only [List.length_append, List.length_cons, List.length_nil, List.length_drop,
    noDashPrefixChars] at *
  omega

/-- The loop of the `CompileFlags` constructor: fold `setArg` over the
argument list, stopping at a literal `--`. -/
def mkCompileFlagsLoop : List (List Char) → CompileFlags → Except Unit CompileFlags
  | [], f => .ok f
  | a :: rest, f =>
    if a = ['-', '-'] then .ok f
    else match f.setArg a true with
      | .error e => .error e
      | .ok f' => mkCompileFlagsLoop rest f'

/-- The `CompileFlags` constructor, starting from the defaults. -/
def mkCompileFlags (args : List (List Char)) : Except Unit CompileFlags :=
  mkCompileFlagsLoop args {}

/-- `CodePlanter::scanAdd`: accumulate `+1` per `+` and `-1` per `-` until
the next command character is neither. -/
def scanAdd (n : Int) (s : PPI) : Int × PPI :=
  if h1 : (tryPop '+' s).1 then scanAdd (n + 1) (tryPop '+' s).2
  else if h2 : (tryPop '-' (tryPop '+' s).2).1 then
    scanAdd (n - 1) (tryPop '-' (tryPop '+' s).2).2
  else (n, (tryPop '-' (tryPop '+' s).2).2)
termination_by s.measure
decreasing_by
  · exact tryPop_true_measure h1
  · exact Nat.lt_of_lt_of_le (tryPop_true_measure h2) (tryPop_measure_le _ _)

/-- `CodePlanter::scanMove`: accumulate `+1` per `>` and `-1` per `<`. -/
def scanMove (n : Int) (s : PPI) : Int × PPI :=
  if h1 : (tryPop '>' s).1 then scanMove (n + 1) (tryPop '>' s).2
  else if h2 : (tryPop '<' (tryPop '>' s).2).1 then
    scanMove (n - 1) (tryPop '<' (tryPop '>' s).2).2
  else (n, (tryPop '<' (tryPop '>' s).2).2)
termination_by s.measure
decreasing_by
  · exact tryPop_true_measure h1
  · exact Nat.lt_of_lt_of_le (tryPop_true_measure h2) (tryPop_measure_le _ _)

theorem scanAdd_spec (n : Int) (s : PPI) :
    (scanAdd n s).2.measure ≤ s.measure ∧
      ((scanAdd n s).2.measure = s.measure → (scanAdd n s).1 = n) := by
  induction n, s using scanAdd.induct with
  | case1 n s h1 ih =>
    rw [scanAdd, dif_pos h1]
    have hlt := tryPop_true_measure h1
    exact ⟨Nat.le_of_lt (Nat.lt_of_le_of_lt ih.1 hlt), fun he => absurd he
      (Nat.ne_of_lt (Nat.lt_of_le_of_lt ih.1 hlt))⟩
  | case2 n s h1 h2 ih =>
    rw [scanAdd, dif_neg h1, dif_pos h2]
    have hlt := Nat.lt_of_lt_of_le (tryPop_true_measure h2) (tryPop_measure_le '+' s)
    exact ⟨Nat.le_of_lt (Nat.lt_of_le_of_lt ih.1 hlt), fun he => absurd he
      (Nat.ne_of_lt (Nat.lt_of_le_of_lt ih.1 hlt))⟩
  | case3 n s h1 h2 =>
    rw [scanAdd, dif_neg h1, dif_neg h2]
    exact ⟨Nat.le_trans (tryPop_measure_le _ _) (tryPop_measure_le _ _),
      fun _ => rfl⟩

theorem scanMove_spec (n : Int) (s : PPI) :
    (scanMove n s).2.measure ≤ s.measure ∧
      ((scanMove n s).2.measure = s.measure → (scanMove n s).1 = n) := by
  induction n, s using scanMove.induct with
  | case1 n s h1 ih =>
    rw [scanMove, dif_pos h1]
    have hlt := tryPop_true_measure h1
    exact ⟨Nat.le_of_lt (Nat.lt_of_le_of_lt ih.1 hlt), fun he => absurd he
      (Nat.ne_of_lt (Nat.lt_of_le_of_lt ih.1 hlt))⟩
  | case2 n s h1 h2 ih =>
    rw [scanMove, dif_neg h1, dif_pos h2]
    have hlt := Nat.lt_of_lt_of_le (tryPop_true_measure h2) (tryPop_measure_le '>' s)
    exact ⟨Nat.le_of_lt (Nat.lt_of_le_of_lt ih.1 hlt), fun he => absurd he
      (Nat.ne_of_lt (Nat.lt_of_le_of_lt ih.1 hlt))⟩
  | case3 n s h1 h2 =>
    rw [scanMove, dif_neg h1, dif_neg h2]
    exact ⟨Nat.le_trans (tryPop_measure_le _ _) (tryPop_measure_le _ _),
      fun _ => rfl⟩

/-- `CodePlanter::scanMoveAddMove`. -/
def scanMoveAddMove (initial : Int) (s : PPI) : MoveAddMove × PPI :=
  (⟨(scanMove initial s).1,
    (scanAdd 0 (scanMove initial s).2).1,
    (scanMove 0 (scanAdd 0 (scanMove initial s).2).2).1⟩,
   (scanMove 0 (scanAdd 0 (scanMove initial s).2).2).2)

theorem scanMoveAddMove_spec (initial : Int) (s : PPI) :
    (scanMoveAddMove initial s).2.measure ≤ s.measure ∧
      ((scanMoveAddMove initial s).2.measure = s.measure →
        (scanMoveAddMove initial s).1.addBy = 0 ∧
          (scanMoveAddMove initial s).1.rhs = 0) := by
  unfold scanMoveAddMove
  have h1 := scanMove_spec initial s
  have h2 := scanAdd_spec 0 (scanMove initial s).2
  have h3 := scanMove_spec 0 (scanAdd 0 (scanMove initial s).2).2
  refine ⟨Nat.le_trans h3.1 (Nat.le_trans h2.1 h1.1), fun he => ?_⟩
  simp only at he
  have e3 : (scanMove 0 (scanAdd 0 (scanMove initial s).2).2).2.measure
      = (scanAdd 0 (scanMove initial s).2).2.measure :=
    Nat.le_antisymm h3.1 (by omega)
  have e2 : (scanAdd 0 (scanMove initial s).2).2.measure
      = (scanMove initial s).2.measure :=
    Nat.le_antisymm h2.1 (by omega)
  exact ⟨h2.2 e2, h3.2 e3⟩

/-- The filtered source: only command characters reach the planter. -/
def filterCmd (l : List Char) : List Char := l.filter isCmdChar

/-- The logical content of a scanner state: buffered characters followed by
the command characters still in the raw stream. Every
`PeekableProgramInput` operation is a pure function of the view. -/
def PPI.view (s : PPI) : List Char := s.buffer ++ filterCmd s.input

@[simp] theorem filterCmd_nil : filterCmd [] = [] := rfl

theorem nextChar_none_view {l : List Char} (h : nextChar l = none) :
    filterCmd l = [] := by
  induction l with
  | nil => rfl
  | cons c rest ih =>
    simp only [nextChar] at h
    by_cases hc : isCmdChar c
    · simp [hc] at h
    · simp [hc] at h
      simp [filterCmd, List.filter, hc]
      simpa [filterCmd] using ih h

theorem nextChar_some_view {l rest : List Char} {c : Char}
    (h : nextChar l = some (c, rest)) :
    filterCmd l = c :: filterCmd rest ∧ isCmdChar c = true := by
  induction l with
  | nil => simp [nextChar] at h
  | cons x xs ih =>
    simp only [nextChar] at h
    by_cases hx : isCmdChar x
    · simp [hx] at h
      obtain ⟨rfl, rfl⟩ := h
      exact ⟨by simp [filterCmd, List.filter, hx], hx⟩
    · simp [hx] at h
      obtain ⟨h1, h2⟩ := ih h
      exact ⟨by simpa [filterCmd, List.filter, hx] using h1, h2⟩

theorem pop_view (s : PPI) :
    (s.pop.1 = s.view.head?) ∧ s.pop.2.view = s.view.tail := by
  unfold PPI.pop
  match hb : s.buffer with
  | [] =>
    match hn : nextChar s.input with
    | none =>
      have hv := nextChar_none_view hn
      simp [PPI.view, hb, hv]
    | some (c, rest) =>
      obtain ⟨hv, -⟩ := nextChar_some_view hn
      simp [PPI.view, hb, hv]
  | c :: rest => simp [PPI.view, hb]

theorem peek_view (s : PPI) :
    ((peek s).1 = s.view.head?) ∧ (peek s).2.view = s.view := by
  unfold peek
  match hb : s.buffer with
  | [] =>
    match hn : nextChar s.input with
    | none =>
      have hv := nextChar_none_view hn
      simp [PPI.view, hb, hv]
    | some (c, rest) =>
      obtain ⟨hv, -⟩ := nextChar_some_view hn
      simp [PPI.view, hb, hv]
  | c :: rest => simp [PPI.view, hb]

theorem drop_view_of_buffer_cons {s : PPI} {c : Char} {rest : List Char}
    (h : s.buffer = c :: rest) : s.drop.view = s.view.tail := by
  unfold PPI.drop
  rw [h]
  simp [PPI.view, h]

theorem tryPop_view (ch : Char) (s : PPI) :
    (s.view.head? = some ch →
      tryPop ch s = (true, (tryPop ch s).2) ∧ (tryPop ch s).2.view = s.view.tail) ∧
    (s.view.head? ≠ some ch →
      tryPop ch s = (false, (tryPop ch s).2) ∧ (tryPop ch s).2.view = s.view) := by
  obtain ⟨hp1, hp2⟩ := peek_view s
  constructor
  · intro hh
    have hc : (peek s).1 = some ch := by rw [hp1]; exact hh
    obtain ⟨brest, hbuf⟩ := peek_some_buffer hc
    unfold tryPop
    rw [if_pos hc]
    refine ⟨rfl, ?_⟩
    rw [drop_view_of_buffer_cons hbuf, hp2]
  · intro hh
    have hc : (peek s).1 ≠ some ch := by rw [hp1]; exact hh
    unfold tryPop
    rw [if_neg hc]
    exact ⟨rfl, hp2⟩

theorem tryPop_true_view {ch : Char} {s : PPI}
    (h : (tryPop ch s).1 = true) :
    s.view.head? = some ch ∧ (tryPop ch s).2.view = s.view.tail := by
  by_cases hh : s.view.head? = some ch
  · exact ⟨hh, ((tryPop_view ch s).1 hh).2⟩
  · have := ((tryPop_view ch s).2 hh).1
    rw [this] at h
    simp at h

theorem tryPop_false_view {ch : Char} {s : PPI}
    (h : (tryPop ch s).1 = false) :
    s.view.head? ≠ some ch ∧ (tryPop ch s).2.view = s.view := by
  by_cases hh : s.view.head? = some ch
  · have := ((tryPop_view ch s).1 hh).1
    rw [this] at h
    simp at h
  · exact ⟨hh, ((tryPop_view ch s).2 hh).2⟩

theorem peekN_view (n : Nat) (s : PPI) :
    (peekN n s).1 = s.view[n]? ∧ (peekN n s).2.view = s.view := by
  induction s using peekN.induct n with
  | case1 s hlen hn =>
    rw [peekN, if_pos hlen, hn]
    have hv := nextChar_none_view hn
    have hview : s.view = s.buffer := by simp [PPI.view, hv]
    constructor
    · rw [hview]
      exact (List.getElem?_eq_none hlen).symm
    · simp [PPI.view, hview, hv]
  | case2 s hlen c rest hn ih =>
    rw [peekN, if_pos hlen, hn]
    obtain ⟨hv, -⟩ := nextChar_some_view hn
    have hview : ({ buffer := s.buffer ++ [c], input := rest } : PPI).view = s.view := by
      simp [PPI.view, hv]
    rw [ih.1, ih.2, hview]
    exact ⟨rfl, rfl⟩
  | case3 s hlen =>
    rw [peekN, if_neg hlen]
    have hlt : n < s.buffer.length := Nat.lt_of_not_le hlen
    constructor
    · simp only [PPI.view]
      rw [List.getElem?_append_left hlt]
    · rfl

theorem peekN_some_len {n : Nat} {s : PPI} {c : Char}
    (h : (peekN n s).1 = some c) : n < (peekN n s).2.buffer.length := by
  induction s using peekN.induct n with
  | case1 s hlen hn => rw [peekN, if_pos hlen, hn] at h; simp at h
  | case2 s hlen c2 rest hn ih =>
    rw [peekN, if_pos hlen, hn] at h ⊢
    exact ih h
  | case3 s hlen =>
    rw [peekN, if_neg hlen]
    exact Nat.lt_of_not_le hlen

theorem peekN_buffer_mono (n : Nat) (s : PPI) :
    ∃ t, (peekN n s).2.buffer = s.buffer ++ t := by
  induction s using peekN.induct n with
  | case1 s hlen hn =>
    rw [peekN, if_pos hlen, hn]
    exact ⟨[], by simp⟩
  | case2 s hlen c rest hn ih =>
    rw [peekN, if_pos hlen, hn]
    obtain ⟨t, ht⟩ := ih
    exact ⟨[c] ++ t, by simp [ht]⟩
  | case3 s hlen =>
    rw [peekN, if_neg hlen]
    exact ⟨[], by simp⟩

theorem tryPopStringAux_view (str : List Char) :
    ∀ (n : Nat) (s : PPI), n ≤ s.buffer.length →
    (str.isPrefixOf (s.view.drop n) = true →
      tryPopStringAux str n s
        = (true, (tryPopStringAux str n s).2) ∧
      (tryPopStringAux str n s).2.view = s.view.drop (n + str.length)) ∧
    (str.isPrefixOf (s.view.drop n) = false →
      tryPopStringAux str n s
        = (false, (tryPopStringAux str n s).2) ∧
      (tryPopStringAux str n s).2.view = s.view) := by
  induction str with
  | nil =>
    intro n s hn
    refine ⟨fun _ => ⟨rfl, ?_⟩, fun hcon => by simp [List.isPrefixOf] at hcon⟩
    simp only [tryPopStringAux, PPI.view, List.length_nil, Nat.add_zero]
    rw [List.drop_append_of_le_length hn]
  | cons c rest ih =>
    intro n s hn
    obtain ⟨hp1, hp2⟩ := peekN_view n s
    have hview : s.view.drop n = (match s.view[n]? with
        | some x => x :: s.view.drop (n + 1) | none => []) := by
      match hx : s.view[n]? with
      | some x =>
        have := List.getElem?_eq_some_iff.mp hx
        obtain ⟨hlt, hget⟩ := this
        rw [List.drop_eq_getElem_cons hlt, hget]
      | none =>
        have hlen2 := List.getElem?_eq_none_iff.mp hx
        simp [List.drop_eq_nil_of_le hlen2]
    constructor
    · intro hpre
      rw [tryPopStringAux]
      match hx : s.view[n]? with
      | none =>
        rw [hx] at hview
        rw [hview] at hpre
        simp [List.isPrefixOf] at hpre
      | some x =>
        rw [hx] at hview
        rw [hview] at hpre
        simp only [List.isPrefixOf, Bool.and_eq_true, beq_iff_eq] at hpre
        obtain ⟨hcx, hrest⟩ := hpre
        have hax : (peekN n s).1 = some c := by rw [hp1, hx, hcx]
        rw [if_pos hax]
        have hlen2 : n + 1 ≤ (peekN n s).2.buffer.length := peekN_some_len hax
        have := ih (n + 1) (peekN n s).2 hlen2
        rw [hp2] at this
        obtain ⟨hsucc, -⟩ := this
        have h2 := hsucc hrest
        refine ⟨?_, ?_⟩
        · rw [h2.1]
        · rw [h2.2]
          congr 1
          simp [List.length_cons]
          omega
    · intro hpre
      rw [tryPopStringAux]
      match hx : s.view[n]? with
      | none =>
        have hax : (peekN n s).1 = none := by rw [hp1, hx]
        rw [if_neg (by rw [hax]; simp)]
        exact ⟨rfl, hp2⟩
      | some x =>
        rw [hx] at hview
        rw [hview] at hpre
        simp only [List.isPrefixOf, Bool.and_eq_true, beq_iff_eq] at hpre
        by_cases hcx : c = x
        · subst hcx
          simp only [beq_self_eq_true, Bool.true_and] at hpre
          have hax : (peekN n s).1 = some c := by rw [hp1, hx]
          rw [if_pos hax]
          have hlen2 : n + 1 ≤ (peekN n s).2.buffer.length := peekN_some_len hax
          have := ih (n + 1) (peekN n s).2 hlen2
          rw [hp2] at this
          obtain ⟨-, hfail⟩ := this
          have h2 := hfail hpre
          exact ⟨by rw [h2.1], h2.2⟩
        · have hax : (peekN n s).1 = some x := by rw [hp1, hx]
          rw [if_neg (by rw [hax]; simp only [Option.some.injEq]; exact fun h => hcx h.symm)]
          exact ⟨rfl, hp2⟩

theorem tryPopString_view (str : List Char) (s : PPI) :
    (str.isPrefixOf s.view = true →
      tryPopString str s = (true, (tryPopString str s).2) ∧
      (tryPopString str s).2.view = s.view.drop str.length) ∧
    (str.isPrefixOf s.view = false →
      tryPopString str s = (false, (tryPopString str s).2) ∧
      (tryPopString str s).2.view = s.view) := by
  have := tryPopStringAux_view str 0 s (Nat.zero_le _)
  simpa [tryPopString] using this

/-- Characters consumed by `scanAdd`. -/
def isAddChar (c : Char) : Bool := c = '+' || c = '-'

/-- Characters consumed by `scanMove`. -/
def isMoveChar (c : Char) : Bool := c = '>' || c = '<'

/-- Contribution of one character to a `scanAdd` count. -/
def addVal (c : Char) : Int := if c = '+' then 1 else if c = '-' then -1 else 0

/-- Contribution of one character to a `scanMove` count. -/
def moveVal (c : Char) : Int := if c = '>' then 1 else if c = '<' then -1 else 0

theorem view_head_cons {s : PPI} {c : Char} (h : s.view.head? = some c) :
    s.view = c :: s.view.tail := by
  match hv : s.view with
  | [] => rw [hv] at h; simp at h
  | x :: t => rw [hv] at h; simp at h; simp [hv, h]

theorem scanAdd_view (n : Int) (s : PPI) :
    (scanAdd n s).1 = n + ((s.view.takeWhile isAddChar).map addVal).sum ∧
    (scanAdd n s).2.view = s.view.dropWhile isAddChar := by
  induction n, s using scanAdd.induct with
  | case1 n s h1 ih =>
    rw [scanAdd, dif_pos h1]
    obtain ⟨hh, hv⟩ := tryPop_true_view h1
    have hcons := view_head_cons hh
    rw [ih.1, ih.2, hv, hcons]
    simp [List.takeWhile_cons, List.dropWhile_cons, isAddChar, addVal]
    omega
  | case2 n s h1 h2 ih =>
    rw [scanAdd, dif_neg h1, dif_pos h2]
    obtain ⟨-, hv1⟩ := tryPop_false_view (Bool.not_eq_true _ ▸ h1 : (tryPop '+' s).1 = false)
    obtain ⟨hh2, hv2⟩ := tryPop_true_view h2
    rw [hv1] at hh2 hv2
    have hcons := view_head_cons hh2
    rw [ih.1, ih.2, hv2, hcons]
    simp [List.takeWhile_cons, List.dropWhile_cons, isAddChar, addVal]
    omega
  | case3 n s h1 h2 =>
    rw [scanAdd, dif_neg h1, dif_neg h2]
    obtain ⟨hh1, hv1⟩ := tryPop_false_view (Bool.not_eq_true _ ▸ h1 : (tryPop '+' s).1 = false)
    obtain ⟨hh2, hv2⟩ := tryPop_false_view (Bool.not_eq_true _ ▸ h2 :
      (tryPop '-' (tryPop '+' s).2).1 = false)
    rw [hv1] at hh2 hv2
    rw [hv2]
    have hnadd : s.view.head? = none ∨
        ∃ c, s.view.head? = some c ∧ isAddChar c = false := by
      match hv : s.view.head? with
      | none => exact .inl rfl
      | some c =>
        refine .inr ⟨c, rfl, ?_⟩
        rw [hv] at hh1 hh2
        simp only [isAddChar]
        have h1c : c ≠ '+' := fun hc => hh1 (by rw [hc])
        have h2c : c ≠ '-' := fun hc => hh2 (by rw [hc])
        simp [h1c, h2c]
    rcases hnadd with hv | ⟨c, hv, hc⟩
    · have : s.view = [] := by
        match hl : s.view with
        | [] => rfl
        | x :: t => rw [hl] at hv; simp at hv
      rw [this]
      simp
    · have hcons := view_head_cons hv
      rw [hcons]
      simp [List.takeWhile_cons, List.dropWhile_cons, hc]

theorem scanMove_view (n : Int) (s : PPI) :
    (scanMove n s).1 = n + ((s.view.takeWhile isMoveChar).map moveVal).sum ∧
    (scanMove n s).2.view = s.view.dropWhile isMoveChar := by
  induction n, s using scanMove.induct with
  | case1 n s h1 ih =>
    rw [scanMove, dif_pos h1]
    obtain ⟨hh, hv⟩ := tryPop_true_view h1
    have hcons := view_head_cons hh
    rw [ih.1, ih.2, hv, hcons]
    simp [List.takeWhile_cons, List.dropWhile_cons, isMoveChar, moveVal]
    omega
  | case2 n s h1 h2 ih =>
    rw [scanMove, dif_neg h1, dif_pos h2]
    obtain ⟨-, hv1⟩ := tryPop_false_view (Bool.not_eq_true _ ▸ h1 : (tryPop '>' s).1 = false)
    obtain ⟨hh2, hv2⟩ := tryPop_true_view h2
    rw [hv1] at hh2 hv2
    have hcons := view_head_cons hh2
    rw [ih.1, ih.2, hv2, hcons]
    simp [List.takeWhile_cons, List.dropWhile_cons, isMoveChar, moveVal]
    omega
  | case3 n s h1 h2 =>
    rw [scanMove, dif_neg h1, dif_neg h2]
    obtain ⟨hh1, hv1⟩ := tryPop_false_view (Bool.not_eq_true _ ▸ h1 : (tryPop '>' s).1 = false)
    obtain ⟨hh2, hv2⟩ := tryPop_false_view (Bool.not_eq_true _ ▸ h2 :
      (tryPop '<' (tryPop '>' s).2).1 = false)
    rw [hv1] at hh2 hv2
    rw [hv2]
    have hnmove : s.view.head? = none ∨
        ∃ c, s.view.head? = some c ∧ isMoveChar c = false := by
      match hv : s.view.head? with
      | none => exact .inl rfl
      | some c =>
        refine .inr ⟨c, rfl, ?_⟩
        rw [hv] at hh1 hh2
        simp only [isMoveChar]
        have h1c : c ≠ '>' := fun hc => hh1 (by rw [hc])
        have h2c : c ≠ '<' := fun hc => hh2 (by rw [hc])
        simp [h1c, h2c]
    rcases hnmove with hv | ⟨c, hv, hc⟩
    · have : s.view = [] := by
        match hl : s.view with
        | [] => rfl
        | x :: t => rw [hl] at hv; simp at hv
      rw [this]
      simp
    · have hcons := view_head_cons hv
      rw [hcons]
      simp [List.takeWhile_cons, List.dropWhile_cons, hc]

/-- The `(move, add, move)` window that `scanMoveAddMove` reads off a
character list. -/
def mamOf (initial : Int) (v : List Char) : MoveAddMove :=
  { lhs := initial + ((v.takeWhile isMoveChar).map moveVal).sum,
    addBy := (((v.dropWhile isMoveChar).takeWhile isAddChar).map addVal).sum,
    rhs := ((((v.dropWhile isMoveChar).dropWhile isAddChar).takeWhile
      isMoveChar).map moveVal).sum }

/-- The characters remaining after a `scanMoveAddMove`. -/
def mamRest (v : List Char) : List Char :=
  ((v.dropWhile isMoveChar).dropWhile isAddChar).dropWhile isMoveChar

theorem scanMoveAddMove_view (initial : Int) (s : PPI) :
    (scanMoveAddMove initial s).1 = mamOf initial s.view ∧
    (scanMoveAddMove initial s).2.view = mamRest s.view := by
  unfold scanMoveAddMove
  obtain ⟨ha1, ha2⟩ := scanMove_view initial s
  obtain ⟨hb1, hb2⟩ := scanAdd_view 0 (scanMove initial s).2
  obtain ⟨hc1, hc2⟩ := scanMove_view 0 (scanAdd 0 (scanMove initial s).2).2
  rw [ha2] at hb1 hb2
  rw [hb2] at hc1 hc2
  constructor
  · simp only [mamOf]
    rw [ha1, hb1, hc1]
    simp
  · rw [hc2]
    rfl

/-- The crash reachable in the lifter: `indexes.back()` on an empty vector in
`CodePlanter::plantCLOSE` (unmatched `]`), which is undefined behaviour in
the C++. -/
inductive PErr where
  | undefinedBehaviour
deriving DecidableEq, Repr

/-- `CodePlanter` state: compile flags, scanner, the `loc_is_zero` fact, the
json program under construction and the open-loop index stack (the head of
`indexes` plays the role of `std::vector::back`). -/
structure Planter where
  flags : CompileFlags
  input : PPI
  loc_is_zero : Bool
  program : List Rec
  indexes : List Nat
deriving DecidableEq, Repr

/-- `CodePlanter::unplantBeforeSetZero`: remove trailing records while they
carry the `DiscardBeforeSetZero` field. -/
def unplantBeforeSetZero (p : List Rec) : List Rec :=
  (p.reverse.dropWhile hasDiscardField).reverse

/-- `CodePlanter::plantOpCode`: append the opcode record (with the discard
field when the opcode advertises it) and update `loc_is_zero` from the
opcode's `locIsZero` column. -/
def plantOpCode (o : OpName) (s : Planter) : Planter :=
  { s with program := s.program ++ [.op o (discardFlag o)],
           loc_is_zero := locIsZeroFlag o }

/-- `CodePlanter::plantOperand`. -/
def plantOperand (n : Int) (o : OpName) (s : Planter) : Planter :=
  { s with program := s.program ++ [.operand n (discardFlag o)] }

/-- `CodePlanter::plantOpCodeAndOperand`. -/
def plantOpCodeAndOperand (o : OpName) (n : Int) (s : Planter) : Planter :=
  plantOperand n o (plantOpCode o s)

/-- `CodePlanter::plantDyad`. -/
def plantDyad (hi lo : Int) (s : Planter) : Planter :=
  { s with program := s.program ++ [.dyad hi lo] }

/-- `CodePlanter::plantOPEN`: plant the opcode, push the index of the slot
that will carry the target, and plant a `null` placeholder there. -/
def plantOPEN (s : Planter) : Planter :=
  let s1 := plantOpCode .OPEN s
  { s1 with indexes := s1.program.length :: s1.indexes,
            program := s1.program ++ [.null] }

/-- `CodePlanter::plantCLOSE`: plant the opcode, pop the matching `OPEN`'s
placeholder index (undefined behaviour when the stack is empty), overwrite
the placeholder with `end + 1` and plant the `CLOSE` operand `start + 1`. -/
def plantCLOSE (s : Planter) : Except PErr Planter :=
  match s.indexes with
  | [] => .error .undefinedBehaviour
  | start :: rest =>
    .ok (plantOperand (start + 1) .CLOSE
      { plantOpCode .CLOSE s with
        indexes := rest,
        program := (plantOpCode .CLOSE s).program.set start
          (.operand (((plantOpCode .CLOSE s).program.length : Int) + 1) false) })

def plantPUT (s : Planter) : Planter := plantOpCode .PUT s

def plantGET (s : Planter) : Planter := plantOpCode .GET s

def plantSEEK_LEFT (s : Planter) : Planter := plantOpCode .SEEK_LEFT s

def plantSEEK_RIGHT (s : Planter) : Planter := plantOpCode .SEEK_RIGHT s

def plantSetZero (s : Planter) : Planter := plantOpCode .SET_ZERO s

/-- `CodePlanter::plantMOVE`. -/
def plantMOVE (n : Int) (s : Planter) : Planter :=
  if n = 1 then plantOpCode .RIGHT s
  else if n = -1 then plantOpCode .LEFT s
  else if n ≠ 0 then plantOpCodeAndOperand .MOVE n s
  else s

/-- `CodePlanter::plantADD`. -/
def plantADD (n : Int) (s : Planter) : Planter :=
  if n = 1 then plantOpCode .INCR s
  else if n = -1 then plantOpCode .DECR s
  else if n ≠ 0 then plantOpCodeAndOperand .ADD n s
  else s

/-- `CodePlanter::plantADD_OFFSET`. -/
def plantADD_OFFSET (offset bY : Int) (s : Planter) : Planter :=
  plantDyad offset bY (plantOpCode .ADD_OFFSET s)

/-- `CodePlanter::plantXFR_MULTIPLE`. -/
def plantXFR_MULTIPLE (offset bY : Int) (s : Planter) : Planter :=
  plantDyad offset bY (plantOpCode .XFR_MULTIPLE s)

@[simp] theorem plantOpCode_input (o : OpName) (s : Planter) :
    (plantOpCode o s).input = s.input := rfl

@[simp] theorem plantOperand_input (n : Int) (o : OpName) (s : Planter) :
    (plantOperand n o s).input = s.input := rfl

@[simp] theorem plantOpCodeAndOperand_input (o : OpName) (n : Int) (s : Planter) :
    (plantOpCodeAndOperand o n s).input = s.input := rfl

@[simp] theorem plantDyad_input (hi lo : Int) (s : Planter) :
    (plantDyad hi lo s).input = s.input := rfl

@[simp] theorem plantMOVE_input (n : Int) (s : Planter) :
    (plantMOVE n s).input = s.input := by
  unfold plantMOVE
  split_ifs <;> rfl

@[simp] theorem plantADD_input (n : Int) (s : Planter) :
    (plantADD n s).input = s.input := by
  unfold plantADD
  split_ifs <;> rfl

@[simp] theorem plantADD_OFFSET_input (offset bY : Int) (s : Planter) :
    (plantADD_OFFSET offset bY s).input = s.input := rfl

@[simp] theorem plantXFR_MULTIPLE_input (offset bY : Int) (s : Planter) :
    (plantXFR_MULTIPLE offset bY s).input = s.input := rfl

@[simp] theorem plantOPEN_input (s : Planter) : (plantOPEN s).input = s.input := rfl

/-- Rank used for the termination of the recursive normaliser
`plantMoveAddMove`: a window with no add part and no trailing move is
handled without recursion. -/
def mamRank (m : MoveAddMove) : Nat := if m.addBy = 0 ∧ m.rhs = 0 then 0 else 1

theorem mam_lex {inp : PPI} {seed : Int} {mim : MoveAddMove}
    (hrank : mamRank mim = 1) :
    Prod.Lex (· < ·) (· < ·)
      ((scanMoveAddMove seed inp).2.measure, mamRank (scanMoveAddMove seed inp).1)
      (inp.measure, mamRank mim) := by
  rcases scanMoveAddMove_spec seed inp with ⟨hle, heq⟩
  rcases Nat.lt_or_eq_of_le hle with hlt | he
  · exact Prod.Lex.left _ _ hlt
  · rw [he]
    have hz := heq he
    have h0 : mamRank (scanMoveAddMove seed inp).1 = 0 := by
      simp [mamRank, hz.1, hz.2]
    rw [h0, hrank]
    exact Prod.Lex.right _ (by omega)

/-- `CodePlanter::plantMoveAddMove`: the recursive normaliser over the
`(move, add, move)` window (`cisc_compiler_demo.cpp` 415-448). -/
def plantMoveAddMove (mim : MoveAddMove) (s : Planter) : Planter :=
  if h0 : mim.addBy = 0 then
    if h1 : mim.rhs = 0 then plantMOVE mim.lhs s
    else if h2 : mim.lhs = 0 then
      plantMoveAddMove (scanMoveAddMove mim.rhs s.input).1
        { s with input := (scanMoveAddMove mim.rhs s.input).2 }
    else
      plantMoveAddMove (scanMoveAddMove (mim.lhs + mim.rhs) s.input).1
        { s with input := (scanMoveAddMove (mim.lhs + mim.rhs) s.input).2 }
  else if hop : mim.lhs ≠ 0 ∧ mim.rhs ≠ 0 ∧ sgn mim.lhs ≠ sgn mim.rhs then
    if hab : |mim.lhs| = |mim.rhs| then plantADD_OFFSET mim.lhs mim.addBy s
    else if hgt : |mim.lhs| > |mim.rhs| then
      plantADD_OFFSET (sgn mim.lhs * |mim.rhs|) mim.addBy
        (plantMOVE (sgn mim.lhs * (|mim.lhs| - |mim.rhs|)) s)
    else
      plantMoveAddMove
        (scanMoveAddMove (sgn mim.rhs * (|mim.rhs| - |mim.lhs|))
          (plantADD_OFFSET mim.lhs mim.addBy s).input).1
        { plantADD_OFFSET mim.lhs mim.addBy s with
          input := (scanMoveAddMove (sgn mim.rhs * (|mim.rhs| - |mim.lhs|))
            (plantADD_OFFSET mim.lhs mim.addBy s).input).2 }
  else
    plantMoveAddMove
      (scanMoveAddMove mim.rhs (plantADD mim.addBy (plantMOVE mim.lhs s)).input).1
      { plantADD mim.addBy (plantMOVE mim.lhs s) with
        input := (scanMoveAddMove mim.rhs
          (plantADD mim.addBy (plantMOVE mim.lhs s)).input).2 }
termination_by (s.input.measure, mamRank mim)
decreasing_by
  · exact mam_lex (by simp [mamRank, h1])
  · exact mam_lex (by simp [mamRank, h1])
  · simp only [plantADD_OFFSET_input]
    exact mam_lex (by simp [mamRank, h0])
  · simp only [plantADD_input, plantMOVE_input]
    exact mam_lex (by simp [mamRank, h0])

theorem plantMoveAddMove_measure_le (mim : MoveAddMove) (s : Planter) :
    (plantMoveAddMove mim s).input.measure ≤ s.input.measure := by
  induction mim, s using plantMoveAddMove.induct with
  | case1 mim s h0 h1 => rw [plantMoveAddMove, dif_pos h0, dif_pos h1]; simp
  | case2 mim s h0 h1 h2 ih =>
    rw [plantMoveAddMove, dif_pos h0, dif_neg h1, dif_pos h2]
    exact Nat.le_trans ih (scanMoveAddMove_spec _ _).1
  | case3 mim s h0 h1 h2 ih =>
    rw [plantMoveAddMove, dif_pos h0, dif_neg h1, dif_neg h2]
    exact Nat.le_trans ih (scanMoveAddMove_spec _ _).1
  | case4 mim s h0 hop hab =>
    rw [plantMoveAddMove, dif_neg h0, dif_pos hop, dif_pos hab]
    simp
  | case5 mim s h0 hop hab hgt =>
    rw [plantMoveAddMove, dif_neg h0, dif_pos hop, dif_neg hab, dif_pos hgt]
    simp
  | case6 mim s h0 hop hab hgt ih =>
    rw [plantMoveAddMove, dif_neg h0, dif_pos hop, dif_neg hab, dif_neg hgt]
    refine Nat.le_trans ih ?_
    simp only [plantADD_OFFSET_input]
    exact (scanMoveAddMove_spec _ _).1
  | case7 mim s h0 hop ih =>
    rw [plantMoveAddMove, dif_neg h0, dif_neg hop]
    refine Nat.le_trans ih ?_
    simp only [plantADD_input, plantMOVE_input]
    exact (scanMoveAddMove_spec _ _).1

theorem peekN_measure_le (n : Nat) (s : PPI) : (peekN n s).2.measure ≤ s.measure := by
  induction s using peekN.induct n with
  | case1 s hlen hn =>
    rw [peekN, if_pos hlen, hn]
    simp [PPI.measure]
  | case2 s hlen c rest hn ih =>
    rw [peekN, if_pos hlen, hn]
    refine Nat.le_trans ih ?_
    have := nextChar_some_length hn
    simp [PPI.measure]
    omega
  | case3 s hlen =>
    rw [peekN, if_neg hlen]

theorem tryPopStringAux_measure_le (str : List Char) (n : Nat) (s : PPI) :
    (tryPopStringAux str n s).2.measure ≤ s.measure := by
  induction str generalizing n s with
  | nil =>
    simp only [tryPopStringAux, PPI.measure, List.length_drop]
    omega
  | cons c rest ih =>
    rw [tryPopStringAux]
    by_cases hm : (peekN n s).1 = some c
    · rw [if_pos hm]
      exact Nat.le_trans (ih (n + 1) (peekN n s).2) (peekN_measure_le n s)
    · rw [if_neg hm]
      exact peekN_measure_le n s

theorem tryPopString_measure_le (str : List Char) (s : PPI) :
    (tryPopString str s).2.measure ≤ s.measure :=
  tryPopStringAux_measure_le str 0 s

/-- The dead-code consumption loop of `plantExpr`'s `[` case
(`cisc_compiler_demo.cpp` 485-495): pop characters tracking bracket nesting
until it returns to zero or the input ends. -/
def skipNesting (nesting : Int) (c : Option Char) : Int :=
  if c = some '[' then nesting + 1 else if c = some ']' then nesting - 1 else nesting

def skipDead (nesting : Int) (i : PPI) : PPI :=
  if hp : i.pop.1 = none then i.pop.2
  else if skipNesting nesting i.pop.1 = 0 then i.pop.2
  else skipDead (skipNesting nesting i.pop.1) i.pop.2
termination_by i.measure
decreasing_by
  rcases h : i.pop.1 with _ | c
  · exact absurd h hp
  · exact pop_some_measure h

/-- The pure content counterpart of `skipDead` on the view. -/
def skipDeadChars (nesting : Int) : List Char → List Char
  | [] => []
  | c :: rest =>
    if skipNesting nesting (some c) = 0 then rest
    else skipDeadChars (skipNesting nesting (some c)) rest

theorem skipDead_view (nesting : Int) (i : PPI) :
    (skipDead nesting i).view = skipDeadChars nesting i.view := by
  induction nesting, i using skipDead.induct with
  | case1 nesting i hp =>
    rw [skipDead, dif_pos hp]
    obtain ⟨hh, hv⟩ := pop_view i
    rw [hp] at hh
    have hnil : i.view = [] := by
      match hl : i.view with
      | [] => rfl
      | x :: t => rw [hl] at hh; simp at hh
    rw [hv, hnil]
    rfl
  | case2 nesting i hp hz =>
    rw [skipDead, dif_neg hp, if_pos hz]
    obtain ⟨hh, hv⟩ := pop_view i
    match hx : i.pop.1 with
    | none => exact absurd hx hp
    | some c =>
      rw [hx] at hh hz
      have hcons := view_head_cons hh.symm
      rw [hv, hcons, skipDeadChars, if_pos hz]
      rfl
  | case3 nesting i hp hz ih =>
    rw [skipDead, dif_neg hp, if_neg hz]
    obtain ⟨hh, hv⟩ := pop_view i
    match hx : i.pop.1 with
    | none => exact absurd hx hp
    | some c =>
      rw [hx] at hh hz ih
      have hcons := view_head_cons hh.symm
      rw [ih, hv]
      conv_rhs => rw [hcons]
      rw [skipDeadChars, if_neg hz]

theorem skipDead_measure_le (nesting : Int) (i : PPI) :
    (skipDead nesting i).measure ≤ i.measure := by
  induction nesting, i using skipDead.induct with
  | case1 nesting i hp => rw [skipDead, dif_pos hp]; exact pop_measure_le i
  | case2 nesting i hp hz =>
    rw [skipDead, dif_neg hp, if_pos hz]
    exact pop_measure_le i
  | case3 nesting i hp hz ih =>
    rw [skipDead, dif_neg hp, if_neg hz]
    exact Nat.le_trans ih (pop_measure_le i)

/-- Fourth guard of the `[` dispatch chain in `plantExpr`: the
multiply-transfer idiom. On failure of any guard the chain falls through to
`plantOPEN` followed by `plantMoveAddMove` on the already scanned window;
a failed `tryPopString` probe keeps its buffer materialisations. -/
def plantOpenXfr (mim : MoveAddMove) (s : Planter) : Planter :=
  if s.flags.xfrMultiple && mim.isNonZeroBalanced then
    if (tryPopString ['-', ']'] s.input).1 then
      plantXFR_MULTIPLE mim.lhs mim.addBy
        { s with input := (tryPopString ['-', ']'] s.input).2 }
    else
      plantMoveAddMove mim (plantOPEN
        { s with input := (tryPopString ['-', ']'] s.input).2 })
  else
    plantMoveAddMove mim (plantOPEN s)

/-- Third guard of the `[` dispatch chain: the `[<]` seek-left idiom. -/
def plantOpenSeekLeft (mim : MoveAddMove) (s : Planter) : Planter :=
  if s.flags.seekZero && mim.matches (-1) 0 0 then
    if (tryPop ']' s.input).1 then
      plantSEEK_LEFT { s with input := (tryPop ']' s.input).2 }
    else
      plantOpenXfr mim { s with input := (tryPop ']' s.input).2 }
  else
    plantOpenXfr mim s

/-- Second guard of the `[` dispatch chain: the `[>]` seek-right idiom. -/
def plantOpenSeekRight (mim : MoveAddMove) (s : Planter) : Planter :=
  if s.flags.seekZero && mim.matches 1 0 0 then
    if (tryPop ']' s.input).1 then
      plantSEEK_RIGHT { s with input := (tryPop ']' s.input).2 }
    else
      plantOpenSeekLeft mim { s with input := (tryPop ']' s.input).2 }
  else
    plantOpenSeekLeft mim s

/-- First guard of the `[` dispatch chain: the `[+]` / `[-]` set-to-zero
idiom, which also unplants the superfluous trailing records. -/
def plantOpenBump (mim : MoveAddMove) (s : Planter) : Planter :=
  if (mim.matches 0 1 0 || mim.matches 0 (-1) 0) && s.flags.locIsZero then
    if (tryPop ']' s.input).1 then
      plantSetZero { s with
        input := (tryPop ']' s.input).2,
        program := unplantBeforeSetZero s.program }
    else
      plantOpenSeekRight mim { s with input := (tryPop ']' s.input).2 }
  else
    plantOpenSeekRight mim s

/-- The `[` case of `CodePlanter::plantExpr` (`cisc_compiler_demo.cpp`
480-513): dead-code removal when the current cell is provably zero,
otherwise scan the loop-head window and dispatch on the idiom guards. -/
def plantOpenChar (s : Planter) : Planter :=
  if s.loc_is_zero && s.flags.deadCodeRemoval then
    { s with input := skipDead 1 s.input }
  else
    plantOpenBump (scanMoveAddMove 0 s.input).1
      { s with input := (scanMoveAddMove 0 s.input).2 }

/-- The switch body of `CodePlanter::plantExpr` on the popped character. -/
def plantExprChar (c : Option Char) (s0 : Planter) : Except PErr (Bool × Planter) :=
  if c = some '+' then
    .ok (true, plantADD (scanAdd 1 s0.input).1 { s0 with input := (scanAdd 1 s0.input).2 })
  else if c = some '-' then
    .ok (true, plantADD (scanAdd (-1) s0.input).1
      { s0 with input := (scanAdd (-1) s0.input).2 })
  else if c = some '>' then
    .ok (true, plantMoveAddMove (scanMoveAddMove 1 s0.input).1
      { s0 with input := (scanMoveAddMove 1 s0.input).2 })
  else if c = some '<' then
    .ok (true, plantMoveAddMove (scanMoveAddMove (-1) s0.input).1
      { s0 with input := (scanMoveAddMove (-1) s0.input).2 })
  else if c = some '[' then
    .ok (true, plantOpenChar s0)
  else if c = some ']' then
    (plantCLOSE s0).map (fun s1 => (true, s1))
  else if c = some '.' then
    .ok (true, plantPUT s0)
  else if c = some ',' then
    .ok (true, plantGET s0)
  else
    .ok (true, s0)

/-- `CodePlanter::plantExpr`: pop one command character and dispatch.
Returns `false` at end of input, `true` otherwise; the only failure is the
undefined behaviour of `plantCLOSE` on an unmatched `]`. -/
def plantExpr (s : Planter) : Except PErr (Bool × Planter) :=
  if s.input.pop.1 = none then .ok (false, { s with input := s.input.pop.2 })
  else
    plantExprChar s.input.pop.1 { s with input := s.input.pop.2 }

theorem plantOpenXfr_measure_le (mim : MoveAddMove) (s : Planter) :
    (plantOpenXfr mim s).input.measure ≤ s.input.measure := by
  unfold plantOpenXfr
  split_ifs
  · simp only [plantXFR_MULTIPLE_input]
    exact tryPopString_measure_le _ _
  · refine Nat.le_trans (plantMoveAddMove_measure_le _ _) ?_
    simp only [plantOPEN_input]
    exact tryPopString_measure_le _ _
  · exact Nat.le_trans (plantMoveAddMove_measure_le _ _) (by simp)

theorem plantOpenSeekLeft_measure_le (mim : MoveAddMove) (s : Planter) :
    (plantOpenSeekLeft mim s).input.measure ≤ s.input.measure := by
  unfold plantOpenSeekLeft plantSEEK_LEFT
  split_ifs
  · simp only [plantOpCode_input]
    exact tryPop_measure_le _ _
  · exact Nat.le_trans (plantOpenXfr_measure_le _ _) (tryPop_measure_le _ _)
  · exact plantOpenXfr_measure_le _ _

theorem plantOpenSeekRight_measure_le (mim : MoveAddMove) (s : Planter) :
    (plantOpenSeekRight mim s).input.measure ≤ s.input.measure := by
  unfold plantOpenSeekRight plantSEEK_RIGHT
  split_ifs
  · simp only [plantOpCode_input]
    exact tryPop_measure_le _ _
  · exact Nat.le_trans (plantOpenSeekLeft_measure_le _ _) (tryPop_measure_le _ _)
  · exact plantOpenSeekLeft_measure_le _ _

theorem plantOpenBump_measure_le (mim : MoveAddMove) (s : Planter) :
    (plantOpenBump mim s).input.measure ≤ s.input.measure := by
  unfold plantOpenBump plantSetZero
  split_ifs
  · simp only [plantOpCode_input]
    exact tryPop_measure_le _ _
  · exact Nat.le_trans (plantOpenSeekRight_measure_le _ _) (tryPop_measure_le _ _)
  · exact plantOpenSeekRight_measure_le _ _

theorem plantOpenChar_measure_le (s : Planter) :
    (plantOpenChar s).input.measure ≤ s.input.measure := by
  unfold plantOpenChar
  split_ifs
  · exact skipDead_measure_le 1 s.input
  · exact Nat.le_trans (plantOpenBump_measure_le _ _) (scanMoveAddMove_spec _ _).1

theorem plantCLOSE_ok_input {s s1 : Planter} (h : plantCLOSE s = .ok s1) :
    s1.input = s.input := by
  unfold plantCLOSE at h
  match hidx : s.indexes with
  | [] => rw [hidx] at h; exact absurd h (by simp)
  | start :: rest =>
    rw [hidx] at h
    simp only [Except.ok.injEq] at h
    rw [← h]
    rfl

theorem plantExprChar_ok_measure {c : Option Char} {s0 s' : Planter} {b : Bool}
    (h : plantExprChar c s0 = .ok (b, s')) :
    s'.input.measure ≤ s0.input.measure := by
  unfold plantExprChar at h
  split_ifs at h
  · simp only [Except.ok.injEq, Prod.mk.injEq] at h
    rw [← h.2]
    simp only [plantADD_input]
    exact (scanAdd_spec _ _).1
  · simp only [Except.ok.injEq, Prod.mk.injEq] at h
    rw [← h.2]
    simp only [plantADD_input]
    exact (scanAdd_spec _ _).1
  · simp only [Except.ok.injEq, Prod.mk.injEq] at h
    rw [← h.2]
    exact Nat.le_trans (plantMoveAddMove_measure_le _ _) (scanMoveAddMove_spec _ _).1
  · simp only [Except.ok.injEq, Prod.mk.injEq] at h
    rw [← h.2]
    exact Nat.le_trans (plantMoveAddMove_measure_le _ _) (scanMoveAddMove_spec _ _).1
  · simp only [Except.ok.injEq, Prod.mk.injEq] at h
    rw [← h.2]
    exact plantOpenChar_measure_le _
  · match hcl : plantCLOSE s0 with
    | .error e => rw [hcl] at h; exact absurd h (by simp [Except.map])
    | .ok s1 =>
      rw [hcl] at h
      simp only [Except.map, Except.ok.injEq, Prod.mk.injEq] at h
      rw [← h.2, plantCLOSE_ok_input hcl]
  · simp only [Except.ok.injEq, Prod.mk.injEq] at h
    rw [← h.2]
    exact Nat.le_refl _
  · simp only [Except.ok.injEq, Prod.mk.injEq] at h
    rw [← h.2]
    exact Nat.le_refl _
  · simp only [Except.ok.injEq, Prod.mk.injEq] at h
    rw [← h.2]

theorem plantExpr_true_measure {s s' : Planter}
    (h : plantExpr s = .ok (true, s')) :
    s'.input.measure < s.input.measure := by
  unfold plantExpr at h
  by_cases hp : s.input.pop.1 = none
  · rw [if_pos hp] at h
    simp at h
  · rw [if_neg hp] at h
    rcases hc : s.input.pop.1 with _ | c
    · exact absurd hc hp
    · have h1 := plantExprChar_ok_measure h
      have h2 : s.input.pop.2.measure < s.input.measure := pop_some_measure hc
      exact Nat.lt_of_le_of_lt h1 h2

/-- The `while (plantExpr()) {}` loop of `CodePlanter::plantProgram`. -/
def plantLoop (s : Planter) : Except PErr Planter :=
  match h : plantExpr s with
  | .error e => .error e
  | .ok (false, s1) => .ok s1
  | .ok (true, s1) => plantLoop s1
termination_by s.input.measure
decreasing_by exact plantExpr_true_measure h

/-- `CodePlanter::plantProgram`: run the loop, then plant the final HALT. -/
def plantProgram (s : Planter) : Except PErr Planter :=
  (plantLoop s).map (plantOpCode .HALT)

/-- The `CodePlanter` as constructed by `main`: empty program, empty loop
stack, `loc_is_zero` initially true, scanner on the raw source text. -/
def initPlanter (flags : CompileFlags) (src : List Char) : Planter :=
  { flags := flags, input := { buffer := [], input := src },
    loc_is_zero := true, program := [], indexes := [] }

/-- The compiler pipeline of `cisc_compiler_demo.cpp`'s `main`: plant the
whole program and emit the json record array. -/
def lift (flags : CompileFlags) (src : List Char) : Except PErr (List Rec) :=
  (plantProgram (initPlanter flags src)).map Planter.program

/-- One slot of the runner's instruction stream (the `Instruction` union of
the threaded-code demos): an opcode (address of a label), an `int64`
operand, a dyad, or the `nullptr` placeholder transiently planted by the
naive planter for an unpatched `[`. -/
inductive Instr where
  | opcode (o : OpName)
  | operand (n : Int)
  | dyad (hi lo : Int)
  | nullSlot
deriving DecidableEq, Repr

/-- The runner's `CodePlanter::plantProgram` (source file of the engine,
lines 155-169): map each record to one instruction slot, skipping records
that carry none of the `OpCode` / `Operand` / `High` fields (in particular
the auxiliary `DiscardBeforeSetZero` field is ignored), then append a final
`HALT`. -/
def loadRec : Rec → Option Instr
  | .op o _ => some (.opcode o)
  | .operand n _ => some (.operand n)
  | .dyad hi lo => some (.dyad hi lo)
  | .null => none

def loadProgram (rs : List Rec) : List Instr :=
  rs.filterMap loadRec ++ [.opcode .HALT]

/-- Engine state: unbounded byte tape, data pointer, remaining stdin bytes
and emitted stdout bytes. Cells always hold values `< 256`. -/
structure EState where
  mem : Int → Nat
  loc : Int
  inp : List Nat
  out : List Nat

/-- Byte store: `unsigned char` arithmetic reduced modulo `2^8`. -/
def wrapByte (n : Int) : Nat := (n % 256).toNat

/-- Write one tape cell. -/
def writeMem (m : Int → Nat) (i : Int) (v : Nat) : Int → Nat :=
  Function.update m i v

/-- Result of one dispatch step of the engine. -/
inductive StepRes where
  | next (pc : Nat) (s : EState)
  | halt (s : EState)
  | crash

/-- One dispatch step of `Engine::runFile` (the labelled blocks of the
runner, `src/unnamed/part_000` lines 223-331). Fetching a slot that is not
an opcode, an absent slot, an operand fetch that does not find an operand
slot, or a negative jump target, is undefined behaviour in the C++ and is
modelled as `crash`. `SEEK_LEFT`/`SEEK_RIGHT` perform their inner `while`
loop one cell per dispatch step (re-entering the same `pc`), which is
observationally the same as the C++ loop. -/
def engineStep (p : List Instr) (pc : Nat) (s : EState) : StepRes :=
  match p[pc]? with
  | some (.opcode .INCR) => .next (pc + 1)
      { s with mem := writeMem s.mem s.loc (wrapByte ((s.mem s.loc : Int) + 1)) }
  | some (.opcode .DECR) => .next (pc + 1)
      { s with mem := writeMem s.mem s.loc (wrapByte ((s.mem s.loc : Int) - 1)) }
  | some (.opcode .ADD) =>
    match p[pc + 1]? with
    | some (.operand n) => .next (pc + 2)
        { s with mem := writeMem s.mem s.loc (wrapByte ((s.mem s.loc : Int) + n)) }
    | _ => .crash
  | some (.opcode .ADD_OFFSET) =>
    match p[pc + 1]? with
    | some (.dyad offset bY) => .next (pc + 2)
        { s with
          mem := writeMem s.mem (s.loc + offset)
            (wrapByte ((s.mem (s.loc + offset) : Int) + bY)) }
    | _ => .crash
  | some (.opcode .RIGHT) => .next (pc + 1) { s with loc := s.loc + 1 }
  | some (.opcode .LEFT) => .next (pc + 1) { s with loc := s.loc - 1 }
  | some (.opcode .MOVE) =>
    match p[pc + 1]? with
    | some (.operand n) => .next (pc + 2) { s with loc := s.loc + n }
    | _ => .crash
  | some (.opcode .PUT) => .next (pc + 1) { s with out := s.out ++ [s.mem s.loc] }
  | some (.opcode .GET) =>
    match s.inp with
    | [] => .next (pc + 1) s
    | b :: rest => .next (pc + 1)
        { s with mem := writeMem s.mem s.loc (b % 256), inp := rest }
  | some (.opcode .OPEN) =>
    match p[pc + 1]? with
    | some (.operand n) =>
      if s.mem s.loc = 0 then
        if n < 0 then .crash else .next n.toNat s
      else .next (pc + 2) s
    | _ => .crash
  | some (.opcode .CLOSE) =>
    match p[pc + 1]? with
    | some (.operand n) =>
      if s.mem s.loc ≠ 0 then
        if n < 0 then .crash else .next n.toNat s
      else .next (pc + 2) s
    | _ => .crash
  | some (.opcode .SET_ZERO) => .next (pc + 1) { s with mem := writeMem s.mem s.loc 0 }
  | some (.opcode .XFR_MULTIPLE) =>
    match p[pc + 1]? with
    | some (.dyad offset bY) => .next (pc + 2)
        { s with
          mem :=
            writeMem
              (writeMem s.mem (s.loc + offset)
                (wrapByte ((s.mem (s.loc + offset) : Int) + (s.mem s.loc : Int) * bY)))
              s.loc 0 }
    | _ => .crash
  | some (.opcode .SEEK_LEFT) =>
    if s.mem s.loc = 0 then .next (pc + 1) s
    else .next pc { s with loc := s.loc - 1 }
  | some (.opcode .SEEK_RIGHT) =>
    if s.mem s.loc = 0 then .next (pc + 1) s
    else .next pc { s with loc := s.loc + 1 }
  | some (.opcode .HALT) => .halt s
  | _ => .crash

/-- Result of a bounded engine run. -/
inductive RunRes where
  | halted (s : EState)
  | crashed
  | fuelOut

/-- The dispatch loop, bounded by fuel. -/
def engineRun (fuel : Nat) (p : List Instr) (pc : Nat) (s : EState) : RunRes :=
  match fuel with
  | 0 => .fuelOut
  | f + 1 =>
    match engineStep p pc s with
    | .halt s1 => .halted s1
    | .crash => .crashed
    | .next pc1 s1 => engineRun f p pc1 s1

/-- The all-zero initial tape. -/
def zeroMem : Int → Nat := fun _ => 0

/-- Engine start state on a given stdin. -/
def initEState (inp : List Nat) : EState :=
  { mem := zeroMem, loc := 0, inp := inp, out := [] }

/-- Observable output of a bounded run from slot 0: `some out` when the run
reaches `HALT` within the fuel. -/
def runOutput (fuel : Nat) (p : List Instr) (inp : List Nat) : Option (List Nat) :=
  match engineRun fuel p 0 (initEState inp) with
  | .halted s => some s.out
  | _ => none

/-- The naive one-character-at-a-time planter of `direct_threading_demo.cpp`
(`CodePlanter::plantChar`): the eight command characters map to one opcode
slot each; `[` plants an opcode plus a `nullptr` placeholder and pushes the
placeholder index; `]` plants the opcode, pops the matching index (undefined
behaviour when empty), backpatches it with `end + 1` and plants `start + 1`;
all other characters are skipped. -/
def naiveOpcodeOfChar : Char → Option OpName
  | '+' => some .INCR
  | '-' => some .DECR
  | '<' => some .LEFT
  | '>' => some .RIGHT
  | '[' => some .OPEN
  | ']' => some .CLOSE
  | '.' => some .PUT
  | ',' => some .GET
  | _ => none

/-- State of the naive planter: instruction vector and open-loop stack. -/
structure NPlanter where
  program : List Instr
  indexes : List Nat
deriving DecidableEq, Repr

def naivePlantChar (ch : Char) (st : NPlanter) : Except PErr NPlanter :=
  match naiveOpcodeOfChar ch with
  | none => .ok st
  | some o =>
    let st1 : NPlanter := { st with program := st.program ++ [.opcode o] }
    if ch = '[' then
      .ok { program := st1.program ++ [.nullSlot],
            indexes := st1.program.length :: st1.indexes }
    else if ch = ']' then
      match st1.indexes with
      | [] => .error .undefinedBehaviour
      | start :: rest =>
        .ok { program :=
                (st1.program.set start (.operand ((st1.program.length : Int) + 1)))
                  ++ [.operand ((start : Int) + 1)],
              indexes := rest }
    else .ok st1

/-- `CodePlanter::plantProgram` of `direct_threading_demo.cpp`: plant every
source character in order, then plant the HALT opcode. -/
def naivePlantList : List Char → NPlanter → Except PErr NPlanter
  | [], st => .ok st
  | c :: cs, st =>
    match naivePlantChar c st with
    | .error e => .error e
    | .ok st1 => naivePlantList cs st1

def naivePlant (src : List Char) : Except PErr (List Instr) :=
  (naivePlantList src { program := [], indexes := [] }).map
    (fun st => st.program ++ [.opcode .HALT])

/-- The naive pipeline: plant the source and run it on the engine (the
dispatch labels of `direct_threading_demo.cpp` are the relevant subset of
the runner's, with identical bodies). -/
def naiveRunOutput (fuel : Nat) (src : List Char) (inp : List Nat) :
    Option (List Nat) :=
  match naivePlant src with
  | .error _ => none
  | .ok p => runOutput fuel p inp

/-- Unit structure of a planter-built record list: a sequence of complete
instruction units. Each opcode record carries exactly its advertised
`DiscardBeforeSetZero` marking, `ADD`/`MOVE`/`CLOSE` opcodes are immediately
followed by their operand slot (marked only for `ADD`), `OPEN` by its
placeholder (`null` until backpatched, an unmarked operand afterwards), and
`ADD_OFFSET`/`XFR_MULTIPLE` by their dyad. -/
def wfUnits : List Rec → Bool
  | [] => true
  | .op .INCR d :: rest => d && wfUnits rest
  | .op .DECR d :: rest => d && wfUnits rest
  | .op .SET_ZERO d :: rest => !d && wfUnits rest
  | .op .LEFT d :: rest => !d && wfUnits rest
  | .op .RIGHT d :: rest => !d && wfUnits rest
  | .op .SEEK_LEFT d :: rest => !d && wfUnits rest
  | .op .SEEK_RIGHT d :: rest => !d && wfUnits rest
  | .op .GET d :: rest => !d && wfUnits rest
  | .op .PUT d :: rest => !d && wfUnits rest
  | .op .HALT d :: rest => !d && wfUnits rest
  | .op .ADD d :: .operand _ d2 :: rest => d && d2 && wfUnits rest
  | .op .MOVE d :: .operand _ d2 :: rest => !d && !d2 && wfUnits rest
  | .op .CLOSE d :: .operand _ d2 :: rest => !d && !d2 && wfUnits rest
  | .op .OPEN d :: .null :: rest => !d && wfUnits rest
  | .op .OPEN d :: .operand _ d2 :: rest => !d && !d2 && wfUnits rest
  | .op .ADD_OFFSET d :: .dyad _ _ :: rest => !d && wfUnits rest
  | .op .XFR_MULTIPLE d :: .dyad _ _ :: rest => !d && wfUnits rest
  | _ => false

/-- Records that are neither loop markers nor placeholders. -/
def neutralRec : Rec → Bool
  | .null => false
  | .op .OPEN _ => false
  | .op .CLOSE _ => false
  | _ => true

theorem wfUnits_append {p : List Rec} (q : List Rec) (h : wfUnits p = true) :
    wfUnits (p ++ q) = wfUnits q := by
  induction p using wfUnits.induct with
  | case1 => simp
  | case19 =>
    exfalso
    revert h
    simp [wfUnits]
  | _ =>
    rw [wfUnits] at h
    rename_i ih
    simp only [List.cons_append, wfUnits, List.append_eq]
    simp only [Bool.and_eq_true] at h
    first
    | (rw [ih h.2.2]; simp [h.1, h.2.1])
    | (rw [ih h.2]; simp [h.1])

theorem wfUnits_set_null (p : List Rec) :
    wfUnits p = true → ∀ (i : Nat) (t : Int), p[i]? = some .null →
      wfUnits (p.set i (.operand t false)) = true := by
  induction p using wfUnits.induct with
  | case1 => intro h i t hn; simp at hn
  | case19 t h1 h2 h3 h4 h5 h6 h7 h8 h9 h10 h11 h12 h13 h14 h15 h16 h17 h18 =>
    intro h
    exfalso
    revert h
    simp [wfUnits, h1, h2, h3, h4, h5, h6, h7, h8, h9, h10, h11, h12, h13, h14,
      h15, h16, h17, h18]
  | case15 d rest ih =>
    intro h i t hn
    rw [wfUnits] at h
    simp only [Bool.and_eq_true] at h
    match i with
    | 0 => simp at hn
    | 1 =>
      simp only [List.set_cons_succ, List.set_cons_zero]
      rw [wfUnits]
      simp [h.1, h.2]
    | (j+2) =>
      simp only [List.getElem?_cons_succ] at hn
      simp only [List.set_cons_succ]
      rw [wfUnits]
      simp [h.1, ih h.2 j t hn]
  | case2 d rest ih | case3 d rest ih | case4 d rest ih | case5 d rest ih
  | case6 d rest ih | case7 d rest ih | case8 d rest ih | case9 d rest ih
  | case10 d rest ih | case11 d rest ih =>
    intro h i t hn
    rw [wfUnits] at h
    simp only [Bool.and_eq_true] at h
    match i with
    | 0 => simp at hn
    | (j+1) =>
      simp only [List.getElem?_cons_succ] at hn
      simp only [List.set_cons_succ]
      rw [wfUnits]
      simp [h.1, ih h.2 j t hn]
  | case12 d n d2 rest ih | case13 d n d2 rest ih | case14 d n d2 rest ih
  | case16 d n d2 rest ih =>
    intro h i t hn
    rw [wfUnits] at h
    simp only [Bool.and_eq_true] at h
    match i with
    | 0 => simp at hn
    | 1 => simp at hn
    | (j+2) =>
      simp only [List.getElem?_cons_succ] at hn
      simp only [List.set_cons_succ]
      rw [wfUnits]
      simp [h.1.1, h.1.2, ih h.2 j t hn]
  | case17 d hi lo rest ih | case18 d hi lo rest ih =>
    intro h i t hn
    rw [wfUnits] at h
    simp only [Bool.and_eq_true] at h
    match i with
    | 0 => simp at hn
    | 1 => simp at hn
    | (j+2) =>
      simp only [List.getElem?_cons_succ] at hn
      simp only [List.set_cons_succ]
      rw [wfUnits]
      simp [h.1, ih h.2 j t hn]

theorem unplant_append (xs ys : List Rec) :
    unplantBeforeSetZero (xs ++ ys) =
      if unplantBeforeSetZero ys = [] then unplantBeforeSetZero xs
      else xs ++ unplantBeforeSetZero ys := by
  unfold unplantBeforeSetZero
  rw [List.reverse_append, List.dropWhile_append]
  by_cases he : (ys.reverse.dropWhile hasDiscardField).isEmpty
  · rw [if_pos he, if_pos]
    simp only [List.isEmpty_iff] at he
    rw [he]
    rfl
  · rw [if_neg he, if_neg]
    · simp
    · simp only [List.isEmpty_iff] at he
      simp [he]

/-- The suffix removed by `unplantBeforeSetZero`: the program always splits
as kept-prefix ++ removed-suffix with every removed record marked. -/
theorem unplant_split (p : List Rec) :
    ∃ q, p = unplantBeforeSetZero p ++ q ∧ (∀ r ∈ q, hasDiscardField r = true) := by
  unfold unplantBeforeSetZero
  refine ⟨(p.reverse.takeWhile hasDiscardField).reverse, ?_, ?_⟩
  · rw [← List.reverse_append, List.takeWhile_append_dropWhile, List.reverse_reverse]
  · intro r hr
    rw [List.mem_reverse] at hr
    exact List.mem_takeWhile_imp hr

theorem wfUnits_unplant {p : List Rec} (h : wfUnits p = true) :
    wfUnits (unplantBeforeSetZero p) = true := by
  induction p using wfUnits.induct with
  | case1 => exact h
  | case19 t h1 h2 h3 h4 h5 h6 h7 h8 h9 h10 h11 h12 h13 h14 h15 h16 h17 h18 =>
    exfalso
    revert h
    simp [wfUnits, h1, h2, h3, h4, h5, h6, h7, h8, h9, h10, h11, h12, h13, h14,
      h15, h16, h17, h18]
  | case2 d rest ih =>
    rw [wfUnits] at h
    simp only [Bool.and_eq_true] at h
    obtain ⟨hd, hrest⟩ := h
    subst hd
    rw [show (Rec.op .INCR true :: rest) = [Rec.op .INCR true] ++ rest from rfl,
      unplant_append]
    by_cases hz : unplantBeforeSetZero rest = []
    · rw [if_pos hz]
      simp [unplantBeforeSetZero, hasDiscardField, List.dropWhile, wfUnits]
    · rw [if_neg hz, List.singleton_append, wfUnits]
      simp [ih hrest]
  | case3 d rest ih =>
    rw [wfUnits] at h
    simp only [Bool.and_eq_true] at h
    obtain ⟨hd, hrest⟩ := h
    subst hd
    rw [show (Rec.op .DECR true :: rest) = [Rec.op .DECR true] ++ rest from rfl,
      unplant_append]
    by_cases hz : unplantBeforeSetZero rest = []
    · rw [if_pos hz]
      simp [unplantBeforeSetZero, hasDiscardField, List.dropWhile, wfUnits]
    · rw [if_neg hz, List.singleton_append, wfUnits]
      simp [ih hrest]
  | case4 d rest ih =>
    rw [wfUnits] at h
    simp only [Bool.and_eq_true, Bool.not_eq_true'] at h
    obtain ⟨hd, hrest⟩ := h
    subst hd
    rw [show (Rec.op .SET_ZERO false :: rest) = [Rec.op .SET_ZERO false] ++ rest from rfl,
      unplant_append]
    by_cases hz : unplantBeforeSetZero rest = []
    · rw [if_pos hz]
      simp [unplantBeforeSetZero, hasDiscardField, List.dropWhile, wfUnits]
    · rw [if_neg hz, List.singleton_append, wfUnits]
      simp [ih hrest]
  | case5 d rest ih =>
    rw [wfUnits] at h
    simp only [Bool.and_eq_true, Bool.not_eq_true'] at h
    obtain ⟨hd, hrest⟩ := h
    subst hd
    rw [show (Rec.op .LEFT false :: rest) = [Rec.op .LEFT false] ++ rest from rfl,
      unplant_append]
    by_cases hz : unplantBeforeSetZero rest = []
    · rw [if_pos hz]
      simp [unplantBeforeSetZero, hasDiscardField, List.dropWhile, wfUnits]
    · rw [if_neg hz, List.singleton_append, wfUnits]
      simp [ih hrest]
  | case6 d rest ih =>
    rw [wfUnits] at h
    simp only [Bool.and_eq_true, Bool.not_eq_true'] at h
    obtain ⟨hd, hrest⟩ := h
    subst hd
    rw [show (Rec.op .RIGHT false :: rest) = [Rec.op .RIGHT false] ++ rest from rfl,
      unplant_append]
    by_cases hz : unplantBeforeSetZero rest = []
    · rw [if_pos hz]
      simp [unplantBeforeSetZero, hasDiscardField, List.dropWhile, wfUnits]
    · rw [if_neg hz, List.singleton_append, wfUnits]
      simp [ih hrest]
  | case7 d rest ih =>
    rw [wfUnits] at h
    simp only [Bool.and_eq_true, Bool.not_eq_true'] at h
    obtain ⟨hd, hrest⟩ := h
    subst hd
    rw [show (Rec.op .SEEK_LEFT false :: rest) = [Rec.op .SEEK_LEFT false] ++ rest from rfl,
      unplant_append]
    by_cases hz : unplantBeforeSetZero rest = []
    · rw [if_pos hz]
      simp [unplantBeforeSetZero, hasDiscardField, List.dropWhile, wfUnits]
    · rw [if_neg hz, List.singleton_append, wfUnits]
      simp [ih hrest]
  | case8 d rest ih =>
    rw [wfUnits] at h
    simp only [Bool.and_eq_true, Bool.not_eq_true'] at h
    obtain ⟨hd, hrest⟩ := h
    subst hd
    rw [show (Rec.op .SEEK_RIGHT false :: rest) = [Rec.op .SEEK_RIGHT false] ++ rest from rfl,
      unplant_append]
    by_cases hz : unplantBeforeSetZero rest = []
    · rw [if_pos hz]
      simp [unplantBeforeSetZero, hasDiscardField, List.dropWhile, wfUnits]
    · rw [if_neg hz, List.singleton_append, wfUnits]
      simp [ih hrest]
  | case9 d rest ih =>
    rw [wfUnits] at h
    simp only [Bool.and_eq_true, Bool.not_eq_true'] at h
    obtain ⟨hd, hrest⟩ := h
    subst hd
    rw [show (Rec.op .GET false :: rest) = [Rec.op .GET false] ++ rest from rfl,
      unplant_append]
    by_cases hz : unplantBeforeSetZero rest = []
    · rw [if_pos hz]
      simp [unplantBeforeSetZero, hasDiscardField, List.dropWhile, wfUnits]
    · rw [if_neg hz, List.singleton_append, wfUnits]
      simp [ih hrest]
  | case10 d rest ih =>
    rw [wfUnits] at h
    simp only [Bool.and_eq_true, Bool.not_eq_true'] at h
    obtain ⟨hd, hrest⟩ := h
    subst hd
    rw [show (Rec.op .PUT false :: rest) = [Rec.op .PUT false] ++ rest from rfl,
      unplant_append]
    by_cases hz : unplantBeforeSetZero rest = []
    · rw [if_pos hz]
      simp [unplantBeforeSetZero, hasDiscardField, List.dropWhile, wfUnits]
    · rw [if_neg hz, List.singleton_append, wfUnits]
      simp [ih hrest]
  | case11 d rest ih =>
    rw [wfUnits] at h
    simp only [Bool.and_eq_true, Bool.not_eq_true'] at h
    obtain ⟨hd, hrest⟩ := h
    subst hd
    rw [show (Rec.op .HALT false :: rest) = [Rec.op .HALT false] ++ rest from rfl,
      unplant_append]
    by_cases hz : unplantBeforeSetZero rest = []
    · rw [if_pos hz]
      simp [unplantBeforeSetZero, hasDiscardField, List.dropWhile, wfUnits]
    · rw [if_neg hz, List.singleton_append, wfUnits]
      simp [ih hrest]
  | case12 d n d2 rest ih =>
    rw [wfUnits] at h
    simp only [Bool.and_eq_true] at h
    obtain ⟨⟨hd, hd2⟩, hrest⟩ := h
    subst hd
    subst hd2
    rw [show (Rec.op .ADD true :: Rec.operand n true :: rest)
        = [Rec.op .ADD true, Rec.operand n true] ++ rest from rfl, unplant_append]
    by_cases hz : unplantBeforeSetZero rest = []
    · rw [if_pos hz]
      simp [unplantBeforeSetZero, hasDiscardField, List.dropWhile, wfUnits]
    · rw [if_neg hz]
      simp only [List.cons_append, List.nil_append]
      rw [wfUnits]
      simp [ih hrest]
  | case13 d n d2 rest ih =>
    rw [wfUnits] at h
    simp only [Bool.and_eq_true, Bool.not_eq_true'] at h
    obtain ⟨⟨hd, hd2⟩, hrest⟩ := h
    subst hd
    subst hd2
    rw [show (Rec.op .MOVE false :: Rec.operand n false :: rest)
        = [Rec.op .MOVE false, Rec.operand n false] ++ rest from rfl, unplant_append]
    by_cases hz : unplantBeforeSetZero rest = []
    · rw [if_pos hz]
      simp [unplantBeforeSetZero, hasDiscardField, List.dropWhile, wfUnits]
    · rw [if_neg hz]
      simp only [List.cons_append, List.nil_append]
      rw [wfUnits]
      simp [ih hrest]
  | case14 d n d2 rest ih =>
    rw [wfUnits] at h
    simp only [Bool.and_eq_true, Bool.not_eq_true'] at h
    obtain ⟨⟨hd, hd2⟩, hrest⟩ := h
    subst hd
    subst hd2
    rw [show (Rec.op .CLOSE false :: Rec.operand n false :: rest)
        = [Rec.op .CLOSE false, Rec.operand n false] ++ rest from rfl, unplant_append]
    by_cases hz : unplantBeforeSetZero rest = []
    · rw [if_pos hz]
      simp [unplantBeforeSetZero, hasDiscardField, List.dropWhile, wfUnits]
    · rw [if_neg hz]
      simp only [List.cons_append, List.nil_append]
      rw [wfUnits]
      simp [ih hrest]
  | case15 d rest ih =>
    rw [wfUnits] at h
    simp only [Bool.and_eq_true, Bool.not_eq_true'] at h
    obtain ⟨hd, hrest⟩ := h
    subst hd
    rw [show (Rec.op .OPEN false :: Rec.null :: rest)
        = [Rec.op .OPEN false, Rec.null] ++ rest from rfl, unplant_append]
    by_cases hz : unplantBeforeSetZero rest = []
    · rw [if_pos hz]
      simp [unplantBeforeSetZero, hasDiscardField, List.dropWhile, wfUnits]
    · rw [if_neg hz]
      simp only [List.cons_append, List.nil_append]
      rw [wfUnits]
      simp [ih hrest]
  | case16 d n d2 rest ih =>
    rw [wfUnits] at h
    simp only [Bool.and_eq_true, Bool.not_eq_true'] at h
    obtain ⟨⟨hd, hd2⟩, hrest⟩ := h
    subst hd
    subst hd2
    rw [show (Rec.op .OPEN false :: Rec.operand n false :: rest)
        = [Rec.op .OPEN false, Rec.operand n false] ++ rest from rfl, unplant_append]
    by_cases hz : unplantBeforeSetZero rest = []
    · rw [if_pos hz]
      simp [unplantBeforeSetZero, hasDiscardField, List.dropWhile, wfUnits]
    · rw [if_neg hz]
      simp only [List.cons_append, List.nil_append]
      rw [wfUnits]
      simp [ih hrest]
  | case17 d hi lo rest ih =>
    rw [wfUnits] at h
    simp only [Bool.and_eq_true, Bool.not_eq_true'] at h
    obtain ⟨hd, hrest⟩ := h
    subst hd
    rw [show (Rec.op .ADD_OFFSET false :: Rec.dyad hi lo :: rest)
        = [Rec.op .ADD_OFFSET false, Rec.dyad hi lo] ++ rest from rfl, unplant_append]
    by_cases hz : unplantBeforeSetZero rest = []
    · rw [if_pos hz]
      simp [unplantBeforeSetZero, hasDiscardField, List.dropWhile, wfUnits]
    · rw [if_neg hz]
      simp only [List.cons_append, List.nil_append]
      rw [wfUnits]
      simp [ih hrest]
  | case18 d hi lo rest ih =>
    rw [wfUnits] at h
    simp only [Bool.and_eq_true, Bool.not_eq_true'] at h
    obtain ⟨hd, hrest⟩ := h
    subst hd
    rw [show (Rec.op .XFR_MULTIPLE false :: Rec.dyad hi lo :: rest)
        = [Rec.op .XFR_MULTIPLE false, Rec.dyad hi lo] ++ rest from rfl, unplant_append]
    by_cases hz : unplantBeforeSetZero rest = []
    · rw [if_pos hz]
      simp [unplantBeforeSetZero, hasDiscardField, List.dropWhile, wfUnits]
    · rw [if_neg hz]
      simp only [List.cons_append, List.nil_append]
      rw [wfUnits]
      simp [ih hrest]

theorem wfUnits_positional (p : List Rec) (h : wfUnits p = true) :
    (∀ (i : Nat) (d : Bool), p[i]? = some (.op .ADD d) →
       ∃ m : Int, p[i+1]? = some (.operand m true)) ∧
    (∀ (i : Nat) (m : Int) (d : Bool), p[i]? = some (.operand m d) →
       ∃ (j : Nat) (o : OpName) (d2 : Bool), i = j + 1 ∧ p[j]? = some (.op o d2)) := by
  induction p using wfUnits.induct with
  | case1 => exact ⟨fun i d hi => by simp at hi, fun i m d hi => by simp at hi⟩
  | case19 t h1 h2 h3 h4 h5 h6 h7 h8 h9 h10 h11 h12 h13 h14 h15 h16 h17 h18 =>
    exfalso
    revert h
    simp [wfUnits, h1, h2, h3, h4, h5, h6, h7, h8, h9, h10, h11, h12, h13, h14,
      h15, h16, h17, h18]
  | case2 d rest ih =>
    rw [wfUnits] at h
    simp only [Bool.and_eq_true] at h
    obtain ⟨ih1, ih2⟩ := ih h.2
    constructor
    · intro i dd hi
      match i with
      | 0 => simp at hi
      | (j+1) =>
        simp only [List.getElem?_cons_succ] at hi ⊢
        exact ih1 j dd hi
    · intro i m dd hi
      match i with
      | 0 => simp at hi
      | (j+1) =>
        simp only [List.getElem?_cons_succ] at hi
        obtain ⟨j2, o, d3, hj, hop⟩ := ih2 j m dd hi
        exact ⟨j2 + 1, o, d3, by omega, by simp only [List.getElem?_cons_succ]; exact hop⟩
  | case3 d rest ih =>
    rw [wfUnits] at h
    simp only [Bool.and_eq_true] at h
    obtain ⟨ih1, ih2⟩ := ih h.2
    constructor
    · intro i dd hi
      match i with
      | 0 => simp at hi
      | (j+1) =>
        simp only [List.getElem?_cons_succ] at hi ⊢
        exact ih1 j dd hi
    · intro i m dd hi
      match i with
      | 0 => simp at hi
      | (j+1) =>
        simp only [List.getElem?_cons_succ] at hi
        obtain ⟨j2, o, d3, hj, hop⟩ := ih2 j m dd hi
        exact ⟨j2 + 1, o, d3, by omega, by simp only [List.getElem?_cons_succ]; exact hop⟩
  | case4 d rest ih =>
    rw [wfUnits] at h
    simp only [Bool.and_eq_true] at h
    obtain ⟨ih1, ih2⟩ := ih h.2
    constructor
    · intro i dd hi
      match i with
      | 0 => simp at hi
      | (j+1) =>
        simp only [List.getElem?_cons_succ] at hi ⊢
        exact ih1 j dd hi
    · intro i m dd hi
      match i with
      | 0 => simp at hi
      | (j+1) =>
        simp only [List.getElem?_cons_succ] at hi
        obtain ⟨j2, o, d3, hj, hop⟩ := ih2 j m dd hi
        exact ⟨j2 + 1, o, d3, by omega, by simp only [List.getElem?_cons_succ]; exact hop⟩
  | case5 d rest ih =>
    rw [wfUnits] at h
    simp only [Bool.and_eq_true] at h
    obtain ⟨ih1, ih2⟩ := ih h.2
    constructor
    · intro i dd hi
      match i with
      | 0 => simp at hi
      | (j+1) =>
        simp only [List.getElem?_cons_succ] at hi ⊢
        exact ih1 j dd hi
    · intro i m dd hi
      match i with
      | 0 => simp at hi
      | (j+1) =>
        simp only [List.getElem?_cons_succ] at hi
        obtain ⟨j2, o, d3, hj, hop⟩ := ih2 j m dd hi
        exact ⟨j2 + 1, o, d3, by omega, by simp only [List.getElem?_cons_succ]; exact hop⟩
  | case6 d rest ih =>
    rw [wfUnits] at h
    simp only [Bool.and_eq_true] at h
    obtain ⟨ih1, ih2⟩ := ih h.2
    constructor
    · intro i dd hi
      match i with
      | 0 => simp at hi
      | (j+1) =>
        simp only [List.getElem?_cons_succ] at hi ⊢
        exact ih1 j dd hi
    · intro i m dd hi
      match i with
      | 0 => simp at hi
      | (j+1) =>
        simp only [List.getElem?_cons_succ] at hi
        obtain ⟨j2, o, d3, hj, hop⟩ := ih2 j m dd hi
        exact ⟨j2 + 1, o, d3, by omega, by simp only [List.getElem?_cons_succ]; exact hop⟩
  | case7 d rest ih =>
    rw [wfUnits] at h
    simp only [Bool.and_eq_true] at h
    obtain ⟨ih1, ih2⟩ := ih h.2
    constructor
    · intro i dd hi
      match i with
      | 0 => simp at hi
      | (j+1) =>
        simp only [List.getElem?_cons_succ] at hi ⊢
        exact ih1 j dd hi
    · intro i m dd hi
      match i with
      | 0 => simp at hi
      | (j+1) =>
        simp only [List.getElem?_cons_succ] at hi
        obtain ⟨j2, o, d3, hj, hop⟩ := ih2 j m dd hi
        exact ⟨j2 + 1, o, d3, by omega, by simp only [List.getElem?_cons_succ]; exact hop⟩
  | case8 d rest ih =>
    rw [wfUnits] at h
    simp only [Bool.and_eq_true] at h
    obtain ⟨ih1, ih2⟩ := ih h.2
    constructor
    · intro i dd hi
      match i with
      | 0 => simp at hi
      | (j+1) =>
        simp only [List.getElem?_cons_succ] at hi ⊢
        exact ih1 j dd hi
    · intro i m dd hi
      match i with
      | 0 => simp at hi
      | (j+1) =>
        simp only [List.getElem?_cons_succ] at hi
        obtain ⟨j2, o, d3, hj, hop⟩ := ih2 j m dd hi
        exact ⟨j2 + 1, o, d3, by omega, by simp only [List.getElem?_cons_succ]; exact hop⟩
  | case9 d rest ih =>
    rw [wfUnits] at h
    simp only [Bool.and_eq_true] at h
    obtain ⟨ih1, ih2⟩ := ih h.2
    constructor
    · intro i dd hi
      match i with
      | 0 => simp at hi
      | (j+1) =>
        simp only [List.getElem?_cons_succ] at hi ⊢
        exact ih1 j dd hi
    · intro i m dd hi
      match i with
      | 0 => simp at hi
      | (j+1) =>
        simp only [List.getElem?_cons_succ] at hi
        obtain ⟨j2, o, d3, hj, hop⟩ := ih2 j m dd hi
        exact ⟨j2 + 1, o, d3, by omega, by simp only [List.getElem?_cons_succ]; exact hop⟩
  | case10 d rest ih =>
    rw [wfUnits] at h
    simp only [Bool.and_eq_true] at h
    obtain ⟨ih1, ih2⟩ := ih h.2
    constructor
    · intro i dd hi
      match i with
      | 0 => simp at hi
      | (j+1) =>
        simp only [List.getElem?_cons_succ] at hi ⊢
        exact ih1 j dd hi
    · intro i m dd hi
      match i with
      | 0 => simp at hi
      | (j+1) =>
        simp only [List.getElem?_cons_succ] at hi
        obtain ⟨j2, o, d3, hj, hop⟩ := ih2 j m dd hi
        exact ⟨j2 + 1, o, d3, by omega, by simp only [List.getElem?_cons_succ]; exact hop⟩
  | case11 d rest ih =>
    rw [wfUnits] at h
    simp only [Bool.and_eq_true] at h
    obtain ⟨ih1, ih2⟩ := ih h.2
    constructor
    · intro i dd hi
      match i with
      | 0 => simp at hi
      | (j+1) =>
        simp only [List.getElem?_cons_succ] at hi ⊢
        exact ih1 j dd hi
    · intro i m dd hi
      match i with
      | 0 => simp at hi
      | (j+1) =>
        simp only [List.getElem?_cons_succ] at hi
        obtain ⟨j2, o, d3, hj, hop⟩ := ih2 j m dd hi
        exact ⟨j2 + 1, o, d3, by omega, by simp only [List.getElem?_cons_succ]; exact hop⟩
  | case12 d n d2 rest ih =>
    rw [wfUnits] at h
    simp only [Bool.and_eq_true] at h
    obtain ⟨ih1, ih2⟩ := ih h.2
    constructor
    · intro i dd hi
      match i with
      | 0 =>
        have hd2 : d2 = true := h.1.2
        subst hd2
        exact ⟨n, by simp⟩
      | 1 => simp at hi
      | (j+2) =>
        simp only [List.getElem?_cons_succ] at hi ⊢
        exact ih1 j dd hi
    · intro i m dd hi
      match i with
      | 0 => simp at hi
      | 1 => exact ⟨0, .ADD, d, rfl, by simp⟩
      | (j+2) =>
        simp only [List.getElem?_cons_succ] at hi
        obtain ⟨j2, o, d3, hj, hop⟩ := ih2 j m dd hi
        exact ⟨j2 + 2, o, d3, by omega, by simp only [List.getElem?_cons_succ]; exact hop⟩
  | case13 d n d2 rest ih =>
    rw [wfUnits] at h
    simp only [Bool.and_eq_true] at h
    obtain ⟨ih1, ih2⟩ := ih h.2
    constructor
    · intro i dd hi
      match i with
      | 0 =>
        simp at hi
      | 1 => simp at hi
      | (j+2) =>
        simp only [List.getElem?_cons_succ] at hi ⊢
        exact ih1 j dd hi
    · intro i m dd hi
      match i with
      | 0 => simp at hi
      | 1 => exact ⟨0, .MOVE, d, rfl, by simp⟩
      | (j+2) =>
        simp only [List.getElem?_cons_succ] at hi
        obtain ⟨j2, o, d3, hj, hop⟩ := ih2 j m dd hi
        exact ⟨j2 + 2, o, d3, by omega, by simp only [List.getElem?_cons_succ]; exact hop⟩
  | case14 d n d2 rest ih =>
    rw [wfUnits] at h
    simp only [Bool.and_eq_true] at h
    obtain ⟨ih1, ih2⟩ := ih h.2
    constructor
    · intro i dd hi
      match i with
      | 0 =>
        simp at hi
      | 1 => simp at hi
      | (j+2) =>
        simp only [List.getElem?_cons_succ] at hi ⊢
        exact ih1 j dd hi
    · intro i m dd hi
      match i with
      | 0 => simp at hi
      | 1 => exact ⟨0, .CLOSE, d, rfl, by simp⟩
      | (j+2) =>
        simp only [List.getElem?_cons_succ] at hi
        obtain ⟨j2, o, d3, hj, hop⟩ := ih2 j m dd hi
        exact ⟨j2 + 2, o, d3, by omega, by simp only [List.getElem?_cons_succ]; exact hop⟩
  | case15 d rest ih =>
    rw [wfUnits] at h
    simp only [Bool.and_eq_true] at h
    obtain ⟨ih1, ih2⟩ := ih h.2
    constructor
    · intro i dd hi
      match i with
      | 0 => simp at hi
      | 1 => simp at hi
      | (j+2) =>
        simp only [List.getElem?_cons_succ] at hi ⊢
        exact ih1 j dd hi
    · intro i m dd hi
      match i with
      | 0 => simp at hi
      | 1 => simp at hi
      | (j+2) =>
        simp only [List.getElem?_cons_succ] at hi
        obtain ⟨j2, o, d3, hj, hop⟩ := ih2 j m dd hi
        exact ⟨j2 + 2, o, d3, by omega, by simp only [List.getElem?_cons_succ]; exact hop⟩
  | case16 d n d2 rest ih =>
    rw [wfUnits] at h
    simp only [Bool.and_eq_true] at h
    obtain ⟨ih1, ih2⟩ := ih h.2
    constructor
    · intro i dd hi
      match i with
      | 0 =>
        simp at hi
      | 1 => simp at hi
      | (j+2) =>
        simp only [List.getElem?_cons_succ] at hi ⊢
        exact ih1 j dd hi
    · intro i m dd hi
      match i with
      | 0 => simp at hi
      | 1 => exact ⟨0, .OPEN, d, rfl, by simp⟩
      | (j+2) =>
        simp only [List.getElem?_cons_succ] at hi
        obtain ⟨j2, o, d3, hj, hop⟩ := ih2 j m dd hi
        exact ⟨j2 + 2, o, d3, by omega, by simp only [List.getElem?_cons_succ]; exact hop⟩
  | case17 d hi lo rest ih =>
    rw [wfUnits] at h
    simp only [Bool.and_eq_true] at h
    obtain ⟨ih1, ih2⟩ := ih h.2
    constructor
    · intro i dd hrec
      match i with
      | 0 => simp at hrec
      | 1 => simp at hrec
      | (j+2) =>
        simp only [List.getElem?_cons_succ] at hrec ⊢
        exact ih1 j dd hrec
    · intro i m dd hrec
      match i with
      | 0 => simp at hrec
      | 1 => simp at hrec
      | (j+2) =>
        simp only [List.getElem?_cons_succ] at hrec
        obtain ⟨j2, o, d3, hj, hop⟩ := ih2 j m dd hrec
        exact ⟨j2 + 2, o, d3, by omega, by simp only [List.getElem?_cons_succ]; exact hop⟩
  | case18 d hi lo rest ih =>
    rw [wfUnits] at h
    simp only [Bool.and_eq_true] at h
    obtain ⟨ih1, ih2⟩ := ih h.2
    constructor
    · intro i dd hrec
      match i with
      | 0 => simp at hrec
      | 1 => simp at hrec
      | (j+2) =>
        simp only [List.getElem?_cons_succ] at hrec ⊢
        exact ih1 j dd hrec
    · intro i m dd hrec
      match i with
      | 0 => simp at hrec
      | 1 => simp at hrec
      | (j+2) =>
        simp only [List.getElem?_cons_succ] at hrec
        obtain ⟨j2, o, d3, hj, hop⟩ := ih2 j m dd hrec
        exact ⟨j2 + 2, o, d3, by omega, by simp only [List.getElem?_cons_succ]; exact hop⟩

theorem wfUnits_append_both {q1 q2 : List Rec} (h1 : wfUnits q1 = true)
    (h2 : wfUnits q2 = true) : wfUnits (q1 ++ q2) = true := by
  rw [wfUnits_append q2 h1]
  exact h2

theorem plantMOVE_prog (n : Int) (s : Planter) :
    ∃ q, (plantMOVE n s).program = s.program ++ q ∧ wfUnits q = true ∧
      (∀ r ∈ q, neutralRec r = true) ∧ (plantMOVE n s).indexes = s.indexes ∧
      (plantMOVE n s).flags = s.flags := by
  unfold plantMOVE plantOpCodeAndOperand plantOperand plantOpCode
  split_ifs with h1 h2 h3
  · exact ⟨[.op .RIGHT false], by simp [discardFlag], by decide, by decide, rfl, rfl⟩
  · exact ⟨[.op .LEFT false], by simp [discardFlag], by decide, by decide, rfl, rfl⟩
  · exact ⟨[.op .MOVE false, .operand n false], by simp [discardFlag],
      by simp [wfUnits], by simp [neutralRec], rfl, rfl⟩
  · exact ⟨[], by simp, by simp [wfUnits], by simp, rfl, rfl⟩

theorem plantADD_prog (n : Int) (s : Planter) :
    ∃ q, (plantADD n s).program = s.program ++ q ∧ wfUnits q = true ∧
      (∀ r ∈ q, neutralRec r = true) ∧ (plantADD n s).indexes = s.indexes ∧
      (plantADD n s).flags = s.flags := by
  unfold plantADD plantOpCodeAndOperand plantOperand plantOpCode
  split_ifs with h1 h2 h3
  · exact ⟨[.op .INCR true], by simp [discardFlag], by decide, by decide, rfl, rfl⟩
  · exact ⟨[.op .DECR true], by simp [discardFlag], by decide, by decide, rfl, rfl⟩
  · exact ⟨[.op .ADD true, .operand n true], by simp [discardFlag],
      by simp [wfUnits], by simp [neutralRec], rfl, rfl⟩
  · exact ⟨[], by simp, by simp [wfUnits], by simp, rfl, rfl⟩

theorem plantADD_OFFSET_prog (offset bY : Int) (s : Planter) :
    (plantADD_OFFSET offset bY s).program
      = s.program ++ [.op .ADD_OFFSET false, .dyad offset bY] ∧
    (plantADD_OFFSET offset bY s).indexes = s.indexes ∧
    (plantADD_OFFSET offset bY s).flags = s.flags := by
  unfold plantADD_OFFSET plantDyad plantOpCode
  exact ⟨by simp [discardFlag], rfl, rfl⟩

theorem plantMoveAddMove_prog (mim : MoveAddMove) (s : Planter) :
    ∃ q, (plantMoveAddMove mim s).program = s.program ++ q ∧ wfUnits q = true ∧
      (∀ r ∈ q, neutralRec r = true) ∧
      (plantMoveAddMove mim s).indexes = s.indexes ∧
      (plantMoveAddMove mim s).flags = s.flags := by
  induction mim, s using plantMoveAddMove.induct with
  | case1 mim s h0 h1 =>
    rw [plantMoveAddMove, dif_pos h0, dif_pos h1]
    exact plantMOVE_prog mim.lhs s
  | case2 mim s h0 h1 h2 ih =>
    rw [plantMoveAddMove, dif_pos h0, dif_neg h1, dif_pos h2]
    exact ih
  | case3 mim s h0 h1 h2 ih =>
    rw [plantMoveAddMove, dif_pos h0, dif_neg h1, dif_neg h2]
    exact ih
  | case4 mim s h0 hop hab =>
    rw [plantMoveAddMove, dif_neg h0, dif_pos hop, dif_pos hab]
    obtain ⟨h1, h2, h3⟩ := plantADD_OFFSET_prog mim.lhs mim.addBy s
    exact ⟨[.op .ADD_OFFSET false, .dyad mim.lhs mim.addBy], h1,
      by simp [wfUnits], by simp [neutralRec], h2, h3⟩
  | case5 mim s h0 hop hab hgt =>
    rw [plantMoveAddMove, dif_neg h0, dif_pos hop, dif_neg hab, dif_pos hgt]
    obtain ⟨q1, hq1, hw1, hn1, hi1, hf1⟩ :=
      plantMOVE_prog (sgn mim.lhs * (|mim.lhs| - |mim.rhs|)) s
    obtain ⟨h1, h2, h3⟩ := plantADD_OFFSET_prog (sgn mim.lhs * |mim.rhs|) mim.addBy
      (plantMOVE (sgn mim.lhs * (|mim.lhs| - |mim.rhs|)) s)
    refine ⟨q1 ++ [.op .ADD_OFFSET false, .dyad (sgn mim.lhs * |mim.rhs|) mim.addBy],
      ?_, ?_, ?_, ?_, ?_⟩
    · rw [h1, hq1, List.append_assoc]
    · exact wfUnits_append_both hw1 (by simp [wfUnits])
    · intro r hr
      rcases List.mem_append.mp hr with hr | hr
      · exact hn1 r hr
      · revert hr
        simp [neutralRec]
        rintro (rfl | rfl) <;> rfl
    · rw [h2, hi1]
    · rw [h3, hf1]
  | case6 mim s h0 hop hab hgt ih =>
    rw [plantMoveAddMove, dif_neg h0, dif_pos hop, dif_neg hab, dif_neg hgt]
    obtain ⟨h1, h2, h3⟩ := plantADD_OFFSET_prog mim.lhs mim.addBy s
    obtain ⟨q2, hq2, hw2, hn2, hi2, hf2⟩ := ih
    refine ⟨[.op .ADD_OFFSET false, .dyad mim.lhs mim.addBy] ++ q2, ?_, ?_, ?_, ?_, ?_⟩
    · rw [hq2]
      simp only [h1]
      rw [List.append_assoc]
    · exact wfUnits_append_both (by simp [wfUnits]) hw2
    · intro r hr
      rcases List.mem_append.mp hr with hr | hr
      · revert hr
        simp [neutralRec]
        rintro (rfl | rfl) <;> rfl
      · exact hn2 r hr
    · rw [hi2]
      exact h2
    · rw [hf2]
      exact h3
  | case7 mim s h0 hop ih =>
    rw [plantMoveAddMove, dif_neg h0, dif_neg hop]
    obtain ⟨q1, hq1, hw1, hn1, hi1, hf1⟩ := plantMOVE_prog mim.lhs s
    obtain ⟨q2, hq2, hw2, hn2, hi2, hf2⟩ := plantADD_prog mim.addBy (plantMOVE mim.lhs s)
    obtain ⟨q3, hq3, hw3, hn3, hi3, hf3⟩ := ih
    refine ⟨q1 ++ q2 ++ q3, ?_, ?_, ?_, ?_, ?_⟩
    · rw [hq3]
      simp only [hq2, hq1]
      rw [List.append_assoc, List.append_assoc, List.append_assoc]
    · exact wfUnits_append_both (wfUnits_append_both hw1 hw2) hw3
    · intro r hr
      rcases List.mem_append.mp hr with hr | hr
      · rcases List.mem_append.mp hr with hr | hr
        · exact hn1 r hr
        · exact hn2 r hr
      · exact hn3 r hr
    · rw [hi3, hi2, hi1]
    · rw [hf3, hf2, hf1]

theorem lk_append {p q : List Rec} {i : Nat} {r : Rec} (h : p[i]? = some r) :
    (p ++ q)[i]? = some r := by
  have hi : i < p.length := by
    by_contra hc
    rw [List.getElem?_eq_none (Nat.le_of_not_lt hc)] at h
    exact absurd h (by simp)
  rw [List.getElem?_append_left hi]
  exact h

theorem lk_lt {p : List Rec} {i : Nat} {r : Rec} (h : p[i]? = some r) :
    i < p.length := by
  by_contra hc
  rw [List.getElem?_eq_none (Nat.le_of_not_lt hc)] at h
  exact absurd h (by simp)

theorem lk_append_back {p q : List Rec} {i : Nat} {r : Rec}
    (h : (p ++ q)[i]? = some r) (hi : i < p.length) : p[i]? = some r := by
  rw [List.getElem?_append_left hi] at h
  exact h

theorem lk_mem {p : List Rec} {i : Nat} {r : Rec} (h : p[i]? = some r) : r ∈ p := by
  obtain ⟨hlt, hget⟩ := List.getElem?_eq_some_iff.mp h
  exact hget ▸ List.getElem_mem hlt

theorem lk_set_ne {p : List Rec} {i j : Nat} {v : Rec} (h : j ≠ i) :
    (p.set j v)[i]? = p[i]? := List.getElem?_set_ne h

theorem lk_set_self {p : List Rec} {i : Nat} {v : Rec} (h : i < p.length) :
    (p.set i v)[i]? = some v := by
  rw [List.getElem?_set_self']
  rw [List.getElem?_eq_getElem h]
  rfl

/-- Positional consequences of the unit structure for the loop markers:
every `OPEN` opcode is unmarked and immediately followed by its placeholder
(`null` or an unmarked operand), every `CLOSE` opcode is unmarked and
immediately followed by an unmarked operand. -/
theorem wfUnits_open_close (p : List Rec) (h : wfUnits p = true) :
    (∀ (a : Nat) (d : Bool), p[a]? = some (.op .OPEN d) →
      d = false ∧ (p[a+1]? = some .null ∨ ∃ t : Int, p[a+1]? = some (.operand t false))) ∧
    (∀ (b : Nat) (d : Bool), p[b]? = some (.op .CLOSE d) →
      d = false ∧ ∃ u : Int, p[b+1]? = some (.operand u false)) := by
  induction p using wfUnits.induct with
  | case1 => exact ⟨fun a d ha => by simp at ha, fun b d hb => by simp at hb⟩
  | case19 t h1 h2 h3 h4 h5 h6 h7 h8 h9 h10 h11 h12 h13 h14 h15 h16 h17 h18 =>
    exfalso
    revert h
    simp [wfUnits, h1, h2, h3, h4, h5, h6, h7, h8, h9, h10, h11, h12, h13, h14,
      h15, h16, h17, h18]
  | case2 d rest ih =>
    rw [wfUnits] at h
    simp only [Bool.and_eq_true] at h
    obtain ⟨ih1, ih2⟩ := ih h.2
    constructor
    · intro a dd ha
      match a with
      | 0 => simp at ha
      | (j+1) =>
        simp only [List.getElem?_cons_succ] at ha ⊢
        exact ih1 j dd ha
    · intro b dd hb
      match b with
      | 0 => simp at hb
      | (j+1) =>
        simp only [List.getElem?_cons_succ] at hb ⊢
        exact ih2 j dd hb
  | case3 d rest ih =>
    rw [wfUnits] at h
    simp only [Bool.and_eq_true] at h
    obtain ⟨ih1, ih2⟩ := ih h.2
    constructor
    · intro a dd ha
      match a with
      | 0 => simp at ha
      | (j+1) =>
        simp only [List.getElem?_cons_succ] at ha ⊢
        exact ih1 j dd ha
    · intro b dd hb
      match b with
      | 0 => simp at hb
      | (j+1) =>
        simp only [List.getElem?_cons_succ] at hb ⊢
        exact ih2 j dd hb
  | case4 d rest ih =>
    rw [wfUnits] at h
    simp only [Bool.and_eq_true] at h
    obtain ⟨ih1, ih2⟩ := ih h.2
    constructor
    · intro a dd ha
      match a with
      | 0 => simp at ha
      | (j+1) =>
        simp only [List.getElem?_cons_succ] at ha ⊢
        exact ih1 j dd ha
    · intro b dd hb
      match b with
      | 0 => simp at hb
      | (j+1) =>
        simp only [List.getElem?_cons_succ] at hb ⊢
        exact ih2 j dd hb
  | case5 d rest ih =>
    rw [wfUnits] at h
    simp only [Bool.and_eq_true] at h
    obtain ⟨ih1, ih2⟩ := ih h.2
    constructor
    · intro a dd ha
      match a with
      | 0 => simp at ha
      | (j+1) =>
        simp only [List.getElem?_cons_succ] at ha ⊢
        exact ih1 j dd ha
    · intro b dd hb
      match b with
      | 0 => simp at hb
      | (j+1) =>
        simp only [List.getElem?_cons_succ] at hb ⊢
        exact ih2 j dd hb
  | case6 d rest ih =>
    rw [wfUnits] at h
    simp only [Bool.and_eq_true] at h
    obtain ⟨ih1, ih2⟩ := ih h.2
    constructor
    · intro a dd ha
      match a with
      | 0 => simp at ha
      | (j+1) =>
        simp only [List.getElem?_cons_succ] at ha ⊢
        exact ih1 j dd ha
    · intro b dd hb
      match b with
      | 0 => simp at hb
      | (j+1) =>
        simp only [List.getElem?_cons_succ] at hb ⊢
        exact ih2 j dd hb
  | case7 d rest ih =>
    rw [wfUnits] at h
    simp only [Bool.and_eq_true] at h
    obtain ⟨ih1, ih2⟩ := ih h.2
    constructor
    · intro a dd ha
      match a with
      | 0 => simp at ha
      | (j+1) =>
        simp only [List.getElem?_cons_succ] at ha ⊢
        exact ih1 j dd ha
    · intro b dd hb
      match b with
      | 0 => simp at hb
      | (j+1) =>
        simp only [List.getElem?_cons_succ] at hb ⊢
        exact ih2 j dd hb
  | case8 d rest ih =>
    rw [wfUnits] at h
    simp only [Bool.and_eq_true] at h
    obtain ⟨ih1, ih2⟩ := ih h.2
    constructor
    · intro a dd ha
      match a with
      | 0 => simp at ha
      | (j+1) =>
        simp only [List.getElem?_cons_succ] at ha ⊢
        exact ih1 j dd ha
    · intro b dd hb
      match b with
      | 0 => simp at hb
      | (j+1) =>
        simp only [List.getElem?_cons_succ] at hb ⊢
        exact ih2 j dd hb
  | case9 d rest ih =>
    rw [wfUnits] at h
    simp only [Bool.and_eq_true] at h
    obtain ⟨ih1, ih2⟩ := ih h.2
    constructor
    · intro a dd ha
      match a with
      | 0 => simp at ha
      | (j+1) =>
        simp only [List.getElem?_cons_succ] at ha ⊢
        exact ih1 j dd ha
    · intro b dd hb
      match b with
      | 0 => simp at hb
      | (j+1) =>
        simp only [List.getElem?_cons_succ] at hb ⊢
        exact ih2 j dd hb
  | case10 d rest ih =>
    rw [wfUnits] at h
    simp only [Bool.and_eq_true] at h
    obtain ⟨ih1, ih2⟩ := ih h.2
    constructor
    · intro a dd ha
      match a with
      | 0 => simp at ha
      | (j+1) =>
        simp only [List.getElem?_cons_succ] at ha ⊢
        exact ih1 j dd ha
    · intro b dd hb
      match b with
      | 0 => simp at hb
      | (j+1) =>
        simp only [List.getElem?_cons_succ] at hb ⊢
        exact ih2 j dd hb
  | case11 d rest ih =>
    rw [wfUnits] at h
    simp only [Bool.and_eq_true] at h
    obtain ⟨ih1, ih2⟩ := ih h.2
    constructor
    · intro a dd ha
      match a with
      | 0 => simp at ha
      | (j+1) =>
        simp only [List.getElem?_cons_succ] at ha ⊢
        exact ih1 j dd ha
    · intro b dd hb
      match b with
      | 0 => simp at hb
      | (j+1) =>
        simp only [List.getElem?_cons_succ] at hb ⊢
        exact ih2 j dd hb
  | case12 d n d2 rest ih =>
    rw [wfUnits] at h
    simp only [Bool.and_eq_true] at h
    obtain ⟨ih1, ih2⟩ := ih h.2
    constructor
    · intro a dd ha
      match a with
      | 0 => simp at ha
      | 1 => simp at ha
      | (j+2) =>
        simp only [List.getElem?_cons_succ] at ha ⊢
        exact ih1 j dd ha
    · intro b dd hb
      match b with
      | 0 => simp at hb
      | 1 => simp at hb
      | (j+2) =>
        simp only [List.getElem?_cons_succ] at hb ⊢
        exact ih2 j dd hb
  | case13 d n d2 rest ih =>
    rw [wfUnits] at h
    simp only [Bool.and_eq_true] at h
    obtain ⟨ih1, ih2⟩ := ih h.2
    constructor
    · intro a dd ha
      match a with
      | 0 => simp at ha
      | 1 => simp at ha
      | (j+2) =>
        simp only [List.getElem?_cons_succ] at ha ⊢
        exact ih1 j dd ha
    · intro b dd hb
      match b with
      | 0 => simp at hb
      | 1 => simp at hb
      | (j+2) =>
        simp only [List.getElem?_cons_succ] at hb ⊢
        exact ih2 j dd hb
  | case14 d n d2 rest ih =>
    rw [wfUnits] at h
    simp only [Bool.and_eq_true, Bool.not_eq_true'] at h
    obtain ⟨ih1, ih2⟩ := ih h.2
    constructor
    · intro a dd ha
      match a with
      | 0 => simp at ha
      | 1 => simp at ha
      | (j+2) =>
        simp only [List.getElem?_cons_succ] at ha ⊢
        exact ih1 j dd ha
    · intro b dd hb
      match b with
      | 0 =>
        simp only [List.getElem?_cons_zero, Option.some.injEq, Rec.op.injEq] at hb
        refine ⟨?_, n, ?_⟩
        · rw [← hb.2, h.1.1]
        · simp [h.1.2]
      | 1 => simp at hb
      | (j+2) =>
        simp only [List.getElem?_cons_succ] at hb ⊢
        exact ih2 j dd hb
  | case15 d rest ih =>
    rw [wfUnits] at h
    simp only [Bool.and_eq_true, Bool.not_eq_true'] at h
    obtain ⟨ih1, ih2⟩ := ih h.2
    constructor
    · intro a dd ha
      match a with
      | 0 =>
        simp only [List.getElem?_cons_zero, Option.some.injEq, Rec.op.injEq] at ha
        exact ⟨by rw [← ha.2, h.1], .inl (by simp)⟩
      | 1 => simp at ha
      | (j+2) =>
        simp only [List.getElem?_cons_succ] at ha ⊢
        exact ih1 j dd ha
    · intro b dd hb
      match b with
      | 0 => simp at hb
      | 1 => simp at hb
      | (j+2) =>
        simp only [List.getElem?_cons_succ] at hb ⊢
        exact ih2 j dd hb
  | case16 d n d2 rest ih =>
    rw [wfUnits] at h
    simp only [Bool.and_eq_true, Bool.not_eq_true'] at h
    obtain ⟨ih1, ih2⟩ := ih h.2
    constructor
    · intro a dd ha
      match a with
      | 0 =>
        simp only [List.getElem?_cons_zero, Option.some.injEq, Rec.op.injEq] at ha
        refine ⟨by rw [← ha.2, h.1.1], .inr ⟨n, ?_⟩⟩
        simp [h.1.2]
      | 1 => simp at ha
      | (j+2) =>
        simp only [List.getElem?_cons_succ] at ha ⊢
        exact ih1 j dd ha
    · intro b dd hb
      match b with
      | 0 => simp at hb
      | 1 => simp at hb
      | (j+2) =>
        simp only [List.getElem?_cons_succ] at hb ⊢
        exact ih2 j dd hb
  | case17 d hi lo rest ih =>
    rw [wfUnits] at h
    simp only [Bool.and_eq_true] at h
    obtain ⟨ih1, ih2⟩ := ih h.2
    constructor
    · intro a dd ha
      match a with
      | 0 => simp at ha
      | 1 => simp at ha
      | (j+2) =>
        simp only [List.getElem?_cons_succ] at ha ⊢
        exact ih1 j dd ha
    · intro b dd hb
      match b with
      | 0 => simp at hb
      | 1 => simp at hb
      | (j+2) =>
        simp only [List.getElem?_cons_succ] at hb ⊢
        exact ih2 j dd hb
  | case18 d hi lo rest ih =>
    rw [wfUnits] at h
    simp only [Bool.and_eq_true] at h
    obtain ⟨ih1, ih2⟩ := ih h.2
    constructor
    · intro a dd ha
      match a with
      | 0 => simp at ha
      | 1 => simp at ha
      | (j+2) =>
        simp only [List.getElem?_cons_succ] at ha ⊢
        exact ih1 j dd ha
    · intro b dd hb
      match b with
      | 0 => simp at hb
      | 1 => simp at hb
      | (j+2) =>
        simp only [List.getElem?_cons_succ] at hb ⊢
        exact ih2 j dd hb

/-- Bracket-closure check of a character stream with `k` loops currently
open: every `]` finds an open loop and every loop is closed by the end.
Non-bracket characters are ignored, matching the planter, which only
changes the loop stack on `[` and `]`. -/
def closes (k : Nat) : List Char → Bool
  | [] => k == 0
  | c :: rest =>
    if c = '[' then closes (k+1) rest
    else if c = ']' then (k != 0) && closes (k-1) rest
    else closes k rest

theorem closes_dropWhile {f : Char → Bool}
    (hf : ∀ c, f c = true → c ≠ '[' ∧ c ≠ ']') (k : Nat) (v : List Char) :
    closes k (v.dropWhile f) = closes k v := by
  induction v generalizing k with
  | nil => rfl
  | cons c rest ih =>
    by_cases hc : f c = true
    · rw [List.dropWhile_cons_of_pos hc, ih k]
      obtain ⟨h1, h2⟩ := hf c hc
      rw [closes, if_neg h1, if_neg h2]
    · rw [List.dropWhile_cons_of_neg (by simpa using hc)]

theorem moveChar_not_bracket (c : Char) (h : isMoveChar c = true) :
    c ≠ '[' ∧ c ≠ ']' := by
  simp only [isMoveChar, Bool.or_eq_true, decide_eq_true_eq] at h
  rcases h with rfl | rfl
  · exact ⟨by decide, by decide⟩
  · exact ⟨by decide, by decide⟩

theorem addChar_not_bracket (c : Char) (h : isAddChar c = true) :
    c ≠ '[' ∧ c ≠ ']' := by
  simp only [isAddChar, Bool.or_eq_true, decide_eq_true_eq] at h
  rcases h with rfl | rfl
  · exact ⟨by decide, by decide⟩
  · exact ⟨by decide, by decide⟩

theorem closes_mamRest (k : Nat) (v : List Char) :
    closes k (mamRest v) = closes k v := by
  unfold mamRest
  rw [closes_dropWhile moveChar_not_bracket, closes_dropWhile addChar_not_bracket,
    closes_dropWhile moveChar_not_bracket]

theorem closes_filterCmd (k : Nat) (v : List Char) :
    closes k (filterCmd v) = closes k v := by
  induction v generalizing k with
  | nil => rfl
  | cons c rest ih =>
    by_cases hc : isCmdChar c = true
    · simp only [filterCmd, List.filter_cons_of_pos hc]
      by_cases h1 : c = '['
      · rw [closes, if_pos h1, closes, if_pos h1]
        have := ih (k+1)
        rw [← this]
        rfl
      · by_cases h2 : c = ']'
        · rw [closes, if_neg h1, if_pos h2, closes, if_neg h1, if_pos h2]
          have := ih (k-1)
          rw [← this]
          rfl
        · rw [closes, if_neg h1, if_neg h2, closes, if_neg h1, if_neg h2]
          have := ih k
          rw [← this]
          rfl
    · simp only [filterCmd, List.filter_cons_of_neg (by simpa using hc)]
      have hb1 : c ≠ '[' := fun he => hc (by rw [he]; rfl)
      have hb2 : c ≠ ']' := fun he => hc (by rw [he]; rfl)
      have hik := ih k
      rw [filterCmd] at hik
      rw [hik, closes, if_neg hb1, if_neg hb2]

theorem closes_skipDeadChars (v : List Char) : ∀ (n : Int) (k : Nat), 1 ≤ n →
    closes (k + n.toNat) v = true → closes k (skipDeadChars n v) = true := by
  induction v with
  | nil =>
    intro n k hn h
    rw [closes] at h
    simp only [beq_iff_eq] at h
    omega
  | cons c rest ih =>
    intro n k hn h
    rw [skipDeadChars]
    by_cases h1 : c = '['
    · have hsn : skipNesting n (some c) = n + 1 := by
        rw [skipNesting, if_pos (by rw [h1])]
      rw [hsn, if_neg (by omega)]
      refine ih (n+1) k (by omega) ?_
      rw [closes, if_pos h1] at h
      have ht : (n+1).toNat = n.toNat + 1 := by omega
      rw [ht]
      have harr : k + (n.toNat + 1) = k + n.toNat + 1 := by omega
      rw [harr]
      exact h
    · by_cases h2 : c = ']'
      · have hsn : skipNesting n (some c) = n - 1 := by
          rw [skipNesting, if_neg (by simp [h1]), if_pos (by rw [h2])]
        rw [closes, if_neg h1, if_pos h2, Bool.and_eq_true] at h
        rw [hsn]
        by_cases hone : n = 1
        · rw [if_pos (by omega)]
          have : k + n.toNat - 1 = k := by omega
          rw [this] at h
          exact h.2
        · rw [if_neg (by omega)]
          refine ih (n-1) k (by omega) ?_
          have ht : k + (n-1).toNat = k + n.toNat - 1 := by omega
          rw [ht]
          exact h.2
      · have hsn : skipNesting n (some c) = n := by
          rw [skipNesting, if_neg (by simp [h1]), if_neg (by simp [h2])]
        rw [hsn, if_neg (by omega)]
        refine ih n k hn ?_
        rw [closes, if_neg h1, if_neg h2] at h
        exact h

theorem plantMoveAddMove_closes (mim : MoveAddMove) (s : Planter) (k : Nat)
    (h : closes k s.input.view = true) :
    closes k (plantMoveAddMove mim s).input.view = true := by
  induction mim, s using plantMoveAddMove.induct with
  | case1 mim s h0 h1 =>
    rw [plantMoveAddMove, dif_pos h0, dif_pos h1]
    simpa using h
  | case2 mim s h0 h1 h2 ih =>
    rw [plantMoveAddMove, dif_pos h0, dif_neg h1, dif_pos h2]
    refine ih ?_
    show closes k (scanMoveAddMove mim.rhs s.input).2.view = true
    rw [(scanMoveAddMove_view _ _).2, closes_mamRest]
    exact h
  | case3 mim s h0 h1 h2 ih =>
    rw [plantMoveAddMove, dif_pos h0, dif_neg h1, dif_neg h2]
    refine ih ?_
    show closes k (scanMoveAddMove (mim.lhs + mim.rhs) s.input).2.view = true
    rw [(scanMoveAddMove_view _ _).2, closes_mamRest]
    exact h
  | case4 mim s h0 hop hab =>
    rw [plantMoveAddMove, dif_neg h0, dif_pos hop, dif_pos hab]
    simpa using h
  | case5 mim s h0 hop hab hgt =>
    rw [plantMoveAddMove, dif_neg h0, dif_pos hop, dif_neg hab, dif_pos hgt]
    simpa using h
  | case6 mim s h0 hop hab hgt ih =>
    rw [plantMoveAddMove, dif_neg h0, dif_pos hop, dif_neg hab, dif_neg hgt]
    refine ih ?_
    show closes k (scanMoveAddMove _ (plantADD_OFFSET mim.lhs mim.addBy s).input).2.view = true
    rw [(scanMoveAddMove_view _ _).2, closes_mamRest]
    simpa using h
  | case7 mim s h0 hop ih =>
    rw [plantMoveAddMove, dif_neg h0, dif_neg hop]
    refine ih ?_
    show closes k (scanMoveAddMove _ (plantADD mim.addBy (plantMOVE mim.lhs s)).input).2.view = true
    rw [(scanMoveAddMove_view _ _).2, closes_mamRest]
    simpa using h

/-- Invariant of the planter loop stack: indexes are strictly decreasing,
each entry addresses the `null` placeholder of a pending `OPEN` (which sits
in the slot just before it), and every `null` still in the program is the
placeholder of some stacked entry. -/
def StackOk (p : List Rec) (st : List Nat) : Prop :=
  st.Pairwise (· > ·) ∧
  (∀ a ∈ st, 1 ≤ a ∧ p[a]? = some .null ∧ p[a-1]? = some (.op .OPEN false)) ∧
  (∀ i : Nat, p[i]? = some .null → i ∈ st)

/-- Invariant of backpatched loop brackets: every `CLOSE` record has a
matching `OPEN` whose target slot holds the index just past the `CLOSE`
unit, and every already-backpatched `OPEN` points just past a `CLOSE`
whose own operand points back just past the `OPEN`. -/
def PairsOk (p : List Rec) : Prop :=
  (∀ (b : Nat) (d : Bool), p[b]? = some (.op .CLOSE d) →
    ∃ a : Nat, p[a]? = some (.op .OPEN false) ∧
      p[a+1]? = some (.operand ((b : Int) + 2) false) ∧
      p[b+1]? = some (.operand ((a : Int) + 2) false)) ∧
  (∀ (a : Nat) (t : Int) (d : Bool), p[a]? = some (.op .OPEN false) →
    p[a+1]? = some (.operand t d) →
    ∃ b : Nat, p[b]? = some (.op .CLOSE false) ∧ t = (b : Int) + 2 ∧
      p[b+1]? = some (.operand ((a : Int) + 2) false))

/-- The combined structural invariant maintained by the planter. -/
def PlantInv (p : List Rec) (st : List Nat) : Prop :=
  wfUnits p = true ∧ StackOk p st ∧ PairsOk p

theorem inv_append {p q : List Rec} {st : List Nat} (h : PlantInv p st)
    (hwq : wfUnits q = true) (hnq : ∀ r ∈ q, neutralRec r = true) :
    PlantInv (p ++ q) st := by
  obtain ⟨hw, ⟨hpw, hent, hnull⟩, hp1, hp2⟩ := h
  refine ⟨wfUnits_append_both hw hwq, ⟨hpw, ?_, ?_⟩, ?_, ?_⟩
  · intro a ha
    obtain ⟨h1, h2, h3⟩ := hent a ha
    exact ⟨h1, lk_append h2, lk_append h3⟩
  · intro i hi
    rcases Nat.lt_or_ge i p.length with hlt | hge
    · exact hnull i (lk_append_back hi hlt)
    · rw [List.getElem?_append_right hge] at hi
      have hm := hnq _ (lk_mem hi)
      simp [neutralRec] at hm
  · intro b d hb
    rcases Nat.lt_or_ge b p.length with hlt | hge
    · obtain ⟨a, h1, h2, h3⟩ := hp1 b d (lk_append_back hb hlt)
      exact ⟨a, lk_append h1, lk_append h2, lk_append h3⟩
    · rw [List.getElem?_append_right hge] at hb
      have hm := hnq _ (lk_mem hb)
      simp [neutralRec] at hm
  · intro a t d ha hat
    rcases Nat.lt_or_ge a p.length with hlt | hge
    · have hpa := lk_append_back ha hlt
      have hnx := (wfUnits_open_close p hw).1 a false hpa
      have hsome : ∃ r, p[a+1]? = some r := by
        rcases hnx.2 with hn | ⟨t2, hn⟩
        · exact ⟨_, hn⟩
        · exact ⟨_, hn⟩
      obtain ⟨r, hr⟩ := hsome
      have hat' := lk_append_back hat (lk_lt hr)
      obtain ⟨b, h1, h2, h3⟩ := hp2 a t d hpa hat'
      exact ⟨b, lk_append h1, h2, lk_append h3⟩
    · rw [List.getElem?_append_right hge] at ha
      have hm := hnq _ (lk_mem ha)
      simp [neutralRec] at hm

theorem unplant_lk_to {p : List Rec} {i : Nat} {r : Rec}
    (hm : hasDiscardField r = false) (h : p[i]? = some r) :
    (unplantBeforeSetZero p)[i]? = some r := by
  obtain ⟨q, hq, hmk⟩ := unplant_split p
  rcases Nat.lt_or_ge i (unplantBeforeSetZero p).length with hlt | hge
  · rw [hq] at h
    exact lk_append_back h hlt
  · rw [hq, List.getElem?_append_right hge] at h
    have := hmk _ (lk_mem h)
    rw [this] at hm
    exact absurd hm (by simp)

theorem unplant_lk_from {p : List Rec} {i : Nat} {r : Rec}
    (h : (unplantBeforeSetZero p)[i]? = some r) : p[i]? = some r := by
  obtain ⟨q, hq, hmk⟩ := unplant_split p
  rw [hq]
  exact lk_append h

theorem inv_unplant {p : List Rec} {st : List Nat} (h : PlantInv p st) :
    PlantInv (unplantBeforeSetZero p) st := by
  obtain ⟨hw, ⟨hpw, hent, hnull⟩, hp1, hp2⟩ := h
  refine ⟨wfUnits_unplant hw, ⟨hpw, ?_, ?_⟩, ?_, ?_⟩
  · intro a ha
    obtain ⟨h1, h2, h3⟩ := hent a ha
    exact ⟨h1, unplant_lk_to (by simp [hasDiscardField]) h2,
      unplant_lk_to (by simp [hasDiscardField]) h3⟩
  · intro i hi
    exact hnull i (unplant_lk_from hi)
  · intro b d hb
    obtain ⟨a, h1, h2, h3⟩ := hp1 b d (unplant_lk_from hb)
    exact ⟨a, unplant_lk_to (by simp [hasDiscardField]) h1,
      unplant_lk_to (by simp [hasDiscardField]) h2,
      unplant_lk_to (by simp [hasDiscardField]) h3⟩
  · intro a t d ha hat
    obtain ⟨b, h1, h2, h3⟩ := hp2 a t d (unplant_lk_from ha) (unplant_lk_from hat)
    exact ⟨b, unplant_lk_to (by simp [hasDiscardField]) h1, h2,
      unplant_lk_to (by simp [hasDiscardField]) h3⟩

theorem plantOPEN_spec (s : Planter) :
    (plantOPEN s).program = s.program ++ [.op .OPEN false, .null] ∧
    (plantOPEN s).indexes = (s.program.length + 1) :: s.indexes ∧
    (plantOPEN s).input = s.input ∧ (plantOPEN s).flags = s.flags := by
  unfold plantOPEN plantOpCode
  simp [discardFlag]

theorem inv_plantOPEN {s : Planter} (h : PlantInv s.program s.indexes) :
    PlantInv (plantOPEN s).program (plantOPEN s).indexes := by
  obtain ⟨hprog, hidx, -, -⟩ := plantOPEN_spec s
  rw [hprog, hidx]
  obtain ⟨hw, ⟨hpw, hent, hnull⟩, hp1, hp2⟩ := h
  refine ⟨wfUnits_append_both hw (by decide), ⟨?_, ?_, ?_⟩, ?_, ?_⟩
  · rw [List.pairwise_cons]
    refine ⟨?_, hpw⟩
    intro a ha
    have hlt := lk_lt (hent a ha).2.1
    omega
  · intro a ha
    rcases List.mem_cons.mp ha with rfl | ha
    · refine ⟨by omega, ?_, ?_⟩
      · rw [List.getElem?_append_right (by omega)]
        have he : s.program.length + 1 - s.program.length = 1 := by omega
        rw [he]
        rfl
      · have he : s.program.length + 1 - 1 = s.program.length := by omega
        rw [he, List.getElem?_append_right (by omega)]
        simp
    · obtain ⟨h1, h2, h3⟩ := hent a ha
      exact ⟨h1, lk_append h2, lk_append h3⟩
  · intro i hi
    rcases Nat.lt_or_ge i s.program.length with hlt | hge
    · exact List.mem_cons_of_mem _ (hnull i (lk_append_back hi hlt))
    · rw [List.getElem?_append_right hge] at hi
      have hone : i - s.program.length = 1 := by
        match hj : i - s.program.length with
        | 0 => rw [hj] at hi; simp at hi
        | 1 => rfl
        | (j+2) => rw [hj] at hi; simp at hi
      have he : i = s.program.length + 1 := by omega
      rw [he]
      exact List.mem_cons_self _ _
  · intro b d hb
    rcases Nat.lt_or_ge b s.program.length with hlt | hge
    · obtain ⟨a, h1, h2, h3⟩ := hp1 b d (lk_append_back hb hlt)
      exact ⟨a, lk_append h1, lk_append h2, lk_append h3⟩
    · rw [List.getElem?_append_right hge] at hb
      match hj : b - s.program.length with
      | 0 => rw [hj] at hb; simp at hb
      | 1 => rw [hj] at hb; simp at hb
      | (j+2) => rw [hj] at hb; simp at hb
  · intro a t d ha hat
    rcases Nat.lt_or_ge a s.program.length with hlt | hge
    · have hpa := lk_append_back ha hlt
      have hnx := (wfUnits_open_close s.program hw).1 a false hpa
      have hsome : ∃ r, s.program[a+1]? = some r := by
        rcases hnx.2 with hn | ⟨t2, hn⟩
        · exact ⟨_, hn⟩
        · exact ⟨_, hn⟩
      obtain ⟨r, hr⟩ := hsome
      have hat' := lk_append_back hat (lk_lt hr)
      obtain ⟨b, h1, h2, h3⟩ := hp2 a t d hpa hat'
      exact ⟨b, lk_append h1, h2, lk_append h3⟩
    · rw [List.getElem?_append_right hge] at ha
      match hj : a - s.program.length with
      | 0 =>
        have he : a = s.program.length := by omega
        rw [he, List.getElem?_append_right (by omega)] at hat
        have he2 : s.program.length + 1 - s.program.length = 1 := by omega
        rw [he2] at hat
        simp at hat
      | 1 => rw [hj] at ha; simp at ha
      | (j+2) => rw [hj] at ha; simp at ha

theorem plantCLOSE_spec {s : Planter} {start : Nat} {rest : List Nat}
    (hidx : s.indexes = start :: rest) (hstart : start < s.program.length) :
    ∃ s1, plantCLOSE s = .ok s1 ∧ s1.flags = s.flags ∧ s1.input = s.input ∧
      s1.indexes = rest ∧
      s1.program = s.program.set start
          (.operand ((s.program.length : Int) + 2) false) ++
        [.op .CLOSE false, .operand ((start : Int) + 1) false] := by
  unfold plantCLOSE
  rw [hidx]
  refine ⟨_, rfl, rfl, rfl, rfl, ?_⟩
  unfold plantOperand plantOpCode
  simp only [List.set_append_left _ _ hstart, List.length_append, List.length_cons,
    List.length_nil, List.append_assoc, discardFlag]
  norm_num
  rw [show ((s.program.length : Int) + 1 + 1) = (s.program.length : Int) + 2 from by ring]

theorem inv_close_core {p : List Rec} {start : Nat} {rest : List Nat}
    (hI : PlantInv p (start :: rest)) :
    PlantInv (p.set start (.operand ((p.length : Int) + 2) false) ++
      [.op .CLOSE false, .operand ((start : Int) + 1) false]) rest := by
  obtain ⟨hw, ⟨hpw, hent, hnull⟩, hp1, hp2⟩ := hI
  obtain ⟨hge1, hsnull, hsopen⟩ := hent start (List.mem_cons_self _ _)
  have hstart : start < p.length := lk_lt hsnull
  rw [List.pairwise_cons] at hpw
  obtain ⟨hhead, hpw2⟩ := hpw
  set v : Rec := .operand ((p.length : Int) + 2) false with hv
  set w : List Rec := [.op .CLOSE false, .operand ((start : Int) + 1) false] with hwdef
  have hlen : (p.set start v).length = p.length := by simp
  have hto : ∀ {i : Nat} {r : Rec}, i ≠ start → p[i]? = some r →
      (p.set start v ++ w)[i]? = some r := by
    intro i r hne hi
    refine lk_append ?_
    rw [lk_set_ne (Ne.symm hne)]
    exact hi
  have hback : ∀ {i : Nat} {r : Rec}, i < p.length → i ≠ start →
      (p.set start v ++ w)[i]? = some r → p[i]? = some r := by
    intro i r hlt hne hi
    rw [List.getElem?_append_left (by rw [hlen]; exact hlt),
      lk_set_ne (Ne.symm hne)] at hi
    exact hi
  have hstart2 : (p.set start v ++ w)[start]? = some v :=
    lk_append (lk_set_self hstart)
  have hclose2 : (p.set start v ++ w)[p.length]? = some (.op .CLOSE false) := by
    rw [List.getElem?_append_right (by rw [hlen]), hlen]
    simp [hwdef]
  have hop2 : (p.set start v ++ w)[p.length + 1]? =
      some (.operand ((start : Int) + 1) false) := by
    rw [List.getElem?_append_right (by rw [hlen]; omega), hlen]
    simp [hwdef]
  have hwf2 : wfUnits (p.set start v ++ w) = true := by
    refine wfUnits_append_both ?_ ?_
    · rw [hv]
      exact wfUnits_set_null p hw start _ hsnull
    · simp [hwdef, wfUnits]
  refine ⟨hwf2, ⟨hpw2, ?_, ?_⟩, ?_, ?_⟩
  · intro a ha
    have halt : a < start := hhead a ha
    obtain ⟨h1, h2, h3⟩ := hent a (List.mem_cons_of_mem _ ha)
    exact ⟨h1, hto (by omega) h2, hto (by omega) h3⟩
  · intro i hi
    rcases Nat.lt_or_ge i p.length with hlt | hge
    · by_cases his : i = start
      · rw [his, hstart2] at hi
        simp [hv] at hi
      · have hm := hnull i (hback hlt his hi)
        rcases List.mem_cons.mp hm with rfl | hmem
        · exact absurd rfl his
        · exact hmem
    · rw [List.getElem?_append_right (by rw [hlen]; omega), hlen] at hi
      match hj : i - p.length with
      | 0 => rw [hj] at hi; simp [hwdef] at hi
      | 1 => rw [hj] at hi; simp [hwdef] at hi
      | (j+2) => rw [hj] at hi; simp [hwdef] at hi
  · intro b d hb
    rcases Nat.lt_or_ge b p.length with hlt | hge
    · by_cases hbs : b = start
      · rw [hbs, hstart2] at hb
        simp [hv] at hb
      · obtain ⟨a, h1, h2, h3⟩ := hp1 b d (hback hlt hbs hb)
        have hanes : a ≠ start := by
          intro he
          rw [he, hsnull] at h1
          simp at h1
        have ha1nes : a + 1 ≠ start := by
          intro he
          rw [he, hsnull] at h2
          simp at h2
        have hb1nes : b + 1 ≠ start := by
          intro he
          rw [he, hsnull] at h3
          simp at h3
        exact ⟨a, hto hanes h1, hto ha1nes h2, hto hb1nes h3⟩
    · rw [List.getElem?_append_right (by rw [hlen]; omega), hlen] at hb
      match hj : b - p.length with
      | 0 =>
        have hbe : b = p.length := by omega
        refine ⟨start - 1, hto (by omega) hsopen, ?_, ?_⟩
        · have he : start - 1 + 1 = start := by omega
          rw [he, hstart2, hv, hbe]
        · rw [hbe, hop2]
          rw [show (((start - 1 : Nat) : Int) + 2) = ((start : Int) + 1) from by omega]
      | 1 => rw [hj] at hb; simp [hwdef] at hb
      | (j+2) => rw [hj] at hb; simp [hwdef] at hb
  · intro a t d ha hat
    rcases Nat.lt_or_ge a p.length with hlt | hge
    · by_cases has : a = start
      · rw [has, hstart2] at ha
        simp [hv] at ha
      · have hpa := hback hlt has ha
        by_cases ha1s : a + 1 = start
        · rw [ha1s, hstart2, hv] at hat
          simp only [Option.some.injEq, Rec.operand.injEq] at hat
          refine ⟨p.length, hclose2, ?_, ?_⟩
          · rw [← hat.1]
          · rw [hop2]
            rw [show ((a : Int) + 2) = ((start : Int) + 1) from by omega]
        · have hnx := (wfUnits_open_close p hw).1 a false hpa
          have hsome : ∃ r, p[a+1]? = some r := by
            rcases hnx.2 with hn | ⟨t2, hn⟩
            · exact ⟨_, hn⟩
            · exact ⟨_, hn⟩
          obtain ⟨r, hr⟩ := hsome
          have hat2 := hback (lk_lt hr) ha1s hat
          obtain ⟨b, h1, h2, h3⟩ := hp2 a t d hpa hat2
          have hbnes : b ≠ start := by
            intro he
            rw [he, hsnull] at h1
            simp at h1
          have hb1nes : b + 1 ≠ start := by
            intro he
            rw [he, hsnull] at h3
            simp at h3
          exact ⟨b, hto hbnes h1, h2, hto hb1nes h3⟩
    · rw [List.getElem?_append_right (by rw [hlen]; omega), hlen] at ha
      match hj : a - p.length with
      | 0 => rw [hj] at ha; simp [hwdef] at ha
      | 1 => rw [hj] at ha; simp [hwdef] at ha
      | (j+2) => rw [hj] at ha; simp [hwdef] at ha

theorem inv_plantCLOSE {s : Planter} {start : Nat} {rest : List Nat}
    (hidx : s.indexes = start :: rest) (h : PlantInv s.program s.indexes) :
    ∃ s1, plantCLOSE s = .ok s1 ∧ s1.flags = s.flags ∧ s1.input = s.input ∧
      s1.indexes = rest ∧ PlantInv s1.program rest := by
  have hmem : start ∈ s.indexes := by rw [hidx]; exact List.mem_cons_self _ _
  have hstart : start < s.program.length := lk_lt (h.2.1.2.1 start hmem).2.1
  obtain ⟨s1, hok, hfl, hin, hix, hprog⟩ := plantCLOSE_spec hidx hstart
  refine ⟨s1, hok, hfl, hin, hix, ?_⟩
  rw [hprog]
  refine inv_close_core ?_
  rw [← hidx]
  exact h

theorem inv_plantADD {n : Int} {s : Planter} (h : PlantInv s.program s.indexes) :
    PlantInv (plantADD n s).program (plantADD n s).indexes := by
  obtain ⟨q, hq, hwq, hnq, hix, -⟩ := plantADD_prog n s
  rw [hq, hix]
  exact inv_append h hwq hnq

theorem inv_plantMOVE {n : Int} {s : Planter} (h : PlantInv s.program s.indexes) :
    PlantInv (plantMOVE n s).program (plantMOVE n s).indexes := by
  obtain ⟨q, hq, hwq, hnq, hix, -⟩ := plantMOVE_prog n s
  rw [hq, hix]
  exact inv_append h hwq hnq

theorem inv_plantMoveAddMove {mim : MoveAddMove} {s : Planter}
    (h : PlantInv s.program s.indexes) :
    PlantInv (plantMoveAddMove mim s).program (plantMoveAddMove mim s).indexes := by
  obtain ⟨q, hq, hwq, hnq, hix, -⟩ := plantMoveAddMove_prog mim s
  rw [hq, hix]
  exact inv_append h hwq hnq

theorem inv_plantXFR {offset bY : Int} {s : Planter}
    (h : PlantInv s.program s.indexes) :
    PlantInv (plantXFR_MULTIPLE offset bY s).program
      (plantXFR_MULTIPLE offset bY s).indexes := by
  have hp : (plantXFR_MULTIPLE offset bY s).program
      = s.program ++ [.op .XFR_MULTIPLE false, .dyad offset bY] := by
    simp [plantXFR_MULTIPLE, plantDyad, plantOpCode, discardFlag]
  have hix : (plantXFR_MULTIPLE offset bY s).indexes = s.indexes := rfl
  rw [hp, hix]
  refine inv_append h (by simp [wfUnits]) ?_
  intro r hr
  simp only [List.mem_cons, List.not_mem_nil, or_false] at hr
  rcases hr with rfl | rfl
  · rfl
  · rfl

theorem inv_plantOpCode_single {o : OpName} {s : Planter}
    (ho : discardFlag o = false) (hn : neutralRec (.op o false) = true)
    (hu : wfUnits [.op o false] = true)
    (h : PlantInv s.program s.indexes) :
    PlantInv (plantOpCode o s).program (plantOpCode o s).indexes := by
  have hp : (plantOpCode o s).program = s.program ++ [.op o false] := by
    simp [plantOpCode, ho]
  have hix : (plantOpCode o s).indexes = s.indexes := rfl
  rw [hp, hix]
  refine inv_append h hu ?_
  intro r hr
  simp only [List.mem_cons, List.not_mem_nil, or_false] at hr
  rw [hr]
  exact hn

theorem twoPrefix_view {c1 c2 : Char} {v : List Char}
    (h : List.isPrefixOf [c1, c2] v = true) :
    v = c1 :: c2 :: v.drop 2 := by
  match v, h with
  | [], h => simp [List.isPrefixOf] at h
  | [x], h => simp [List.isPrefixOf] at h
  | x :: y :: rest, h =>
    have h2 : c1 = x ∧ c2 = y := by
      simpa [List.isPrefixOf, Bool.and_eq_true, beq_iff_eq] using h
    rw [h2.1, h2.2]
    rfl

theorem inv_plantOpenXfr {mim : MoveAddMove} {s : Planter}
    (h : PlantInv s.program s.indexes)
    (hc : closes (s.indexes.length + 1) s.input.view = true) :
    PlantInv (plantOpenXfr mim s).program (plantOpenXfr mim s).indexes ∧
    closes (plantOpenXfr mim s).indexes.length (plantOpenXfr mim s).input.view
      = true := by
  unfold plantOpenXfr
  split_ifs with hg ht
  · -- XFR branch: the probe consumed "-]", the stack is untouched
    constructor
    · exact inv_plantXFR h
    · show closes s.indexes.length (tryPopString ['-', ']'] s.input).2.view = true
      by_cases hpre : List.isPrefixOf ['-', ']'] s.input.view = true
      · have hv := ((tryPopString_view ['-', ']'] s.input).1 hpre).2
        rw [hv]
        have hdec := twoPrefix_view hpre
        rw [hdec] at hc
        rw [closes, if_neg (by decide), if_neg (by decide), closes,
          if_neg (by decide), if_pos rfl, Bool.and_eq_true] at hc
        simpa using hc.2
      · have hfail := ((tryPopString_view ['-', ']'] s.input).2
          (Bool.not_eq_true _ ▸ hpre)).1
        rw [hfail] at ht
        simp at ht
  · -- guard passed but no "-]": plantOPEN then the normaliser
    have hveq : (tryPopString ['-', ']'] s.input).2.view = s.input.view := by
      by_cases hpre : List.isPrefixOf ['-', ']'] s.input.view = true
      · have := ((tryPopString_view ['-', ']'] s.input).1 hpre).1
        rw [this] at ht
        simp at ht
      · exact ((tryPopString_view ['-', ']'] s.input).2
          (Bool.not_eq_true _ ▸ hpre)).2
    obtain ⟨q, hq, hwq, hnq, hix, -⟩ :=
      plantMoveAddMove_prog mim (plantOPEN { s with
        input := (tryPopString ['-', ']'] s.input).2 })
    obtain ⟨hoprog, hoidx, hoin, -⟩ := plantOPEN_spec { s with
      input := (tryPopString ['-', ']'] s.input).2 }
    constructor
    · rw [hq, hix]
      exact inv_append (inv_plantOPEN h) hwq hnq
    · rw [hix, hoidx]
      refine plantMoveAddMove_closes mim _ _ ?_
      show closes (s.indexes.length + 1)
        (plantOPEN { s with input := (tryPopString ['-', ']'] s.input).2 }).input.view = true
      rw [plantOPEN_input]
      show closes (s.indexes.length + 1) (tryPopString ['-', ']'] s.input).2.view = true
      rw [hveq]
      exact hc
  · -- guard failed: plantOPEN then the normaliser, input untouched
    obtain ⟨q, hq, hwq, hnq, hix, -⟩ := plantMoveAddMove_prog mim (plantOPEN s)
    obtain ⟨hoprog, hoidx, hoin, -⟩ := plantOPEN_spec s
    constructor
    · rw [hq, hix]
      exact inv_append (inv_plantOPEN h) hwq hnq
    · rw [hix, hoidx]
      refine plantMoveAddMove_closes mim _ _ ?_
      rw [plantOPEN_input]
      exact hc

theorem inv_plantOpenSeekLeft {mim : MoveAddMove} {s : Planter}
    (h : PlantInv s.program s.indexes)
    (hc : closes (s.indexes.length + 1) s.input.view = true) :
    PlantInv (plantOpenSeekLeft mim s).program (plantOpenSeekLeft mim s).indexes ∧
    closes (plantOpenSeekLeft mim s).indexes.length
      (plantOpenSeekLeft mim s).input.view = true := by
  unfold plantOpenSeekLeft
  split_ifs with hg ht
  · obtain ⟨hh, hv⟩ := tryPop_true_view ht
    have hcons := view_head_cons hh
    rw [hcons, closes, if_neg (by decide), if_pos rfl, Bool.and_eq_true] at hc
    constructor
    · exact inv_plantOpCode_single rfl (by decide) (by decide) h
    · show closes s.indexes.length (tryPop ']' s.input).2.view = true
      rw [hv]
      simpa using hc.2
  · obtain ⟨-, hv⟩ := tryPop_false_view (Bool.not_eq_true _ ▸ ht)
    refine inv_plantOpenXfr h ?_
    show closes (s.indexes.length + 1) (tryPop ']' s.input).2.view = true
    rw [hv]
    exact hc
  · exact inv_plantOpenXfr h hc

theorem inv_plantOpenSeekRight {mim : MoveAddMove} {s : Planter}
    (h : PlantInv s.program s.indexes)
    (hc : closes (s.indexes.length + 1) s.input.view = true) :
    PlantInv (plantOpenSeekRight mim s).program (plantOpenSeekRight mim s).indexes ∧
    closes (plantOpenSeekRight mim s).indexes.length
      (plantOpenSeekRight mim s).input.view = true := by
  unfold plantOpenSeekRight
  split_ifs with hg ht
  · obtain ⟨hh, hv⟩ := tryPop_true_view ht
    have hcons := view_head_cons hh
    rw [hcons, closes, if_neg (by decide), if_pos rfl, Bool.and_eq_true] at hc
    constructor
    · exact inv_plantOpCode_single rfl (by decide) (by decide) h
    · show closes s.indexes.length (tryPop ']' s.input).2.view = true
      rw [hv]
      simpa using hc.2
  · obtain ⟨-, hv⟩ := tryPop_false_view (Bool.not_eq_true _ ▸ ht)
    refine inv_plantOpenSeekLeft h ?_
    show closes (s.indexes.length + 1) (tryPop ']' s.input).2.view = true
    rw [hv]
    exact hc
  · exact inv_plantOpenSeekLeft h hc

theorem inv_plantOpenBump {mim : MoveAddMove} {s : Planter}
    (h : PlantInv s.program s.indexes)
    (hc : closes (s.indexes.length + 1) s.input.view = true) :
    PlantInv (plantOpenBump mim s).program (plantOpenBump mim s).indexes ∧
    closes (plantOpenBump mim s).indexes.length
      (plantOpenBump mim s).input.view = true := by
  unfold plantOpenBump
  split_ifs with hg ht
  · obtain ⟨hh, hv⟩ := tryPop_true_view ht
    have hcons := view_head_cons hh
    rw [hcons, closes, if_neg (by decide), if_pos rfl, Bool.and_eq_true] at hc
    constructor
    · exact inv_plantOpCode_single rfl (by decide) (by decide) (inv_unplant h)
    · show closes s.indexes.length (tryPop ']' s.input).2.view = true
      rw [hv]
      simpa using hc.2
  · obtain ⟨-, hv⟩ := tryPop_false_view (Bool.not_eq_true _ ▸ ht)
    refine inv_plantOpenSeekRight h ?_
    show closes (s.indexes.length + 1) (tryPop ']' s.input).2.view = true
    rw [hv]
    exact hc
  · exact inv_plantOpenSeekRight h hc

theorem inv_plantOpenChar {s : Planter} (h : PlantInv s.program s.indexes)
    (hc : closes (s.indexes.length + 1) s.input.view = true) :
    PlantInv (plantOpenChar s).program (plantOpenChar s).indexes ∧
    closes (plantOpenChar s).indexes.length (plantOpenChar s).input.view
      = true := by
  unfold plantOpenChar
  split_ifs with hg
  · refine ⟨h, ?_⟩
    show closes s.indexes.length (skipDead 1 s.input).view = true
    rw [skipDead_view]
    exact closes_skipDeadChars s.input.view 1 s.indexes.length (by norm_num) hc
  · refine inv_plantOpenBump h ?_
    show closes (s.indexes.length + 1) (scanMoveAddMove 0 s.input).2.view = true
    rw [(scanMoveAddMove_view 0 s.input).2, closes_mamRest]
    exact hc

theorem inv_plantExpr {s : Planter} (h : PlantInv s.program s.indexes)
    (hc : closes s.indexes.length s.input.view = true) :
    ∃ b s1, plantExpr s = .ok (b, s1) ∧ PlantInv s1.program s1.indexes ∧
      closes s1.indexes.length s1.input.view = true ∧
      (b = false → s1.program = s.program ∧ s1.indexes = []) := by
  unfold plantExpr
  by_cases hp : s.input.pop.1 = none
  · rw [if_pos hp]
    obtain ⟨hh, hv⟩ := pop_view s.input
    rw [hp] at hh
    have hnil : s.input.view = [] := by
      match hl : s.input.view with
      | [] => rfl
      | x :: t => rw [hl] at hh; simp at hh
    have hk : s.indexes.length = 0 := by
      rw [hnil] at hc
      simpa [closes] using hc
    have hie : s.indexes = [] := List.length_eq_zero.mp hk
    refine ⟨false, _, rfl, h, ?_, fun _ => ⟨rfl, hie⟩⟩
    show closes s.indexes.length s.input.pop.2.view = true
    rw [hv, hnil, hk]
    rfl
  · rw [if_neg hp]
    obtain ⟨hh, hv⟩ := pop_view s.input
    rcases hcc : s.input.pop.1 with _ | c
    · exact absurd hcc hp
    · rw [hcc] at hh
      have hcons : s.input.view = c :: s.input.view.tail := view_head_cons hh.symm
      set s0 : Planter := { s with input := s.input.pop.2 } with hs0
      have hs0v : s0.input.view = s.input.view.tail := by rw [hs0]; exact hv
      by_cases h1 : c = '+'
      · subst h1
        rw [hcons, closes, if_neg (by decide), if_neg (by decide)] at hc
        rw [plantExprChar, if_pos rfl]
        refine ⟨true, _, rfl, inv_plantADD h, ?_, fun hb => Bool.noConfusion hb⟩
        obtain ⟨q, hq, hwq, hnq, hix, -⟩ := plantADD_prog (scanAdd 1 s0.input).1
          { s0 with input := (scanAdd 1 s0.input).2 }
        rw [hix]
        show closes s.indexes.length
          (plantADD (scanAdd 1 s0.input).1
            { s0 with input := (scanAdd 1 s0.input).2 }).input.view = true
        rw [plantADD_input]
        show closes s.indexes.length (scanAdd 1 s0.input).2.view = true
        rw [(scanAdd_view 1 s0.input).2, closes_dropWhile addChar_not_bracket, hs0v]
        exact hc
      by_cases h2 : c = '-'
      · subst h2
        rw [hcons, closes, if_neg (by decide), if_neg (by decide)] at hc
        rw [plantExprChar, if_neg (by decide), if_pos rfl]
        refine ⟨true, _, rfl, inv_plantADD h, ?_, fun hb => Bool.noConfusion hb⟩
        obtain ⟨q, hq, hwq, hnq, hix, -⟩ := plantADD_prog (scanAdd (-1) s0.input).1
          { s0 with input := (scanAdd (-1) s0.input).2 }
        rw [hix]
        show closes s.indexes.length
          (plantADD (scanAdd (-1) s0.input).1
            { s0 with input := (scanAdd (-1) s0.input).2 }).input.view = true
        rw [plantADD_input]
        show closes s.indexes.length (scanAdd (-1) s0.input).2.view = true
        rw [(scanAdd_view (-1) s0.input).2, closes_dropWhile addChar_not_bracket, hs0v]
        exact hc
      by_cases h3 : c = '>'
      · subst h3
        rw [hcons, closes, if_neg (by decide), if_neg (by decide)] at hc
        rw [plantExprChar, if_neg (by decide), if_neg (by decide), if_pos rfl]
        refine ⟨true, _, rfl, inv_plantMoveAddMove h, ?_, fun hb => Bool.noConfusion hb⟩
        obtain ⟨q, hq, hwq, hnq, hix, -⟩ := plantMoveAddMove_prog
          (scanMoveAddMove 1 s0.input).1 { s0 with input := (scanMoveAddMove 1 s0.input).2 }
        rw [hix]
        show closes s.indexes.length
          (plantMoveAddMove (scanMoveAddMove 1 s0.input).1
            { s0 with input := (scanMoveAddMove 1 s0.input).2 }).input.view = true
        refine plantMoveAddMove_closes _ _ _ ?_
        show closes s.indexes.length (scanMoveAddMove 1 s0.input).2.view = true
        rw [(scanMoveAddMove_view 1 s0.input).2, closes_mamRest, hs0v]
        exact hc
      by_cases h4 : c = '<'
      · subst h4
        rw [hcons, closes, if_neg (by decide), if_neg (by decide)] at hc
        rw [plantExprChar, if_neg (by decide), if_neg (by decide), if_neg (by decide),
          if_pos rfl]
        refine ⟨true, _, rfl, inv_plantMoveAddMove h, ?_, fun hb => Bool.noConfusion hb⟩
        obtain ⟨q, hq, hwq, hnq, hix, -⟩ := plantMoveAddMove_prog
          (scanMoveAddMove (-1) s0.input).1
          { s0 with input := (scanMoveAddMove (-1) s0.input).2 }
        rw [hix]
        show closes s.indexes.length
          (plantMoveAddMove (scanMoveAddMove (-1) s0.input).1
            { s0 with input := (scanMoveAddMove (-1) s0.input).2 }).input.view = true
        refine plantMoveAddMove_closes _ _ _ ?_
        show closes s.indexes.length (scanMoveAddMove (-1) s0.input).2.view = true
        rw [(scanMoveAddMove_view (-1) s0.input).2, closes_mamRest, hs0v]
        exact hc
      by_cases h5 : c = '['
      · subst h5
        rw [hcons, closes, if_pos rfl] at hc
        rw [plantExprChar, if_neg (by decide), if_neg (by decide), if_neg (by decide),
          if_neg (by decide), if_pos rfl]
        have hcopen : closes (s0.indexes.length + 1) s0.input.view = true := by
          show closes (s.indexes.length + 1) s0.input.view = true
          rw [hs0v]
          exact hc
        obtain ⟨hIc, hcc2⟩ := @inv_plantOpenChar s0 h hcopen
        exact ⟨true, _, rfl, hIc, hcc2, fun hb => Bool.noConfusion hb⟩
      by_cases h6 : c = ']'
      · subst h6
        rw [hcons, closes, if_neg (by decide), if_pos rfl, Bool.and_eq_true] at hc
        have hkne : s.indexes.length ≠ 0 := by simpa using hc.1
        cases hix : s.indexes with
        | nil => rw [hix] at hkne; simp at hkne
        | cons start rest =>
          obtain ⟨s1, hok, hfl, hin, hix1, hI⟩ :=
            @inv_plantCLOSE s0 start rest (show s0.indexes = start :: rest from hix) h
          rw [plantExprChar, if_neg (by decide), if_neg (by decide), if_neg (by decide),
            if_neg (by decide), if_neg (by decide), if_pos rfl, hok]
          refine ⟨true, s1, rfl, ?_, ?_, fun hb => Bool.noConfusion hb⟩
          · rw [hix1]
            exact hI
          · rw [hix1, hin]
            show closes rest.length s0.input.view = true
            rw [hs0v]
            have hlen : rest.length = s.indexes.length - 1 := by rw [hix]; rfl
            rw [hlen]
            exact hc.2
      by_cases h7 : c = '.'
      · subst h7
        rw [hcons, closes, if_neg (by decide), if_neg (by decide)] at hc
        rw [plantExprChar, if_neg (by decide), if_neg (by decide), if_neg (by decide),
          if_neg (by decide), if_neg (by decide), if_neg (by decide), if_pos rfl]
        refine ⟨true, _, rfl,
          inv_plantOpCode_single rfl (by decide) (by decide) h, ?_,
          fun hb => Bool.noConfusion hb⟩
        show closes s.indexes.length s0.input.view = true
        rw [hs0v]
        exact hc
      by_cases h8 : c = ','
      · subst h8
        rw [hcons, closes, if_neg (by decide), if_neg (by decide)] at hc
        rw [plantExprChar, if_neg (by decide), if_neg (by decide), if_neg (by decide),
          if_neg (by decide), if_neg (by decide), if_neg (by decide), if_neg (by decide),
          if_pos rfl]
        refine ⟨true, _, rfl,
          inv_plantOpCode_single rfl (by decide) (by decide) h, ?_,
          fun hb => Bool.noConfusion hb⟩
        show closes s.indexes.length s0.input.view = true
        rw [hs0v]
        exact hc
      · rw [hcons, closes, if_neg h5, if_neg h6] at hc
        rw [plantExprChar, if_neg (by simpa using h1), if_neg (by simpa using h2),
          if_neg (by simpa using h3), if_neg (by simpa using h4),
          if_neg (by simpa using h5), if_neg (by simpa using h6),
          if_neg (by simpa using h7), if_neg (by simpa using h8)]
        refine ⟨true, s0, rfl, h, ?_, fun hb => Bool.noConfusion hb⟩
        rw [hs0v]
        exact hc

theorem plantLoop_inv (s : Planter) :
    PlantInv s.program s.indexes →
    closes s.indexes.length s.input.view = true →
    ∃ s1, plantLoop s = .ok s1 ∧ PlantInv s1.program s1.indexes ∧
      s1.indexes = [] := by
  induction s using plantLoop.induct with
  | case1 s e he =>
    intro h hc
    obtain ⟨b, s2, hok, -⟩ := inv_plantExpr h hc
    rw [he] at hok
    exact absurd hok (by simp)
  | case2 s s1 he =>
    intro h hc
    obtain ⟨b, s2, hok, hI, hc2, himp⟩ := inv_plantExpr h hc
    rw [he] at hok
    simp only [Except.ok.injEq, Prod.mk.injEq] at hok
    obtain ⟨hb, hs⟩ := hok
    obtain ⟨-, hie⟩ := himp hb.symm
    refine ⟨s1, ?_, ?_, ?_⟩
    · rw [plantLoop]
      split
      · rename_i e2 he2
        rw [he2] at he
        exact absurd he (by simp)
      · rename_i s3 he2
        rw [he2] at he
        simp only [Except.ok.injEq, Prod.mk.injEq] at he
        rw [he.2]
      · rename_i s3 he2
        rw [he2] at he
        simp at he
    · rw [hs]
      exact hI
    · rw [hs]
      exact hie
  | case3 s s1 he ih =>
    intro h hc
    obtain ⟨b, s2, hok, hI, hc2, himp⟩ := inv_plantExpr h hc
    rw [he] at hok
    simp only [Except.ok.injEq, Prod.mk.injEq] at hok
    obtain ⟨hb, hs⟩ := hok
    rw [← hs] at hI hc2
    obtain ⟨s3, hok3, hI3, hie3⟩ := ih hI hc2
    refine ⟨s3, ?_, hI3, hie3⟩
    rw [plantLoop]
    split
    · rename_i e2 he2
      rw [he2] at he
      exact absurd he (by simp)
    · rename_i s4 he2
      rw [he2] at he
      simp at he
    · rename_i s4 he2
      rw [he2] at he
      simp only [Except.ok.injEq, Prod.mk.injEq] at he
      rw [he.2]
      exact hok3

theorem plantProgram_inv {s : Planter} (h : PlantInv s.program s.indexes)
    (hc : closes s.indexes.length s.input.view = true) :
    ∃ s1, plantProgram s = .ok s1 ∧ PlantInv s1.program s1.indexes ∧
      s1.indexes = [] := by
  obtain ⟨s1, hok, hI, hie⟩ := plantLoop_inv s h hc
  refine ⟨plantOpCode .HALT s1, ?_, ?_, hie⟩
  · rw [plantProgram, hok]
    rfl
  · exact inv_plantOpCode_single rfl (by decide) (by decide) hI

theorem lift_inv (flags : CompileFlags) (src : List Char)
    (hbal : closes 0 src = true) :
    ∃ p, lift flags src = .ok p ∧ PlantInv p [] := by
  have hI0 : PlantInv (initPlanter flags src).program (initPlanter flags src).indexes := by
    refine ⟨by rfl, ⟨List.Pairwise.nil, ?_, ?_⟩, ?_, ?_⟩
    · intro a ha
      simp [initPlanter] at ha
    · intro i hi
      simp [initPlanter] at hi
    · intro b d hb
      simp [initPlanter] at hb
    · intro a t d ha hat
      simp [initPlanter] at ha
  have hc0 : closes (initPlanter flags src).indexes.length
      (initPlanter flags src).input.view = true := by
    show closes 0 (PPI.view { buffer := [], input := src }) = true
    show closes 0 ([] ++ filterCmd src) = true
    rw [List.nil_append, closes_filterCmd]
    exact hbal
  obtain ⟨s1, hok, hI, hie⟩ := plantProgram_inv hI0 hc0
  refine ⟨s1.program, ?_, ?_⟩
  · rw [lift, hok]
    rfl
  · rw [← hie]
    exact hI

theorem inv2_plantOpenXfr {mim : MoveAddMove} {s : Planter}
    (h : PlantInv s.program s.indexes) :
    PlantInv (plantOpenXfr mim s).program (plantOpenXfr mim s).indexes := by
  unfold plantOpenXfr
  split_ifs with hg ht
  · exact inv_plantXFR h
  · obtain ⟨q, hq, hwq, hnq, hix, -⟩ :=
      plantMoveAddMove_prog mim (plantOPEN { s with
        input := (tryPopString ['-', ']'] s.input).2 })
    rw [hq, hix]
    exact inv_append (inv_plantOPEN h) hwq hnq
  · obtain ⟨q, hq, hwq, hnq, hix, -⟩ := plantMoveAddMove_prog mim (plantOPEN s)
    rw [hq, hix]
    exact inv_append (inv_plantOPEN h) hwq hnq

theorem inv2_plantOpenSeekLeft {mim : MoveAddMove} {s : Planter}
    (h : PlantInv s.program s.indexes) :
    PlantInv (plantOpenSeekLeft mim s).program (plantOpenSeekLeft mim s).indexes := by
  unfold plantOpenSeekLeft
  split_ifs with hg ht
  · exact inv_plantOpCode_single rfl (by decide) (by decide) h
  · exact inv2_plantOpenXfr h
  · exact inv2_plantOpenXfr h

theorem inv2_plantOpenSeekRight {mim : MoveAddMove} {s : Planter}
    (h : PlantInv s.program s.indexes) :
    PlantInv (plantOpenSeekRight mim s).program (plantOpenSeekRight mim s).indexes := by
  unfold plantOpenSeekRight
  split_ifs with hg ht
  · exact inv_plantOpCode_single rfl (by decide) (by decide) h
  · exact inv2_plantOpenSeekLeft h
  · exact inv2_plantOpenSeekLeft h

theorem inv2_plantOpenBump {mim : MoveAddMove} {s : Planter}
    (h : PlantInv s.program s.indexes) :
    PlantInv (plantOpenBump mim s).program (plantOpenBump mim s).indexes := by
  unfold plantOpenBump
  split_ifs with hg ht
  · exact inv_plantOpCode_single rfl (by decide) (by decide) (inv_unplant h)
  · exact inv2_plantOpenSeekRight h
  · exact inv2_plantOpenSeekRight h

theorem inv2_plantOpenChar {s : Planter} (h : PlantInv s.program s.indexes) :
    PlantInv (plantOpenChar s).program (plantOpenChar s).indexes := by
  unfold plantOpenChar
  split_ifs with hg
  · exact h
  · exact inv2_plantOpenBump h

theorem inv2_plantExprChar {c : Option Char} {s0 s1 : Planter} {b : Bool}
    (h : PlantInv s0.program s0.indexes)
    (hok : plantExprChar c s0 = .ok (b, s1)) :
    PlantInv s1.program s1.indexes := by
  unfold plantExprChar at hok
  split_ifs at hok
  · simp only [Except.ok.injEq, Prod.mk.injEq] at hok
    rw [← hok.2]
    exact inv_plantADD h
  · simp only [Except.ok.injEq, Prod.mk.injEq] at hok
    rw [← hok.2]
    exact inv_plantADD h
  · simp only [Except.ok.injEq, Prod.mk.injEq] at hok
    rw [← hok.2]
    exact inv_plantMoveAddMove h
  · simp only [Except.ok.injEq, Prod.mk.injEq] at hok
    rw [← hok.2]
    exact inv_plantMoveAddMove h
  · simp only [Except.ok.injEq, Prod.mk.injEq] at hok
    rw [← hok.2]
    exact inv2_plantOpenChar h
  · cases hix : s0.indexes with
    | nil =>
      rw [plantCLOSE, hix] at hok
      exact absurd hok (by simp [Except.map])
    | cons start rest =>
      obtain ⟨s2, hok2, -, -, -, hI⟩ := inv_plantCLOSE hix h
      rw [hok2] at hok
      simp only [Except.map, Except.ok.injEq, Prod.mk.injEq] at hok
      rw [← hok.2]
      obtain ⟨s3, hok3, -, -, hix3, hI3⟩ := inv_plantCLOSE hix h
      rw [hok3] at hok2
      simp only [Except.ok.injEq] at hok2
      rw [← hix3] at hI3
      rw [hok2] at hI3
      exact hI3
  · simp only [Except.ok.injEq, Prod.mk.injEq] at hok
    rw [← hok.2]
    exact inv_plantOpCode_single rfl (by decide) (by decide) h
  · simp only [Except.ok.injEq, Prod.mk.injEq] at hok
    rw [← hok.2]
    exact inv_plantOpCode_single rfl (by decide) (by decide) h
  · simp only [Except.ok.injEq, Prod.mk.injEq] at hok
    rw [← hok.2]
    exact h

theorem inv2_plantExpr {s s1 : Planter} {b : Bool}
    (h : PlantInv s.program s.indexes)
    (hok : plantExpr s = .ok (b, s1)) :
    PlantInv s1.program s1.indexes := by
  unfold plantExpr at hok
  by_cases hp : s.input.pop.1 = none
  · rw [if_pos hp] at hok
    simp only [Except.ok.injEq, Prod.mk.injEq] at hok
    rw [← hok.2]
    exact h
  · rw [if_neg hp] at hok
    exact @inv2_plantExprChar s.input.pop.1 { s with input := s.input.pop.2 } s1 b h hok

theorem inv2_plantLoop (s : Planter) : ∀ {s1 : Planter},
    PlantInv s.program s.indexes → plantLoop s = .ok s1 →
    PlantInv s1.program s1.indexes := by
  induction s using plantLoop.induct with
  | case1 s e he =>
    intro s1 h hok
    rw [plantLoop] at hok
    split at hok
    · exact absurd hok (by simp)
    · rename_i s2 he2
      rw [he2] at he
      exact absurd he (by simp)
    · rename_i s2 he2
      rw [he2] at he
      exact absurd he (by simp)
  | case2 s s2 he =>
    intro s1 h hok
    rw [plantLoop] at hok
    split at hok
    · exact absurd hok (by simp)
    · rename_i s3 he2
      simp only [Except.ok.injEq] at hok
      rw [← hok]
      exact inv2_plantExpr h he2
    · rename_i s3 he2
      rw [he2] at he
      exact absurd he (by simp)
  | case3 s s2 he ih =>
    intro s1 h hok
    rw [plantLoop] at hok
    split at hok
    · exact absurd hok (by simp)
    · rename_i s3 he2
      rw [he2] at he
      exact absurd he (by simp)
    · rename_i s3 he2
      rw [he2] at he
      simp only [Except.ok.injEq, Prod.mk.injEq] at he
      rw [he.2] at hok
      have hI3 := inv2_plantExpr h he2
      rw [he.2] at hI3
      exact ih hI3 hok

theorem inv2_lift {flags : CompileFlags} {src : List Char} {p : List Rec}
    (hok : lift flags src = .ok p) : wfUnits p = true := by
  rw [lift] at hok
  match hpp : plantProgram (initPlanter flags src) with
  | .error e =>
    rw [hpp] at hok
    exact absurd hok (by simp [Except.map])
  | .ok s1 =>
    rw [hpp] at hok
    simp only [Except.map, Except.ok.injEq] at hok
    rw [plantProgram] at hpp
    match hpl : plantLoop (initPlanter flags src) with
    | .error e =>
      rw [hpl] at hpp
      exact absurd hpp (by simp [Except.map])
    | .ok s2 =>
      rw [hpl] at hpp
      simp only [Except.map, Except.ok.injEq] at hpp
      have hI0 : PlantInv (initPlanter flags src).program
          (initPlanter flags src).indexes := by
        refine ⟨by rfl, ⟨List.Pairwise.nil, ?_, ?_⟩, ?_, ?_⟩
        · intro a ha
          simp [initPlanter] at ha
        · intro i hi
          simp [initPlanter] at hi
        · intro b d hb
          simp [initPlanter] at hb
        · intro a t d ha hat
          simp [initPlanter] at ha
      have hI2 := inv2_plantLoop (initPlanter flags src) hI0 hpl
      have hI1 : PlantInv s1.program s1.indexes := by
        rw [← hpp]
        exact inv_plantOpCode_single rfl (by decide) (by decide) hI2
      rw [← hok]
      exact hI1.1

/-- Engine configuration for multi-step reasoning: a running machine at a
program counter, a halted machine, or a crashed one. -/
inductive Cfg where
  | run (pc : Nat) (s : EState)
  | halted (s : EState)
  | crashed

/-- One configuration step: dispatch once when running, absorb otherwise. -/
def stepCfg (p : List Instr) : Cfg → Cfg
  | .run pc s =>
    match engineStep p pc s with
    | .next pc1 s1 => .run pc1 s1
    | .halt s1 => .halted s1
    | .crash => .crashed
  | .halted s => .halted s
  | .crashed => .crashed

/-- Iterated configuration steps. -/
def stepN (p : List Instr) : Nat → Cfg → Cfg
  | 0, c => c
  | n + 1, c => stepN p n (stepCfg p c)

/-- Reachability in the engine's step relation. -/
def Reaches (p : List Instr) (c c' : Cfg) : Prop := ∃ n, stepN p n c = c'

theorem stepN_add (p : List Instr) (m n : Nat) (c : Cfg) :
    stepN p (m + n) c = stepN p n (stepN p m c) := by
  induction m generalizing c with
  | zero =>
    rw [Nat.zero_add]
    rfl
  | succ m ih =>
    have he : m + 1 + n = m + n + 1 := by omega
    rw [he]
    show stepN p (m + n) (stepCfg p c) = _
    rw [ih (stepCfg p c)]
    rfl

theorem reaches_refl (p : List Instr) (c : Cfg) : Reaches p c c := ⟨0, rfl⟩

theorem reaches_trans {p : List Instr} {c1 c2 c3 : Cfg}
    (h1 : Reaches p c1 c2) (h2 : Reaches p c2 c3) : Reaches p c1 c3 := by
  obtain ⟨m, hm⟩ := h1
  obtain ⟨n, hn⟩ := h2
  exact ⟨m + n, by rw [stepN_add, hm, hn]⟩

theorem reaches_single {p : List Instr} {c c' : Cfg} (h : stepCfg p c = c') :
    Reaches p c c' := ⟨1, h⟩

theorem reaches_step_trans {p : List Instr} {c c1 c' : Cfg}
    (h : stepCfg p c = c1) (h2 : Reaches p c1 c') : Reaches p c c' :=
  reaches_trans (reaches_single h) h2

theorem stepN_halted (p : List Instr) (n : Nat) (s : EState) :
    stepN p n (.halted s) = .halted s := by
  induction n with
  | zero => rfl
  | succ n ih => exact ih

theorem stepN_crashed (p : List Instr) (n : Nat) :
    stepN p n (.crashed) = .crashed := by
  induction n with
  | zero => rfl
  | succ n ih => exact ih

/-- A halting reachability converts into a successful `engineRun` for every
sufficiently large fuel budget. -/
theorem engineRun_of_stepN {p : List Instr} {s s' : EState} {pc : Nat} :
    ∀ {n : Nat}, stepN p n (.run pc s) = .halted s' →
    ∀ f, n ≤ f → engineRun f p pc s = .halted s' := by
  intro n
  induction n generalizing pc s with
  | zero =>
    intro h
    exact absurd h (by simp [stepN])
  | succ n ih =>
    intro h f hf
    match f, hf with
    | 0, hf => exact absurd hf (by omega)
    | f + 1, hf =>
      rw [engineRun]
      have hs : stepN p n (stepCfg p (.run pc s)) = .halted s' := h
      rw [stepCfg] at hs
      match he : engineStep p pc s with
      | .next pc1 s1 =>
        rw [he] at hs
        have hs2 : stepN p n (.run pc1 s1) = .halted s' := hs
        show engineRun f p pc1 s1 = .halted s'
        exact ih hs2 f (by omega)
      | .halt s1 =>
        rw [he] at hs
        have hs2 : stepN p n (.halted s1) = .halted s' := hs
        rw [stepN_halted] at hs2
        show RunRes.halted s1 = .halted s'
        simpa using hs2
      | .crash =>
        rw [he] at hs
        have hs2 : stepN p n (.crashed) = .halted s' := hs
        rw [stepN_crashed] at hs2
        exact absurd hs2 (by simp)

theorem engineRun_to_stepN {p : List Instr} {s s' : EState} {pc : Nat} :
    ∀ {f : Nat}, engineRun f p pc s = .halted s' →
    ∃ n, n ≤ f ∧ stepN p n (.run pc s) = .halted s' := by
  intro f
  induction f generalizing pc s with
  | zero =>
    intro h
    exact absurd h (by simp [engineRun])
  | succ f ih =>
    intro h
    rw [engineRun] at h
    match he : engineStep p pc s with
    | .next pc1 s1 =>
      rw [he] at h
      have h2 : engineRun f p pc1 s1 = .halted s' := h
      obtain ⟨n, hn, hs⟩ := ih h2
      refine ⟨n + 1, by omega, ?_⟩
      show stepN p n (stepCfg p (.run pc s)) = .halted s'
      rw [stepCfg, he]
      exact hs
    | .halt s1 =>
      rw [he] at h
      have h2 : RunRes.halted s1 = .halted s' := h
      simp only [RunRes.halted.injEq] at h2
      refine ⟨1, by omega, ?_⟩
      show stepN p 0 (stepCfg p (.run pc s)) = .halted s'
      rw [stepCfg, he, h2]
      rfl
    | .crash =>
      rw [he] at h
      have h2 : RunRes.crashed = .halted s' := h
      exact absurd h2 (by simp)

/-- Fuel monotonicity of successful engine runs. -/
theorem engineRun_mono {p : List Instr} {s s' : EState} {pc f g : Nat}
    (h : engineRun f p pc s = .halted s') (hfg : f ≤ g) :
    engineRun g p pc s = .halted s' := by
  obtain ⟨n, hn, hs⟩ := engineRun_to_stepN h
  exact engineRun_of_stepN hs g (by omega)

theorem engineRun_of_reaches {p : List Instr} {s s' : EState} {pc : Nat}
    (h : Reaches p (.run pc s) (.halted s')) :
    ∃ f, engineRun f p pc s = .halted s' := by
  obtain ⟨n, hn⟩ := h
  exact ⟨n + 1, engineRun_of_stepN hn (n + 1) (by omega)⟩

/-- Abstract syntax of the Brainfuck command language, the common reference
for the naive interpreter and the optimising lifter. -/
inductive BF where
  | inc
  | dec
  | mleft
  | mright
  | put
  | get
  | loop (body : List BF)

/-- The non-bracket command characters as syntax atoms. -/
def atomOf : Char → Option BF
  | '+' => some .inc
  | '-' => some .dec
  | '<' => some .mleft
  | '>' => some .mright
  | '.' => some .put
  | ',' => some .get
  | _ => none

/-- Fuelled parser of a Brainfuck sequence: parse atoms and loops until an
unmatched `]` (returned unconsumed) or the end of input; `none` on an
unmatched `[` (or fuel exhaustion, which `length + 1` fuel rules out). -/
def parseSeqF : Nat → List Char → Option (List BF × List Char)
  | 0, _ => none
  | _ + 1, [] => some ([], [])
  | f + 1, c :: rest =>
    if c = ']' then some ([], c :: rest)
    else if c = '[' then
      match parseSeqF f rest with
      | none => none
      | some (body, rest1) =>
        match rest1 with
        | [] => none
        | c2 :: rest2 =>
          if c2 = ']' then
            match parseSeqF f rest2 with
            | none => none
            | some (tail, rest3) => some (.loop body :: tail, rest3)
          else none
    else
      match parseSeqF f rest with
      | none => none
      | some (tail, rest2) =>
        some ((match atomOf c with
               | some a => a :: tail
               | none => tail), rest2)

/-- Whole-source parse: succeeds exactly on sources with no unmatched
bracket. -/
def parseSrc (src : List Char) : Option (List BF) :=
  match parseSeqF (src.length + 1) src with
  | some (ast, []) => some ast
  | _ => none

/-- `+1` / `-1` on the current cell, modulo 256. -/
def bumpCell (d : Int) (s : EState) : EState :=
  { s with mem := writeMem s.mem s.loc (wrapByte ((s.mem s.loc : Int) + d)) }

/-- Effect of a `,` on the reference state (mirrors the engine's `GET`). -/
def getCell (s : EState) : EState :=
  match s.inp with
  | [] => s
  | b :: r => { s with mem := writeMem s.mem s.loc (b % 256), inp := r }

/-- Fuelled reference semantics of Brainfuck over the engine's state type:
structural except that each loop iteration costs one unit of fuel. -/
def refRun : Nat → List BF → EState → Option EState
  | _, [], s => some s
  | f, .inc :: rest, s => refRun f rest (bumpCell 1 s)
  | f, .dec :: rest, s => refRun f rest (bumpCell (-1) s)
  | f, .mleft :: rest, s => refRun f rest { s with loc := s.loc - 1 }
  | f, .mright :: rest, s => refRun f rest { s with loc := s.loc + 1 }
  | f, .put :: rest, s => refRun f rest { s with out := s.out ++ [s.mem s.loc] }
  | f, .get :: rest, s => refRun f rest (getCell s)
  | f, .loop body :: rest, s =>
    if s.mem s.loc = 0 then refRun f rest s
    else
      match f with
      | 0 => none
      | f + 1 =>
        match refRun f body s with
        | none => none
        | some s1 => refRun f (.loop body :: rest) s1
termination_by f code _ => (f, sizeOf code)

theorem parseSeqF_rest_length : ∀ (f : Nat) (src : List Char) {ast : List BF}
    {rest : List Char}, parseSeqF f src = some (ast, rest) →
    rest.length ≤ src.length := by
  intro f
  induction f with
  | zero =>
    intro src ast rest h
    exact absurd h (by simp [parseSeqF])
  | succ f ih =>
    intro src ast rest h
    match src with
    | [] =>
      rw [parseSeqF] at h
      simp only [Option.some.injEq, Prod.mk.injEq] at h
      rw [← h.2]
    | c :: rest0 =>
      rw [parseSeqF] at h
      by_cases h1 : c = ']'
      · rw [if_pos h1] at h
        simp only [Option.some.injEq, Prod.mk.injEq] at h
        rw [← h.2]
      · rw [if_neg h1] at h
        by_cases h2 : c = '['
        · rw [if_pos h2] at h
          match m1 : parseSeqF f rest0 with
          | none => rw [m1] at h; exact absurd h (by simp)
          | some (body, rest1) =>
            rw [m1] at h
            simp only [] at h
            match rest1 with
            | [] => exact absurd h (by simp)
            | c2 :: rest2 =>
              simp only [] at h
              by_cases h3 : c2 = ']'
              · rw [if_pos h3] at h
                match m2 : parseSeqF f rest2 with
                | none => rw [m2] at h; exact absurd h (by simp)
                | some (tail, rest3) =>
                  rw [m2] at h
                  simp only [] at h
                  simp only [Option.some.injEq, Prod.mk.injEq] at h
                  rw [← h.2]
                  have i1 := ih rest0 m1
                  have i2 := ih rest2 m2
                  simp only [List.length_cons] at i1 ⊢
                  omega
              · rw [if_neg h3] at h
                exact absurd h (by simp)
        · rw [if_neg h2] at h
          match m1 : parseSeqF f rest0 with
          | none => rw [m1] at h; exact absurd h (by simp)
          | some (tail, rest2) =>
            rw [m1] at h
            simp only [] at h
            simp only [Option.some.injEq, Prod.mk.injEq] at h
            rw [← h.2]
            have i1 := ih rest0 m1
            simp only [List.length_cons]
            omega

theorem parseSeqF_mono : ∀ (f : Nat) (src : List Char) {r : List BF × List Char},
    parseSeqF f src = some r → parseSeqF (f + 1) src = some r := by
  intro f
  induction f with
  | zero =>
    intro src r h
    exact absurd h (by simp [parseSeqF])
  | succ f ih =>
    intro src r h
    match src with
    | [] => exact h
    | c :: rest0 =>
      rw [parseSeqF] at h
      rw [parseSeqF]
      by_cases h1 : c = ']'
      · rw [if_pos h1] at h ⊢
        exact h
      · rw [if_neg h1] at h ⊢
        by_cases h2 : c = '['
        · rw [if_pos h2] at h ⊢
          match m1 : parseSeqF f rest0 with
          | none => rw [m1] at h; exact absurd h (by simp)
          | some (body, rest1) =>
            rw [m1] at h
            rw [ih rest0 m1]
            simp only [] at h ⊢
            match rest1 with
            | [] => exact absurd h (by simp)
            | c2 :: rest2 =>
              simp only [] at h ⊢
              by_cases h3 : c2 = ']'
              · rw [if_pos h3] at h ⊢
                match m2 : parseSeqF f rest2 with
                | none => rw [m2] at h; exact absurd h (by simp)
                | some (tail, rest3) =>
                  rw [m2] at h
                  rw [ih rest2 m2]
                  simp only [] at h ⊢
                  exact h
              · rw [if_neg h3] at h
                exact absurd h (by simp)
        · rw [if_neg h2] at h ⊢
          match m1 : parseSeqF f rest0 with
          | none => rw [m1] at h; exact absurd h (by simp)
          | some (tail, rest2) =>
            rw [m1] at h
            rw [ih rest0 m1]
            simp only [] at h ⊢
            exact h

theorem parseSeqF_mono_le {f g : Nat} (hfg : f ≤ g) (src : List Char)
    {r : List BF × List Char} (h : parseSeqF f src = some r) :
    parseSeqF g src = some r := by
  induction g with
  | zero =>
    match f, hfg with
    | 0, _ => exact h
  | succ g ih =>
    rcases Nat.lt_or_eq_of_le hfg with hlt | he
    · exact parseSeqF_mono g src (ih (by omega))
    · rw [← he]
      exact h

theorem parse_balanced : ∀ (n : Nat) (src : List Char), src.length ≤ n →
    ∀ f, src.length < f →
    (closes 0 src = true → ∃ ast, parseSeqF f src = some (ast, [])) ∧
    (∀ k, closes (k + 1) src = true →
      ∃ ast rest, parseSeqF f src = some (ast, ']' :: rest) ∧
        closes k rest = true) := by
  intro n
  induction n using Nat.strong_induction_on with
  | _ n ihn =>
  intro src hlen f hf
  match src with
  | [] =>
    constructor
    · intro hb
      match f, hf with
      | f + 1, _ => exact ⟨[], rfl⟩
    · intro k hb
      rw [closes] at hb
      simp at hb
  | c :: rest0 =>
    match f, hf with
    | f + 1, hf =>
    have hr0 : rest0.length < f := by
      simp only [List.length_cons] at hf
      omega
    have hr0n : rest0.length ≤ rest0.length := Nat.le_refl _
    have hr0lt : rest0.length < n := by
      simp only [List.length_cons] at hlen
      omega
    by_cases h1 : c = ']'
    · subst h1
      constructor
      · intro hb
        rw [closes, if_neg (by decide), if_pos rfl] at hb
        simp at hb
      · intro k hb
        rw [closes, if_neg (by decide), if_pos rfl, Bool.and_eq_true] at hb
        refine ⟨[], rest0, ?_, ?_⟩
        · rw [parseSeqF, if_pos rfl]
        · simpa using hb.2
    · by_cases h2 : c = '['
      · subst h2
        have hstep : ∀ (body tail : List BF) (r2 r3 : List Char),
            parseSeqF f rest0 = some (body, ']' :: r2) →
            parseSeqF f r2 = some (tail, r3) →
            parseSeqF (f + 1) ('[' :: rest0) = some (.loop body :: tail, r3) := by
          intro body tail r2 r3 hm1 hm2
          rw [parseSeqF, if_neg (by decide), if_pos rfl, hm1]
          simp only []
          rw [if_true, hm2]
        constructor
        · intro hb
          rw [closes, if_pos rfl] at hb
          obtain ⟨body, rest2, hm1, hc2⟩ :=
            ((ihn rest0.length hr0lt rest0 hr0n f hr0).2) 0 hb
          have hlen2 : rest2.length < rest0.length := by
            have := parseSeqF_rest_length f rest0 hm1
            simp only [List.length_cons] at this
            omega
          obtain ⟨tail, hm2⟩ :=
            ((ihn rest2.length (by omega) rest2 (Nat.le_refl _) f (by omega)).1) hc2
          exact ⟨.loop body :: tail, hstep body tail rest2 [] hm1 hm2⟩
        · intro k hb
          rw [closes, if_pos rfl] at hb
          obtain ⟨body, rest2, hm1, hc2⟩ :=
            ((ihn rest0.length hr0lt rest0 hr0n f hr0).2) (k + 1) hb
          have hlen2 : rest2.length < rest0.length := by
            have := parseSeqF_rest_length f rest0 hm1
            simp only [List.length_cons] at this
            omega
          obtain ⟨tail, rest3, hm2, hc3⟩ :=
            ((ihn rest2.length (by omega) rest2 (Nat.le_refl _) f (by omega)).2) k hc2
          exact ⟨.loop body :: tail, rest3, hstep body tail rest2 (']' :: rest3) hm1 hm2, hc3⟩
      · constructor
        · intro hb
          rw [closes, if_neg h2, if_neg h1] at hb
          obtain ⟨tail, hm⟩ := ((ihn rest0.length hr0lt rest0 hr0n f hr0).1) hb
          refine ⟨(match atomOf c with
                   | some a => a :: tail
                   | none => tail), ?_⟩
          rw [parseSeqF, if_neg h1, if_neg h2, hm]
        · intro k hb
          rw [closes, if_neg h2, if_neg h1] at hb
          obtain ⟨tail, rest2, hm, hc2⟩ :=
            ((ihn rest0.length hr0lt rest0 hr0n f hr0).2) k hb
          refine ⟨(match atomOf c with
                   | some a => a :: tail
                   | none => tail), rest2, ?_, hc2⟩
          rw [parseSeqF, if_neg h1, if_neg h2, hm]

/-- Balanced sources parse completely. -/
theorem parseSrc_of_closes {src : List Char} (hbal : closes 0 src = true) :
    ∃ ast, parseSrc src = some ast := by
  obtain ⟨ast, hm⟩ :=
    ((parse_balanced src.length src (Nat.le_refl _) (src.length + 1) (by omega)).1) hbal
  refine ⟨ast, ?_⟩
  rw [parseSrc, hm]

theorem refRun_loop_zero {f : Nat} {body rest : List BF} {s : EState}
    (hz : s.mem s.loc = 0) :
    refRun f (.loop body :: rest) s = refRun f rest s := by
  match f with
  | 0 =>
    simp only [refRun]
    rw [if_pos hz]
  | f + 1 =>
    simp only [refRun]
    rw [if_pos hz]

theorem refRun_loop_pos {f : Nat} {body rest : List BF} {s : EState}
    (hz : ¬s.mem s.loc = 0) :
    refRun (f + 1) (.loop body :: rest) s =
      match refRun f body s with
      | none => none
      | some s1 => refRun f (.loop body :: rest) s1 := by
  simp only [refRun]
  rw [if_neg hz]

theorem refRun_loop_pos_zero {body rest : List BF} {s : EState}
    (hz : ¬s.mem s.loc = 0) :
    refRun 0 (.loop body :: rest) s = none := by
  simp only [refRun]
  rw [if_neg hz]

theorem refRun_mono : ∀ (f : Nat) (ast : List BF) (s : EState) {s' : EState},
    refRun f ast s = some s' → refRun (f + 1) ast s = some s' := by
  intro f ast s
  induction f, ast, s using refRun.induct with
  | case1 f s =>
    intro s' h
    simp only [refRun] at h ⊢
    exact h
  | case2 f rest s ih =>
    intro s' h
    simp only [refRun] at h ⊢
    exact ih h
  | case3 f rest s ih =>
    intro s' h
    simp only [refRun] at h ⊢
    exact ih h
  | case4 f rest s ih =>
    intro s' h
    simp only [refRun] at h ⊢
    exact ih h
  | case5 f rest s ih =>
    intro s' h
    simp only [refRun] at h ⊢
    exact ih h
  | case6 f rest s ih =>
    intro s' h
    simp only [refRun] at h ⊢
    exact ih h
  | case7 f rest s ih =>
    intro s' h
    simp only [refRun] at h ⊢
    exact ih h
  | case8 f body rest s hz ih =>
    intro s' h
    rw [refRun_loop_zero hz] at h ⊢
    exact ih h
  | case9 body rest s hz =>
    intro s' h
    rw [refRun_loop_pos_zero hz] at h
    exact absurd h (by simp)
  | case10 body rest s hz f hnone ih =>
    intro s' h
    rw [show Nat.succ f = f + 1 from rfl] at h
    rw [refRun_loop_pos hz, hnone] at h
    exact absurd h (by simp)
  | case11 body rest s hz f s1 hsome ih2 ih1 =>
    intro s' h
    rw [show Nat.succ f = f + 1 from rfl] at h ⊢
    rw [refRun_loop_pos hz, hsome] at h
    simp only [] at h
    rw [refRun_loop_pos hz, ih2 hsome]
    simp only []
    exact ih1 h

theorem refRun_mono_le {f g : Nat} (hfg : f ≤ g) {ast : List BF} {s s' : EState}
    (h : refRun f ast s = some s') : refRun g ast s = some s' := by
  induction g with
  | zero =>
    match f, hfg with
    | 0, _ => exact h
  | succ g ih =>
    rcases Nat.lt_or_eq_of_le hfg with hlt | he
    · exact refRun_mono g ast s (ih (by omega))
    · rw [← he]
      exact h

/-- The single instruction the naive planter emits for an atom. -/
def atomInstr : BF → Instr
  | .inc => .opcode .INCR
  | .dec => .opcode .DECR
  | .mleft => .opcode .LEFT
  | .mright => .opcode .RIGHT
  | .put => .opcode .PUT
  | .get => .opcode .GET
  | .loop _ => .opcode .HALT

/-- Flat length of the naive code of an AST. -/
def lenN : List BF → Nat
  | [] => 0
  | .loop body :: rest => lenN body + 4 + lenN rest
  | _ :: rest => 1 + lenN rest

/-- The naive planter's flat code for an AST, planted at absolute offset
`base` (needed for the absolute jump targets of `OPEN`/`CLOSE`). -/
def flatN (base : Nat) : List BF → List Instr
  | [] => []
  | .inc :: rest => .opcode .INCR :: flatN (base + 1) rest
  | .dec :: rest => .opcode .DECR :: flatN (base + 1) rest
  | .mleft :: rest => .opcode .LEFT :: flatN (base + 1) rest
  | .mright :: rest => .opcode .RIGHT :: flatN (base + 1) rest
  | .put :: rest => .opcode .PUT :: flatN (base + 1) rest
  | .get :: rest => .opcode .GET :: flatN (base + 1) rest
  | .loop body :: rest =>
    (.opcode .OPEN :: .operand ((base : Int) + 4 + lenN body) ::
      (flatN (base + 2) body ++
        [.opcode .CLOSE, .operand ((base : Int) + 2)])) ++
    flatN (base + 4 + lenN body) rest

theorem flatN_length : ∀ (base : Nat) (ast : List BF),
    (flatN base ast).length = lenN ast := by
  intro base ast
  induction base, ast using flatN.induct with
  | case1 base => simp [flatN, lenN]
  | case8 base body rest ih1 ih2 =>
    simp only [flatN, lenN, List.length_append, List.length_cons, List.length_nil]
    rw [ih1, ih2]
  | _ =>
    rename_i base rest ih
    simp only [flatN, lenN, List.length_cons]
    rw [ih]
    omega

/-- The naive opcode of an atom. -/
def naiveOpOf : BF → OpName
  | .inc => .INCR
  | .dec => .DECR
  | .mleft => .LEFT
  | .mright => .RIGHT
  | .put => .PUT
  | .get => .GET
  | .loop _ => .HALT

theorem atomOf_ne_loop {c : Char} {a : BF} (h : atomOf c = some a) :
    ∀ b, a ≠ .loop b := by
  unfold atomOf at h
  split at h <;>
    first
      | (simp only [Option.some.injEq] at h
         rw [← h]
         intro b hb
         exact absurd hb (by intro hc; cases hc))
      | exact absurd h (by simp)

theorem flatN_atom_cons (base : Nat) {a : BF} (tail : List BF)
    (h : ∀ b, a ≠ .loop b) :
    flatN base (a :: tail) = .opcode (naiveOpOf a) :: flatN (base + 1) tail ∧
    lenN (a :: tail) = 1 + lenN tail := by
  cases a with
  | loop b => exact absurd rfl (h b)
  | inc => exact ⟨by simp [flatN, naiveOpOf], by simp [lenN]⟩
  | dec => exact ⟨by simp [flatN, naiveOpOf], by simp [lenN]⟩
  | mleft => exact ⟨by simp [flatN, naiveOpOf], by simp [lenN]⟩
  | mright => exact ⟨by simp [flatN, naiveOpOf], by simp [lenN]⟩
  | put => exact ⟨by simp [flatN, naiveOpOf], by simp [lenN]⟩
  | get => exact ⟨by simp [flatN, naiveOpOf], by simp [lenN]⟩

theorem naivePlantChar_open (st : NPlanter) :
    naivePlantChar '[' st = .ok
      { program := st.program ++ [.opcode .OPEN, .nullSlot],
        indexes := (st.program.length + 1) :: st.indexes } := by
  rw [naivePlantChar]
  simp [naiveOpcodeOfChar]

theorem naivePlantChar_close {st : NPlanter} {start : Nat} {idx : List Nat}
    (hix : st.indexes = start :: idx) :
    naivePlantChar ']' st = .ok
      { program := (st.program ++ [Instr.opcode .CLOSE]).set start
          (.operand (((st.program ++ [Instr.opcode .CLOSE]).length : Int) + 1)) ++
          [.operand ((start : Int) + 1)],
        indexes := idx } := by
  rw [naivePlantChar]
  simp only [naiveOpcodeOfChar, hix]
  rw [if_neg (by decide), if_true]

theorem naivePlantChar_atom {c : Char} {a : BF} (ha : atomOf c = some a)
    (st : NPlanter) :
    naivePlantChar c st = .ok
      { program := st.program ++ [.opcode (naiveOpOf a)],
        indexes := st.indexes } := by
  unfold atomOf at ha
  split at ha <;>
    first
      | (simp only [Option.some.injEq] at ha
         rw [← ha]
         rw [naivePlantChar]
         simp [naiveOpcodeOfChar, naiveOpOf])
      | exact absurd ha (by simp)

theorem naivePlantChar_skip {c : Char} (ha : atomOf c = none)
    (h1 : c ≠ '[') (h2 : c ≠ ']') (st : NPlanter) :
    naivePlantChar c st = .ok st := by
  have hop : naiveOpcodeOfChar c = none := by
    unfold naiveOpcodeOfChar
    split
    · exact absurd ha (by simp [atomOf])
    · exact absurd ha (by simp [atomOf])
    · exact absurd ha (by simp [atomOf])
    · exact absurd ha (by simp [atomOf])
    · exact absurd rfl h1
    · exact absurd rfl h2
    · exact absurd ha (by simp [atomOf])
    · exact absurd ha (by simp [atomOf])
    · rfl
  rw [naivePlantChar, hop]

theorem naive_loop_prog (p0 B : List Instr) :
    (((p0 ++ [Instr.opcode .OPEN, Instr.nullSlot] ++ B) ++
        [Instr.opcode .CLOSE]).set (p0.length + 1)
        (.operand ((((p0 ++ [Instr.opcode .OPEN, Instr.nullSlot] ++ B) ++
            [Instr.opcode .CLOSE]).length : Int) + 1))) ++
      [.operand (((p0.length + 1 : Nat) : Int) + 1)] =
    p0 ++ (.opcode .OPEN :: .operand ((p0.length : Int) + 4 + B.length) ::
      (B ++ [.opcode .CLOSE, .operand ((p0.length : Int) + 2)])) := by
  have hv1 : ((((p0 ++ [Instr.opcode .OPEN, Instr.nullSlot] ++ B) ++
      [Instr.opcode .CLOSE]).length : Int) + 1) =
      (p0.length : Int) + 4 + B.length := by
    simp only [List.length_append, List.length_cons, List.length_nil]
    push_cast
    ring
  have hv2 : (((p0.length + 1 : Nat) : Int) + 1) = (p0.length : Int) + 2 := by
    push_cast
    ring
  rw [hv1, hv2]
  rw [List.append_assoc p0 [Instr.opcode .OPEN, Instr.nullSlot] B]
  rw [List.append_assoc p0 ([Instr.opcode .OPEN, Instr.nullSlot] ++ B)
    [Instr.opcode .CLOSE]]
  rw [List.set_append_right _ _ (by omega)]
  have hidx : p0.length + 1 - p0.length = 1 := by omega
  rw [hidx]
  simp [List.append_assoc]

theorem naive_plant_parsed : ∀ (fu : Nat) (src : List Char) {ast : List BF}
    {rest : List Char} (p0 : List Instr) (idx : List Nat),
    parseSeqF fu src = some (ast, rest) →
    naivePlantList src { program := p0, indexes := idx } =
      naivePlantList rest
        { program := p0 ++ flatN p0.length ast, indexes := idx } := by
  intro fu
  induction fu with
  | zero =>
    intro src ast rest p0 idx h
    exact absurd h (by simp [parseSeqF])
  | succ fu ih =>
    intro src ast rest p0 idx h
    match src with
    | [] =>
      rw [parseSeqF] at h
      simp only [Option.some.injEq, Prod.mk.injEq] at h
      rw [← h.1, ← h.2]
      simp [flatN]
    | c :: rest0 =>
      rw [parseSeqF] at h
      by_cases h1 : c = ']'
      · rw [if_pos h1] at h
        simp only [Option.some.injEq, Prod.mk.injEq] at h
        rw [← h.1, ← h.2, h1]
        simp [flatN]
      · rw [if_neg h1] at h
        by_cases h2 : c = '['
        · rw [if_pos h2] at h
          match m1 : parseSeqF fu rest0 with
          | none => rw [m1] at h; exact absurd h (by simp)
          | some (body, rest1) =>
            rw [m1] at h
            simp only [] at h
            match rest1 with
            | [] => exact absurd h (by simp)
            | c2 :: rest2 =>
              simp only [] at h
              by_cases h3 : c2 = ']'
              · rw [if_pos h3] at h
                match m2 : parseSeqF fu rest2 with
                | none => rw [m2] at h; exact absurd h (by simp)
                | some (tail, rest3) =>
                  rw [m2] at h
                  simp only [] at h
                  simp only [Option.some.injEq, Prod.mk.injEq] at h
                  subst h2
                  subst h3
                  rw [← h.1, ← h.2]
                  rw [naivePlantList, naivePlantChar_open]
                  simp only []
                  rw [ih rest0 (p0 ++ [Instr.opcode .OPEN, Instr.nullSlot])
                    ((p0.length + 1) :: idx) m1]
                  have hl2 : (p0 ++ [Instr.opcode .OPEN, Instr.nullSlot]).length
                      = p0.length + 2 := by
                    simp
                  rw [hl2]
                  rw [naivePlantList, naivePlantChar_close rfl]
                  simp only []
                  rw [ih rest2 _ idx m2]
                  congr 1
                  have hBlen : (flatN (p0.length + 2) body).length = lenN body :=
                    flatN_length _ _
                  have hlenS : ((((p0 ++ [Instr.opcode .OPEN, Instr.nullSlot]) ++
                      flatN (p0.length + 2) body) ++ [Instr.opcode .CLOSE]).set
                        (p0.length + 1)
                        (Instr.operand (((((p0 ++ [Instr.opcode .OPEN, Instr.nullSlot]) ++
                          flatN (p0.length + 2) body) ++
                          [Instr.opcode .CLOSE]).length : Int) + 1)) ++
                      [Instr.operand (((p0.length + 1 : Nat) : Int) + 1)]).length
                      = p0.length + 4 + lenN body := by
                    simp only [List.length_append, List.length_set, List.length_cons,
                      List.length_nil, hBlen]
                    omega
                  rw [hlenS]
                  have hmain := naive_loop_prog p0 (flatN (p0.length + 2) body)
                  rw [hBlen] at hmain
                  rw [hmain]
                  rw [flatN]
                  simp [List.append_assoc]
              · rw [if_neg h3] at h
                exact absurd h (by simp)
        · rw [if_neg h2] at h
          match m1 : parseSeqF fu rest0 with
          | none => rw [m1] at h; exact absurd h (by simp)
          | some (tail, rest2) =>
            rw [m1] at h
            simp only [Option.some.injEq, Prod.mk.injEq] at h
            match hao : atomOf c with
            | some a =>
              rw [hao] at h
              simp only [] at h
              rw [naivePlantList, naivePlantChar_atom hao]
              simp only []
              rw [ih rest0 (p0 ++ [Instr.opcode (naiveOpOf a)]) idx m1]
              obtain ⟨hfa, hla⟩ := flatN_atom_cons p0.length tail
                (atomOf_ne_loop hao)
              rw [← h.1, ← h.2, hfa]
              congr 1
              have hl1 : (p0 ++ [Instr.opcode (naiveOpOf a)]).length
                  = p0.length + 1 := by
                simp
              rw [hl1]
              simp [List.append_assoc]
            | none =>
              rw [hao] at h
              simp only [] at h
              rw [naivePlantList, naivePlantChar_skip hao h2 h1]
              simp only []
              rw [ih rest0 p0 idx m1]
              rw [← h.1, ← h.2]

theorem lk_at {α : Type} (p1 l : List α) (i : Nat) :
    (p1 ++ l)[p1.length + i]? = l[i]? := by
  rw [List.getElem?_append_right (by omega)]
  congr 1
  omega

theorem engineStep_INCR {P : List Instr} {pc : Nat} {s : EState}
    (h : P[pc]? = some (.opcode .INCR)) :
    engineStep P pc s = .next (pc + 1) (bumpCell 1 s) := by
  rw [engineStep, h]
  rfl

theorem engineStep_DECR {P : List Instr} {pc : Nat} {s : EState}
    (h : P[pc]? = some (.opcode .DECR)) :
    engineStep P pc s = .next (pc + 1) (bumpCell (-1) s) := by
  rw [engineStep, h]
  rfl

theorem engineStep_LEFT {P : List Instr} {pc : Nat} {s : EState}
    (h : P[pc]? = some (.opcode .LEFT)) :
    engineStep P pc s = .next (pc + 1) { s with loc := s.loc - 1 } := by
  rw [engineStep, h]

theorem engineStep_RIGHT {P : List Instr} {pc : Nat} {s : EState}
    (h : P[pc]? = some (.opcode .RIGHT)) :
    engineStep P pc s = .next (pc + 1) { s with loc := s.loc + 1 } := by
  rw [engineStep, h]

theorem engineStep_PUT {P : List Instr} {pc : Nat} {s : EState}
    (h : P[pc]? = some (.opcode .PUT)) :
    engineStep P pc s = .next (pc + 1) { s with out := s.out ++ [s.mem s.loc] } := by
  rw [engineStep, h]

theorem engineStep_GET {P : List Instr} {pc : Nat} {s : EState}
    (h : P[pc]? = some (.opcode .GET)) :
    engineStep P pc s = .next (pc + 1) (getCell s) := by
  rw [engineStep, h]
  match hi : s.inp with
  | [] => rw [getCell, hi]
  | b :: r => rw [getCell, hi]

theorem engineStep_HALT {P : List Instr} {pc : Nat} {s : EState}
    (h : P[pc]? = some (.opcode .HALT)) :
    engineStep P pc s = .halt s := by
  rw [engineStep, h]

theorem engineStep_ADD {P : List Instr} {pc : Nat} {s : EState} {n : Int}
    (h : P[pc]? = some (.opcode .ADD)) (h2 : P[pc + 1]? = some (.operand n)) :
    engineStep P pc s = .next (pc + 2) (bumpCell n s) := by
  rw [engineStep, h, h2]
  rfl

theorem engineStep_MOVE {P : List Instr} {pc : Nat} {s : EState} {n : Int}
    (h : P[pc]? = some (.opcode .MOVE)) (h2 : P[pc + 1]? = some (.operand n)) :
    engineStep P pc s = .next (pc + 2) { s with loc := s.loc + n } := by
  rw [engineStep, h, h2]

theorem engineStep_SET_ZERO {P : List Instr} {pc : Nat} {s : EState}
    (h : P[pc]? = some (.opcode .SET_ZERO)) :
    engineStep P pc s = .next (pc + 1) { s with mem := writeMem s.mem s.loc 0 } := by
  rw [engineStep, h]

theorem engineStep_ADD_OFFSET {P : List Instr} {pc : Nat} {s : EState}
    {offset bY : Int} (h : P[pc]? = some (.opcode .ADD_OFFSET))
    (h2 : P[pc + 1]? = some (.dyad offset bY)) :
    engineStep P pc s = .next (pc + 2)
      { s with mem := (writeMem s.mem (s.loc + offset)
          (wrapByte ((s.mem (s.loc + offset) : Int) + bY))) } := by
  rw [engineStep, h, h2]

theorem engineStep_XFR {P : List Instr} {pc : Nat} {s : EState}
    {offset bY : Int} (h : P[pc]? = some (.opcode .XFR_MULTIPLE))
    (h2 : P[pc + 1]? = some (.dyad offset bY)) :
    engineStep P pc s = .next (pc + 2)
      { s with mem :=
          (writeMem
            (writeMem s.mem (s.loc + offset)
              (wrapByte ((s.mem (s.loc + offset) : Int) + (s.mem s.loc : Int) * bY)))
            s.loc 0) } := by
  rw [engineStep, h, h2]

theorem engineStep_OPEN_zero {P : List Instr} {pc : Nat} {s : EState} {n : Int}
    (h : P[pc]? = some (.opcode .OPEN)) (h2 : P[pc + 1]? = some (.operand n))
    (hz : s.mem s.loc = 0) (hn : ¬n < 0) :
    engineStep P pc s = .next n.toNat s := by
  rw [engineStep, h, h2]
  simp only []
  rw [if_pos hz, if_neg hn]

theorem engineStep_OPEN_pos {P : List Instr} {pc : Nat} {s : EState} {n : Int}
    (h : P[pc]? = some (.opcode .OPEN)) (h2 : P[pc + 1]? = some (.operand n))
    (hz : ¬s.mem s.loc = 0) :
    engineStep P pc s = .next (pc + 2) s := by
  rw [engineStep, h, h2]
  simp only []
  rw [if_neg hz]

theorem engineStep_CLOSE_pos {P : List Instr} {pc : Nat} {s : EState} {n : Int}
    (h : P[pc]? = some (.opcode .CLOSE)) (h2 : P[pc + 1]? = some (.operand n))
    (hz : ¬s.mem s.loc = 0) (hn : ¬n < 0) :
    engineStep P pc s = .next n.toNat s := by
  rw [engineStep, h, h2]
  simp only []
  rw [if_pos hz, if_neg hn]

theorem engineStep_CLOSE_zero {P : List Instr} {pc : Nat} {s : EState} {n : Int}
    (h : P[pc]? = some (.opcode .CLOSE)) (h2 : P[pc + 1]? = some (.operand n))
    (hz : s.mem s.loc = 0) :
    engineStep P pc s = .next (pc + 2) s := by
  rw [engineStep, h, h2]
  simp only []
  rw [if_neg (by rw [hz]; simp)]

theorem engineStep_SEEK_LEFT_zero {P : List Instr} {pc : Nat} {s : EState}
    (h : P[pc]? = some (.opcode .SEEK_LEFT)) (hz : s.mem s.loc = 0) :
    engineStep P pc s = .next (pc + 1) s := by
  rw [engineStep, h]
  simp only []
  rw [if_pos hz]

theorem engineStep_SEEK_LEFT_pos {P : List Instr} {pc : Nat} {s : EState}
    (h : P[pc]? = some (.opcode .SEEK_LEFT)) (hz : ¬s.mem s.loc = 0) :
    engineStep P pc s = .next pc { s with loc := s.loc - 1 } := by
  rw [engineStep, h]
  simp only []
  rw [if_neg hz]

theorem engineStep_SEEK_RIGHT_zero {P : List Instr} {pc : Nat} {s : EState}
    (h : P[pc]? = some (.opcode .SEEK_RIGHT)) (hz : s.mem s.loc = 0) :
    engineStep P pc s = .next (pc + 1) s := by
  rw [engineStep, h]
  simp only []
  rw [if_pos hz]

theorem engineStep_SEEK_RIGHT_pos {P : List Instr} {pc : Nat} {s : EState}
    (h : P[pc]? = some (.opcode .SEEK_RIGHT)) (hz : ¬s.mem s.loc = 0) :
    engineStep P pc s = .next pc { s with loc := s.loc + 1 } := by
  rw [engineStep, h]
  simp only []
  rw [if_neg hz]

theorem stepCfg_of_step {P : List Instr} {pc pc1 : Nat} {s s1 : EState}
    (h : engineStep P pc s = .next pc1 s1) :
    stepCfg P (.run pc s) = .run pc1 s1 := by
  rw [stepCfg, h]

theorem stepCfg_of_halt {P : List Instr} {pc : Nat} {s s1 : EState}
    (h : engineStep P pc s = .halt s1) :
    stepCfg P (.run pc s) = .halted s1 := by
  rw [stepCfg, h]

theorem flat_sim : ∀ (f : Nat) (ast : List BF) (p1 p2 : List Instr)
    (s s' : EState), refRun f ast s = some s' →
    Reaches (p1 ++ (flatN p1.length ast ++ p2)) (.run p1.length s)
      (.run (p1.length + lenN ast) s') := by
  intro f
  induction f using Nat.strong_induction_on with
  | _ f IHf =>
  intro ast
  induction ast with
  | nil =>
    intro p1 p2 s s' h
    simp only [refRun, Option.some.injEq] at h
    have hl : p1.length + lenN [] = p1.length := by
      simp [lenN]
    rw [hl, ← h]
    exact reaches_refl _ _
  | cons atom rest IHrest =>
    cases atom with
    | inc =>
      intro p1 p2 s s' h
      simp only [refRun] at h
      have hfetch : (p1 ++ (flatN p1.length (.inc :: rest) ++ p2))[p1.length]? =
          some (.opcode .INCR) := by
        have hk := lk_at p1 (flatN p1.length (.inc :: rest) ++ p2) 0
        rw [Nat.add_zero] at hk
        rw [hk]
        simp [flatN]
      have hstep := stepCfg_of_step (@engineStep_INCR _ _ s hfetch)
      have hP : p1 ++ (flatN p1.length (.inc :: rest) ++ p2) =
          (p1 ++ [.opcode .INCR]) ++ (flatN (p1.length + 1) rest ++ p2) := by
        simp [flatN, List.append_assoc]
      have hIH := IHrest (p1 ++ [.opcode .INCR]) p2 (bumpCell 1 s) s' h
      simp only [List.length_append, List.length_cons, List.length_nil] at hIH
      rw [← hP] at hIH
      have harith : p1.length + lenN (.inc :: rest) = p1.length + 1 + lenN rest := by
        simp [lenN]
        omega
      rw [harith]
      exact reaches_step_trans hstep hIH
    | dec =>
      intro p1 p2 s s' h
      simp only [refRun] at h
      have hfetch : (p1 ++ (flatN p1.length (.dec :: rest) ++ p2))[p1.length]? =
          some (.opcode .DECR) := by
        have hk := lk_at p1 (flatN p1.length (.dec :: rest) ++ p2) 0
        rw [Nat.add_zero] at hk
        rw [hk]
        simp [flatN]
      have hstep := stepCfg_of_step (@engineStep_DECR _ _ s hfetch)
      have hP : p1 ++ (flatN p1.length (.dec :: rest) ++ p2) =
          (p1 ++ [.opcode .DECR]) ++ (flatN (p1.length + 1) rest ++ p2) := by
        simp [flatN, List.append_assoc]
      have hIH := IHrest (p1 ++ [.opcode .DECR]) p2 (bumpCell (-1) s) s' h
      simp only [List.length_append, List.length_cons, List.length_nil] at hIH
      rw [← hP] at hIH
      have harith : p1.length + lenN (.dec :: rest) = p1.length + 1 + lenN rest := by
        simp [lenN]
        omega
      rw [harith]
      exact reaches_step_trans hstep hIH
    | mleft =>
      intro p1 p2 s s' h
      simp only [refRun] at h
      have hfetch : (p1 ++ (flatN p1.length (.mleft :: rest) ++ p2))[p1.length]? =
          some (.opcode .LEFT) := by
        have hk := lk_at p1 (flatN p1.length (.mleft :: rest) ++ p2) 0
        rw [Nat.add_zero] at hk
        rw [hk]
        simp [flatN]
      have hstep := stepCfg_of_step (@engineStep_LEFT _ _ s hfetch)
      have hP : p1 ++ (flatN p1.length (.mleft :: rest) ++ p2) =
          (p1 ++ [.opcode .LEFT]) ++ (flatN (p1.length + 1) rest ++ p2) := by
        simp [flatN, List.append_assoc]
      have hIH := IHrest (p1 ++ [.opcode .LEFT]) p2 { s with loc := s.loc - 1 } s' h
      simp only [List.length_append, List.length_cons, List.length_nil] at hIH
      rw [← hP] at hIH
      have harith : p1.length + lenN (.mleft :: rest) = p1.length + 1 + lenN rest := by
        simp [lenN]
        omega
      rw [harith]
      exact reaches_step_trans hstep hIH
    | mright =>
      intro p1 p2 s s' h
      simp only [refRun] at h
      have hfetch : (p1 ++ (flatN p1.length (.mright :: rest) ++ p2))[p1.length]? =
          some (.opcode .RIGHT) := by
        have hk := lk_at p1 (flatN p1.length (.mright :: rest) ++ p2) 0
        rw [Nat.add_zero] at hk
        rw [hk]
        simp [flatN]
      have hstep := stepCfg_of_step (@engineStep_RIGHT _ _ s hfetch)
      have hP : p1 ++ (flatN p1.length (.mright :: rest) ++ p2) =
          (p1 ++ [.opcode .RIGHT]) ++ (flatN (p1.length + 1) rest ++ p2) := by
        simp [flatN, List.append_assoc]
      have hIH := IHrest (p1 ++ [.opcode .RIGHT]) p2 { s with loc := s.loc + 1 } s' h
      simp only [List.length_append, List.length_cons, List.length_nil] at hIH
      rw [← hP] at hIH
      have harith : p1.length + lenN (.mright :: rest) = p1.length + 1 + lenN rest := by
        simp [lenN]
        omega
      rw [harith]
      exact reaches_step_trans hstep hIH
    | put =>
      intro p1 p2 s s' h
      simp only [refRun] at h
      have hfetch : (p1 ++ (flatN p1.length (.put :: rest) ++ p2))[p1.length]? =
          some (.opcode .PUT) := by
        have hk := lk_at p1 (flatN p1.length (.put :: rest) ++ p2) 0
        rw [Nat.add_zero] at hk
        rw [hk]
        simp [flatN]
      have hstep := stepCfg_of_step (@engineStep_PUT _ _ s hfetch)
      have hP : p1 ++ (flatN p1.length (.put :: rest) ++ p2) =
          (p1 ++ [.opcode .PUT]) ++ (flatN (p1.length + 1) rest ++ p2) := by
        simp [flatN, List.append_assoc]
      have hIH := IHrest (p1 ++ [.opcode .PUT]) p2
        { s with out := s.out ++ [s.mem s.loc] } s' h
      simp only [List.length_append, List.length_cons, List.length_nil] at hIH
      rw [← hP] at hIH
      have harith : p1.length + lenN (.put :: rest) = p1.length + 1 + lenN rest := by
        simp [lenN]
        omega
      rw [harith]
      exact reaches_step_trans hstep hIH
    | get =>
      intro p1 p2 s s' h
      simp only [refRun] at h
      have hfetch : (p1 ++ (flatN p1.length (.get :: rest) ++ p2))[p1.length]? =
          some (.opcode .GET) := by
        have hk := lk_at p1 (flatN p1.length (.get :: rest) ++ p2) 0
        rw [Nat.add_zero] at hk
        rw [hk]
        simp [flatN]
      have hstep := stepCfg_of_step (@engineStep_GET _ _ s hfetch)
      have hP : p1 ++ (flatN p1.length (.get :: rest) ++ p2) =
          (p1 ++ [.opcode .GET]) ++ (flatN (p1.length + 1) rest ++ p2) := by
        simp [flatN, List.append_assoc]
      have hIH := IHrest (p1 ++ [.opcode .GET]) p2 (getCell s) s' h
      simp only [List.length_append, List.length_cons, List.length_nil] at hIH
      rw [← hP] at hIH
      have harith : p1.length + lenN (.get :: rest) = p1.length + 1 + lenN rest := by
        simp [lenN]
        omega
      rw [harith]
      exact reaches_step_trans hstep hIH
    | loop body =>
      intro p1 p2 s s' h
      have hfetchO : (p1 ++ (flatN p1.length (.loop body :: rest) ++ p2))[p1.length]? =
          some (.opcode .OPEN) := by
        have hk := lk_at p1 (flatN p1.length (.loop body :: rest) ++ p2) 0
        rw [Nat.add_zero] at hk
        rw [hk]
        simp [flatN]
      have hfetchOT : (p1 ++ (flatN p1.length (.loop body :: rest) ++ p2))[p1.length + 1]? =
          some (.operand ((p1.length : Int) + 4 + lenN body)) := by
        have hk := lk_at p1 (flatN p1.length (.loop body :: rest) ++ p2) 1
        rw [hk]
        simp [flatN]
      have hPrest : p1 ++ (flatN p1.length (.loop body :: rest) ++ p2) =
          (p1 ++ (.opcode .OPEN :: .operand ((p1.length : Int) + 4 + lenN body) ::
            (flatN (p1.length + 2) body ++
              [.opcode .CLOSE, .operand ((p1.length : Int) + 2)]))) ++
          (flatN (p1.length + 4 + lenN body) rest ++ p2) := by
        simp [flatN, List.append_assoc]
      have hlenrest : (p1 ++ (Instr.opcode .OPEN ::
            Instr.operand ((p1.length : Int) + 4 + lenN body) ::
            (flatN (p1.length + 2) body ++
              [Instr.opcode .CLOSE, Instr.operand ((p1.length : Int) + 2)]))).length
          = p1.length + 4 + lenN body := by
        simp only [List.length_append, List.length_cons, List.length_nil,
          flatN_length]
        omega
      have hPbody : p1 ++ (flatN p1.length (.loop body :: rest) ++ p2) =
          (p1 ++ [.opcode .OPEN, .operand ((p1.length : Int) + 4 + lenN body)]) ++
          (flatN (p1.length + 2) body ++
            ([.opcode .CLOSE, .operand ((p1.length : Int) + 2)] ++
              (flatN (p1.length + 4 + lenN body) rest ++ p2))) := by
        simp [flatN, List.append_assoc]
      have hlenbody : (p1 ++ [Instr.opcode .OPEN,
          Instr.operand ((p1.length : Int) + 4 + lenN body)]).length
          = p1.length + 2 := by
        simp
      have hfetchC : (p1 ++ (flatN p1.length (.loop body :: rest) ++ p2))[p1.length + 2 + lenN body]? =
          some (.opcode .CLOSE) := by
        rw [hPbody]
        have hk := lk_at (p1 ++ [Instr.opcode .OPEN,
          Instr.operand ((p1.length : Int) + 4 + lenN body)])
          (flatN (p1.length + 2) body ++
            ([Instr.opcode .CLOSE, Instr.operand ((p1.length : Int) + 2)] ++
              (flatN (p1.length + 4 + lenN body) rest ++ p2))) (lenN body)
        rw [hlenbody] at hk
        have he : p1.length + 2 + lenN body = p1.length + 2 + lenN body := rfl
        rw [hk]
        rw [List.getElem?_append_right (by rw [flatN_length])]
        rw [flatN_length]
        simp
      have hfetchCT : (p1 ++ (flatN p1.length (.loop body :: rest) ++ p2))[p1.length + 2 + lenN body + 1]? =
          some (.operand ((p1.length : Int) + 2)) := by
        rw [hPbody]
        have hk := lk_at (p1 ++ [Instr.opcode .OPEN,
          Instr.operand ((p1.length : Int) + 4 + lenN body)])
          (flatN (p1.length + 2) body ++
            ([Instr.opcode .CLOSE, Instr.operand ((p1.length : Int) + 2)] ++
              (flatN (p1.length + 4 + lenN body) rest ++ p2))) (lenN body + 1)
        rw [hlenbody] at hk
        have he : p1.length + 2 + lenN body + 1 = p1.length + 2 + (lenN body + 1) := by
          omega
        rw [he, hk]
        rw [List.getElem?_append_right (by rw [flatN_length]; omega)]
        rw [flatN_length]
        have he2 : lenN body + 1 - lenN body = 1 := by omega
        rw [he2]
        simp
      have harithL : p1.length + lenN (.loop body :: rest) =
          p1.length + 4 + lenN body + lenN rest := by
        simp [lenN]
        omega
      by_cases hz : s.mem s.loc = 0
      · rw [refRun_loop_zero hz] at h
        have hstep := stepCfg_of_step (engineStep_OPEN_zero hfetchO hfetchOT hz
          (by omega))
        have htn : ((p1.length : Int) + 4 + lenN body).toNat =
            p1.length + 4 + lenN body := by omega
        rw [htn] at hstep
        have hIH := IHrest (p1 ++ (.opcode .OPEN ::
          .operand ((p1.length : Int) + 4 + lenN body) ::
            (flatN (p1.length + 2) body ++
              [.opcode .CLOSE, .operand ((p1.length : Int) + 2)]))) p2 s s' h
        rw [hlenrest, ← hPrest] at hIH
        rw [harithL]
        exact reaches_step_trans hstep hIH
      · match f, h with
        | 0, h =>
          rw [refRun_loop_pos_zero hz] at h
          exact absurd h (by simp)
        | g + 1, h =>
          rw [refRun_loop_pos hz] at h
          match mb : refRun g body s with
          | none =>
            rw [mb] at h
            exact absurd h (by simp)
          | some s1 =>
            rw [mb] at h
            simp only [] at h
            have hstep := stepCfg_of_step (engineStep_OPEN_pos hfetchO hfetchOT hz)
            have hbody := IHf g (by omega) body
              (p1 ++ [Instr.opcode .OPEN,
                Instr.operand ((p1.length : Int) + 4 + lenN body)])
              ([Instr.opcode .CLOSE, Instr.operand ((p1.length : Int) + 2)] ++
                (flatN (p1.length + 4 + lenN body) rest ++ p2)) s s1 mb
            rw [hlenbody, ← hPbody] at hbody
            have hAUX : ∀ g2, g2 < g + 1 → ∀ (t s2 : EState),
                refRun g2 (.loop body :: rest) t = some s2 →
                Reaches (p1 ++ (flatN p1.length (.loop body :: rest) ++ p2))
                  (.run (p1.length + 2 + lenN body) t)
                  (.run (p1.length + lenN (.loop body :: rest)) s2) := by
              intro g2
              induction g2 using Nat.strong_induction_on with
              | _ g2 ihg =>
              intro hg2 t s2 hr
              by_cases hz2 : t.mem t.loc = 0
              · rw [refRun_loop_zero hz2] at hr
                have hstepC := stepCfg_of_step (engineStep_CLOSE_zero hfetchC hfetchCT hz2)
                have hIH2 := IHf g2 hg2 rest (p1 ++ (.opcode .OPEN ::
                  .operand ((p1.length : Int) + 4 + lenN body) ::
                    (flatN (p1.length + 2) body ++
                      [.opcode .CLOSE, .operand ((p1.length : Int) + 2)]))) p2 t s2 hr
                rw [hlenrest, ← hPrest] at hIH2
                have he3 : p1.length + 2 + lenN body + 1 + 1 =
                    p1.length + 4 + lenN body := by omega
                rw [he3] at hstepC
                rw [harithL]
                exact reaches_step_trans hstepC hIH2
              · match g2, hr with
                | 0, hr =>
                  rw [refRun_loop_pos_zero hz2] at hr
                  exact absurd hr (by simp)
                | g3 + 1, hr =>
                  rw [refRun_loop_pos hz2] at hr
                  match mb2 : refRun g3 body t with
                  | none =>
                    rw [mb2] at hr
                    exact absurd hr (by simp)
                  | some t1 =>
                    rw [mb2] at hr
                    simp only [] at hr
                    have hstepC := stepCfg_of_step
                      (engineStep_CLOSE_pos hfetchC hfetchCT hz2 (by omega))
                    have htn2 : ((p1.length : Int) + 2).toNat = p1.length + 2 := by
                      omega
                    rw [htn2] at hstepC
                    have hbody2 := IHf g3 (by omega) body
                      (p1 ++ [Instr.opcode .OPEN,
                        Instr.operand ((p1.length : Int) + 4 + lenN body)])
                      ([Instr.opcode .CLOSE, Instr.operand ((p1.length : Int) + 2)] ++
                        (flatN (p1.length + 4 + lenN body) rest ++ p2)) t t1 mb2
                    rw [hlenbody, ← hPbody] at hbody2
                    have htail := ihg g3 (by omega) (by omega) t1 s2 hr
                    exact reaches_step_trans hstepC (reaches_trans hbody2 htail)
            have htail := hAUX g (by omega) s1 s' h
            exact reaches_step_trans hstep (reaches_trans hbody htail)

/-- On a source the parser accepts, the naive planter succeeds and produces
exactly the flat code of the parse, followed by `HALT`. -/
theorem naivePlant_src {src : List Char} {ast : List BF}
    (h : parseSrc src = some ast) :
    naivePlant src = .ok (flatN 0 ast ++ [Instr.opcode .HALT]) := by
  rw [parseSrc] at h
  match m : parseSeqF (src.length + 1) src with
  | none =>
    rw [m] at h
    exact absurd h (by simp)
  | some (ast1, rest1) =>
    rw [m] at h
    match rest1, h with
    | [], h =>
      simp only [Option.some.injEq] at h
      subst h
      have hp := naive_plant_parsed (src.length + 1) src [] [] m
      simp only [List.nil_append, List.length_nil] at hp
      rw [naivePlant, hp]
      rw [naivePlantList]
      rfl

/-- Naive-backend adequacy: whenever the reference semantics terminates on
the parse of a source, the naive pipeline halts with the same output. -/
theorem naive_backend_correct {src : List Char} {ast : List BF} {f : Nat}
    {inp : List Nat} {s' : EState}
    (hp : parseSrc src = some ast)
    (hr : refRun f ast (initEState inp) = some s') :
    ∃ n, naiveRunOutput n src inp = some s'.out := by
  have hplant := naivePlant_src hp
  have hsim := flat_sim f ast [] [Instr.opcode .HALT] (initEState inp) s' hr
  simp only [List.nil_append, List.length_nil, Nat.zero_add] at hsim
  have hfetch : (flatN 0 ast ++ [Instr.opcode .HALT])[lenN ast]? =
      some (.opcode .HALT) := by
    rw [List.getElem?_append_right (by rw [flatN_length])]
    rw [flatN_length]
    simp
  have hstep := stepCfg_of_halt (@engineStep_HALT _ _ s' hfetch)
  have hreach := reaches_trans hsim (reaches_single hstep)
  obtain ⟨fe, hfe⟩ := engineRun_of_reaches hreach
  refine ⟨fe, ?_⟩
  rw [naiveRunOutput, hplant]
  simp only []
  rw [runOutput, hfe]

/-- A byte tape: every cell holds a value below 256. All tapes reachable by
the engine or the reference semantics are byte tapes. -/
def ByteMem (m : Int → Nat) : Prop := ∀ i, m i < 256

theorem wrapByte_lt (n : Int) : wrapByte n < 256 := by
  unfold wrapByte
  have h := Int.emod_nonneg n (show (256 : Int) ≠ 0 by norm_num)
  have h2 := Int.emod_lt_of_pos n (show (0 : Int) < 256 by norm_num)
  omega

theorem wrapByte_id {v : Nat} (h : v < 256) : wrapByte (v : Int) = v := by
  unfold wrapByte
  rw [Int.emod_eq_of_lt (by omega) (by omega)]
  simp

theorem wrapByte_wrap (x y : Int) :
    wrapByte ((wrapByte x : Int) + y) = wrapByte (x + y) := by
  unfold wrapByte
  have h := Int.emod_nonneg x (show (256 : Int) ≠ 0 by norm_num)
  rw [Int.toNat_of_nonneg h, Int.emod_add_emod]

theorem writeMem_read_self (m : Int → Nat) (i : Int) (v : Nat) :
    writeMem m i v i = v := by
  simp [writeMem]

theorem writeMem_read_ne (m : Int → Nat) {i j : Int} (v : Nat) (h : j ≠ i) :
    writeMem m i v j = m j := by
  simp [writeMem, Function.update_noteq h]

theorem writeMem_same (m : Int → Nat) (i : Int) : writeMem m i (m i) = m := by
  funext j
  by_cases h : j = i
  · rw [h, writeMem_read_self]
  · rw [writeMem_read_ne _ _ h]

theorem writeMem_write (m : Int → Nat) (i : Int) (a b : Nat) :
    writeMem (writeMem m i a) i b = writeMem m i b := by
  funext j
  by_cases h : j = i
  · rw [h, writeMem_read_self, writeMem_read_self]
  · rw [writeMem_read_ne _ _ h, writeMem_read_ne _ _ h, writeMem_read_ne _ _ h]

theorem writeMem_bytemem {m : Int → Nat} (h : ByteMem m) {v : Nat}
    (hv : v < 256) (i : Int) : ByteMem (writeMem m i v) := by
  intro j
  by_cases hj : j = i
  · rw [hj, writeMem_read_self]; exact hv
  · rw [writeMem_read_ne _ _ hj]; exact h j

theorem EState.ext_iff {s t : EState} (hm : s.mem = t.mem) (hl : s.loc = t.loc)
    (hi : s.inp = t.inp) (ho : s.out = t.out) : s = t := by
  cases s
  cases t
  simp only at hm hl hi ho
  simp [hm, hl, hi, ho]

@[simp] theorem bumpCell_loc (d : Int) (s : EState) :
    (bumpCell d s).loc = s.loc := rfl

@[simp] theorem bumpCell_inp (d : Int) (s : EState) :
    (bumpCell d s).inp = s.inp := rfl

@[simp] theorem bumpCell_out (d : Int) (s : EState) :
    (bumpCell d s).out = s.out := rfl

theorem bumpCell_mem_self (d : Int) (s : EState) :
    (bumpCell d s).mem s.loc = wrapByte ((s.mem s.loc : Int) + d) := by
  simp [bumpCell, writeMem_read_self]

theorem bumpCell_bytemem {s : EState} (h : ByteMem s.mem) (d : Int) :
    ByteMem (bumpCell d s).mem :=
  writeMem_bytemem h (wrapByte_lt _) _

theorem bump_bump (a b : Int) (s : EState) :
    bumpCell b (bumpCell a s) = bumpCell (a + b) s := by
  refine EState.ext_iff ?_ rfl rfl rfl
  show writeMem (bumpCell a s).mem (bumpCell a s).loc
      (wrapByte (((bumpCell a s).mem (bumpCell a s).loc : Int) + b)) = _
  rw [bumpCell_loc, bumpCell_mem_self]
  show _ = writeMem s.mem s.loc (wrapByte ((s.mem s.loc : Int) + (a + b)))
  unfold bumpCell
  rw [writeMem_write, wrapByte_wrap]
  rw [Int.add_assoc]

theorem bump_zero {s : EState} (h : ByteMem s.mem) : bumpCell 0 s = s := by
  refine EState.ext_iff ?_ rfl rfl rfl
  show writeMem s.mem s.loc (wrapByte ((s.mem s.loc : Int) + 0)) = s.mem
  rw [Int.add_zero, wrapByte_id (h s.loc), writeMem_same]

theorem getCell_bytemem {s : EState} (h : ByteMem s.mem) :
    ByteMem (getCell s).mem := by
  unfold getCell
  match s.inp with
  | [] => exact h
  | b :: r => exact writeMem_bytemem h (Nat.mod_lt _ (by omega)) _

/-- A straight-line (loop-free) instruction list. -/
def noLoop : List BF → Bool
  | [] => true
  | .loop _ :: _ => false
  | _ :: r => noLoop r

/-- Denotation of a straight-line instruction list (garbage on loops). -/
def evalSL : List BF → EState → EState
  | [], s => s
  | .inc :: r, s => evalSL r (bumpCell 1 s)
  | .dec :: r, s => evalSL r (bumpCell (-1) s)
  | .mleft :: r, s => evalSL r { s with loc := s.loc - 1 }
  | .mright :: r, s => evalSL r { s with loc := s.loc + 1 }
  | .put :: r, s => evalSL r { s with out := s.out ++ [s.mem s.loc] }
  | .get :: r, s => evalSL r (getCell s)
  | .loop _ :: r, s => evalSL r s

theorem refRun_SL : ∀ (A : List BF) (f : Nat) (s : EState), noLoop A = true →
    refRun f A s = some (evalSL A s) := by
  intro A
  induction A with
  | nil => intro f s h; simp [refRun, evalSL]
  | cons a r ih =>
    intro f s h
    match a with
    | .loop b => exact absurd h (by simp [noLoop])
    | .inc =>
      simp only [refRun, evalSL]
      exact ih f _ (by simpa [noLoop] using h)
    | .dec =>
      simp only [refRun, evalSL]
      exact ih f _ (by simpa [noLoop] using h)
    | .mleft =>
      simp only [refRun, evalSL]
      exact ih f _ (by simpa [noLoop] using h)
    | .mright =>
      simp only [refRun, evalSL]
      exact ih f _ (by simpa [noLoop] using h)
    | .put =>
      simp only [refRun, evalSL]
      exact ih f _ (by simpa [noLoop] using h)
    | .get =>
      simp only [refRun, evalSL]
      exact ih f _ (by simpa [noLoop] using h)

theorem evalSL_append : ∀ (A B : List BF) (s : EState),
    evalSL (A ++ B) s = evalSL B (evalSL A s) := by
  intro A
  induction A with
  | nil => intro B s; rfl
  | cons a r ih =>
    intro B s
    cases a <;> exact ih B _

theorem noLoop_append : ∀ {A B : List BF}, noLoop A = true →
    noLoop B = true → noLoop (A ++ B) = true := by
  intro A
  induction A with
  | nil => intro B hA hB; exact hB
  | cons a r ih =>
    intro B hA hB
    match a with
    | .loop b => exact absurd hA (by simp [noLoop])
    | .inc =>
      simp only [List.cons_append, noLoop] at hA ⊢
      exact ih hA hB
    | .dec =>
      simp only [List.cons_append, noLoop] at hA ⊢
      exact ih hA hB
    | .mleft =>
      simp only [List.cons_append, noLoop] at hA ⊢
      exact ih hA hB
    | .mright =>
      simp only [List.cons_append, noLoop] at hA ⊢
      exact ih hA hB
    | .put =>
      simp only [List.cons_append, noLoop] at hA ⊢
      exact ih hA hB
    | .get =>
      simp only [List.cons_append, noLoop] at hA ⊢
      exact ih hA hB

theorem refRun_bytemem : ∀ (f : Nat) (ast : List BF) (s : EState) {s' : EState},
    refRun f ast s = some s' → ByteMem s.mem → ByteMem s'.mem := by
  intro f ast s
  induction f, ast, s using refRun.induct with
  | case1 f s =>
    intro s' h hb
    simp only [refRun, Option.some.injEq] at h
    rw [← h]
    exact hb
  | case2 f rest s ih =>
    intro s' h hb
    simp only [refRun] at h
    exact ih h (bumpCell_bytemem hb 1)
  | case3 f rest s ih =>
    intro s' h hb
    simp only [refRun] at h
    exact ih h (bumpCell_bytemem hb (-1))
  | case4 f rest s ih =>
    intro s' h hb
    simp only [refRun] at h
    exact ih h hb
  | case5 f rest s ih =>
    intro s' h hb
    simp only [refRun] at h
    exact ih h hb
  | case6 f rest s ih =>
    intro s' h hb
    simp only [refRun] at h
    exact ih h hb
  | case7 f rest s ih =>
    intro s' h hb
    simp only [refRun] at h
    exact ih h (getCell_bytemem hb)
  | case8 f body rest s hz ih =>
    intro s' h hb
    rw [refRun_loop_zero hz] at h
    exact ih h hb
  | case9 body rest s hz =>
    intro s' h hb
    rw [refRun_loop_pos_zero hz] at h
    exact absurd h (by simp)
  | case10 body rest s hz f hnone ih =>
    intro s' h hb
    rw [refRun_loop_pos hz, hnone] at h
    exact absurd h (by simp)
  | case11 body rest s hz f s1 hsome ih1 ih2 =>
    intro s' h hb
    rw [refRun_loop_pos hz, hsome] at h
    simp only [] at h
    exact ih2 h (ih1 hsome hb)

theorem refRun_append : ∀ (f : Nat) (A1 A2 : List BF) (s s' : EState),
    refRun f (A1 ++ A2) s = some s' →
    ∃ t, refRun f A1 s = some t ∧ refRun f A2 t = some s' := by
  intro f
  induction f using Nat.strong_induction_on with
  | _ f IHf =>
  intro A1
  induction A1 with
  | nil =>
    intro A2 s s' h
    exact ⟨s, by simp [refRun], h⟩
  | cons a r ih =>
    intro A2 s s' h
    cases a with
    | inc =>
      rw [List.cons_append] at h
      simp only [refRun] at h
      obtain ⟨t, h1, h2⟩ := ih A2 _ s' h
      refine ⟨t, ?_, h2⟩
      simp only [refRun]
      exact h1
    | dec =>
      rw [List.cons_append] at h
      simp only [refRun] at h
      obtain ⟨t, h1, h2⟩ := ih A2 _ s' h
      refine ⟨t, ?_, h2⟩
      simp only [refRun]
      exact h1
    | mleft =>
      rw [List.cons_append] at h
      simp only [refRun] at h
      obtain ⟨t, h1, h2⟩ := ih A2 _ s' h
      refine ⟨t, ?_, h2⟩
      simp only [refRun]
      exact h1
    | mright =>
      rw [List.cons_append] at h
      simp only [refRun] at h
      obtain ⟨t, h1, h2⟩ := ih A2 _ s' h
      refine ⟨t, ?_, h2⟩
      simp only [refRun]
      exact h1
    | put =>
      rw [List.cons_append] at h
      simp only [refRun] at h
      obtain ⟨t, h1, h2⟩ := ih A2 _ s' h
      refine ⟨t, ?_, h2⟩
      simp only [refRun]
      exact h1
    | get =>
      rw [List.cons_append] at h
      simp only [refRun] at h
      obtain ⟨t, h1, h2⟩ := ih A2 _ s' h
      refine ⟨t, ?_, h2⟩
      simp only [refRun]
      exact h1
    | loop body =>
      rw [List.cons_append] at h
      by_cases hz : s.mem s.loc = 0
      · rw [refRun_loop_zero hz] at h
        obtain ⟨t, h1, h2⟩ := ih A2 s s' h
        exact ⟨t, by rw [refRun_loop_zero hz]; exact h1, h2⟩
      · match f, h with
        | 0, h =>
          rw [refRun_loop_pos_zero hz] at h
          exact absurd h (by simp)
        | g + 1, h =>
          rw [refRun_loop_pos hz] at h
          match mb : refRun g body s with
          | none =>
            rw [mb] at h
            exact absurd h (by simp)
          | some s1 =>
            rw [mb] at h
            simp only [] at h
            obtain ⟨t, h1, h2⟩ := IHf g (by omega) (.loop body :: r) A2 s1 s' h
            refine ⟨t, ?_, refRun_mono g A2 t h2⟩
            rw [refRun_loop_pos hz, mb]
            exact h1

/-- Load a record segment into instruction slots (the body of the runner's
`plantProgram` without its final HALT). -/
def loadSeg (rs : List Rec) : List Instr := rs.filterMap loadRec

theorem loadProgram_eq (rs : List Rec) :
    loadProgram rs = loadSeg rs ++ [.opcode .HALT] := rfl

theorem loadSeg_append (a b : List Rec) :
    loadSeg (a ++ b) = loadSeg a ++ loadSeg b := by
  simp [loadSeg]

/-- Null-free record segments: every slot loads to exactly one instruction. -/
def NF (rs : List Rec) : Prop := ∀ r ∈ rs, r ≠ Rec.null

theorem NF_append {a b : List Rec} (ha : NF a) (hb : NF b) : NF (a ++ b) := by
  intro r hr
  rcases List.mem_append.mp hr with h | h
  · exact ha r h
  · exact hb r h

theorem NF_nil : NF [] := by
  intro r hr
  exact absurd hr (by simp)

theorem loadSeg_cons_some {r : Rec} {i : Instr} (h : loadRec r = some i)
    (t : List Rec) : loadSeg (r :: t) = i :: loadSeg t := by
  simp [loadSeg, List.filterMap_cons, h]

theorem loadSeg_length : ∀ {rs : List Rec}, NF rs →
    (loadSeg rs).length = rs.length := by
  intro rs
  induction rs with
  | nil => intro h; rfl
  | cons r t ih =>
    intro h
    have hr : r ≠ Rec.null := h r (by simp)
    have ht : NF t := fun x hx => h x (by simp [hx])
    match r, hr with
    | .op o d, _ =>
      rw [loadSeg_cons_some (show loadRec (Rec.op o d) = some (.opcode o) from rfl)]
      simp [ih ht]
    | .operand n d, _ =>
      rw [loadSeg_cons_some (show loadRec (Rec.operand n d) = some (.operand n) from rfl)]
      simp [ih ht]
    | .dyad hi lo, _ =>
      rw [loadSeg_cons_some (show loadRec (Rec.dyad hi lo) = some (.dyad hi lo) from rfl)]
      simp [ih ht]

/-- `Q implements A at base`: placed at slot `base` of any program, from any
byte state (known-zero cell when `lzI`), whenever the reference semantics of
`A` terminates the engine reaches the end of `Q` in the same state; when
`lzO` the final cell is zero. -/
def CImpl (base : Nat) (lzI lzO : Bool) (Q : List Instr) (A : List BF) : Prop :=
  ∀ (p1 p2 : List Instr) (f : Nat) (st st' : EState),
    p1.length = base → ByteMem st.mem → (lzI = true → st.mem st.loc = 0) →
    refRun f A st = some st' →
    Reaches (p1 ++ (Q ++ p2)) (.run base st) (.run (base + Q.length) st') ∧
    (lzO = true → st'.mem st'.loc = 0)

theorem CImpl_nil (base : Nat) (lz : Bool) : CImpl base lz lz [] [] := by
  intro p1 p2 f st st' hp hb hlz h
  simp only [refRun, Option.some.injEq] at h
  rw [← h]
  constructor
  · rw [List.length_nil, Nat.add_zero]
    exact reaches_refl _ _
  · exact hlz

theorem CImpl_weaken_lzI {base : Nat} {y : Bool} {Q : List Instr} {A : List BF}
    (h : CImpl base false y Q A) (x : Bool) : CImpl base x y Q A := by
  intro p1 p2 f st st' hp hb hlz hr
  exact h p1 p2 f st st' hp hb (by simp) hr

theorem CImpl_weaken_lzO {base : Nat} {x : Bool} {Q : List Instr} {A : List BF}
    (h : CImpl base x true Q A) : CImpl base x false Q A := by
  intro p1 p2 f st st' hp hb hlz hr
  exact ⟨(h p1 p2 f st st' hp hb hlz hr).1, by simp⟩

theorem CImpl_append {base : Nat} {x y z : Bool} {Q1 Q2 : List Instr}
    {A1 A2 : List BF} (h1 : CImpl base x y Q1 A1)
    (h2 : CImpl (base + Q1.length) y z Q2 A2) :
    CImpl base x z (Q1 ++ Q2) (A1 ++ A2) := by
  intro p1 p2 f st st' hp hb hlz hr
  obtain ⟨t, hr1, hr2⟩ := refRun_append f A1 A2 st st' hr
  obtain ⟨hre1, hlz1⟩ := h1 p1 (Q2 ++ p2) f st t hp hb hlz hr1
  have hbt : ByteMem t.mem := refRun_bytemem f A1 st hr1 hb
  obtain ⟨hre2, hlz2⟩ := h2 (p1 ++ Q1) p2 f t st'
    (by simp [hp]) hbt hlz1 hr2
  refine ⟨?_, hlz2⟩
  have hP : p1 ++ ((Q1 ++ Q2) ++ p2) = p1 ++ (Q1 ++ (Q2 ++ p2)) := by
    simp [List.append_assoc]
  have hlen : base + (Q1 ++ Q2).length = base + Q1.length + Q2.length := by
    simp [List.length_append]
    omega
  rw [hP, hlen]
  have hre2' : Reaches (p1 ++ (Q1 ++ (Q2 ++ p2)))
      (.run (base + Q1.length) t) (.run (base + Q1.length + Q2.length) st') := by
    have he : p1 ++ (Q1 ++ (Q2 ++ p2)) = (p1 ++ Q1) ++ (Q2 ++ p2) := by
      simp [List.append_assoc]
    rw [he]
    exact hre2
  exact reaches_trans hre1 hre2' 

/-- The records `plantADD n` appends. -/
def addRecs (n : Int) : List Rec :=
  if n = 1 then [.op .INCR true]
  else if n = -1 then [.op .DECR true]
  else if n = 0 then []
  else [.op .ADD true, .operand n true]

/-- The records `plantMOVE n` appends. -/
def moveRecs (n : Int) : List Rec :=
  if n = 1 then [.op .RIGHT false]
  else if n = -1 then [.op .LEFT false]
  else if n = 0 then []
  else [.op .MOVE false, .operand n false]

theorem plantADD_eq (n : Int) (s : Planter) : plantADD n s =
    { s with program := s.program ++ addRecs n,
             loc_is_zero := if n = 0 then s.loc_is_zero else false } := by
  by_cases h1 : n = 1
  · subst h1
    simp [plantADD, addRecs, plantOpCode, discardFlag, locIsZeroFlag]
  · by_cases h2 : n = -1
    · subst h2
      simp [plantADD, addRecs, plantOpCode, discardFlag, locIsZeroFlag]
    · by_cases h3 : n = 0
      · subst h3
        simp [plantADD, addRecs]
      · simp [plantADD, addRecs, plantOpCodeAndOperand, plantOperand,
          plantOpCode, discardFlag, locIsZeroFlag, h1, h2, h3]

theorem plantMOVE_eq (n : Int) (s : Planter) : plantMOVE n s =
    { s with program := s.program ++ moveRecs n,
             loc_is_zero := if n = 0 then s.loc_is_zero else false } := by
  by_cases h1 : n = 1
  · subst h1
    simp [plantMOVE, moveRecs, plantOpCode, discardFlag, locIsZeroFlag]
  · by_cases h2 : n = -1
    · subst h2
      simp [plantMOVE, moveRecs, plantOpCode, discardFlag, locIsZeroFlag]
    · by_cases h3 : n = 0
      · subst h3
        simp [plantMOVE, moveRecs]
      · simp [plantMOVE, moveRecs, plantOpCodeAndOperand, plantOperand,
          plantOpCode, discardFlag, locIsZeroFlag, h1, h2, h3]

theorem moveRecs_unmarked (n : Int) :
    ∀ r ∈ moveRecs n, hasDiscardField r = false := by
  unfold moveRecs
  split_ifs <;> simp [hasDiscardField]

theorem moveRecs_NF (n : Int) : NF (moveRecs n) := by
  unfold moveRecs NF
  split_ifs <;> simp

/-- Complete marked (DiscardBeforeSetZero) units with a given net add. -/
inductive MarkedUnits : List Rec → Int → Prop where
  | nil : MarkedUnits [] 0
  | incr {r : List Rec} {n : Int} : MarkedUnits r n →
      MarkedUnits (.op .INCR true :: r) (1 + n)
  | decr {r : List Rec} {n : Int} : MarkedUnits r n →
      MarkedUnits (.op .DECR true :: r) ((-1) + n)
  | add {r : List Rec} {n : Int} (m : Int) : MarkedUnits r n →
      MarkedUnits (.op .ADD true :: .operand m true :: r) (m + n)

theorem MarkedUnits_addRecs (n : Int) : MarkedUnits (addRecs n) n := by
  unfold addRecs
  split_ifs with h1 h2 h3
  · rw [h1]
    exact MarkedUnits.incr MarkedUnits.nil
  · rw [h2]
    exact MarkedUnits.decr MarkedUnits.nil
  · rw [h3]
    exact MarkedUnits.nil
  · have := MarkedUnits.add n (MarkedUnits.nil)
    simpa using this

theorem MarkedUnits_marked {P : List Rec} {n : Int} (h : MarkedUnits P n) :
    ∀ r ∈ P, hasDiscardField r = true := by
  induction h with
  | nil => simp
  | incr h ih =>
    intro r hr
    rcases List.mem_cons.mp hr with h1 | h1
    · rw [h1]; rfl
    · exact ih r h1
  | decr h ih =>
    intro r hr
    rcases List.mem_cons.mp hr with h1 | h1
    · rw [h1]; rfl
    · exact ih r h1
  | add m h ih =>
    intro r hr
    rcases List.mem_cons.mp hr with h1 | h1
    · rw [h1]; rfl
    · rcases List.mem_cons.mp h1 with h2 | h2
      · rw [h2]; rfl
      · exact ih r h2

theorem MarkedUnits_NF {P : List Rec} {n : Int} (h : MarkedUnits P n) : NF P := by
  intro r hr
  have := MarkedUnits_marked h r hr
  intro he
  rw [he] at this
  exact absurd this (by simp [hasDiscardField])

theorem MarkedUnits_append {P1 P2 : List Rec} {n1 n2 : Int}
    (h1 : MarkedUnits P1 n1) (h2 : MarkedUnits P2 n2) :
    MarkedUnits (P1 ++ P2) (n1 + n2) := by
  induction h1 with
  | nil => simpa using h2
  | incr h ih =>
    have := MarkedUnits.incr ih
    simpa [Int.add_assoc] using this
  | decr h ih =>
    have := MarkedUnits.decr ih
    simpa [Int.add_assoc] using this
  | add m h ih =>
    have := MarkedUnits.add m ih
    simpa [Int.add_assoc] using this

/-- Executing a marked-unit segment bumps the current cell by the net. -/
theorem mu_reach {P : List Rec} {net : Int} (h : MarkedUnits P net) :
    ∀ (p1 p2 : List Instr) (st : EState), ByteMem st.mem →
    Reaches (p1 ++ (loadSeg P ++ p2)) (.run p1.length st)
      (.run (p1.length + P.length) (bumpCell net st)) := by
  induction h with
  | nil =>
    intro p1 p2 st hb
    rw [bump_zero hb]
    simpa [loadSeg] using reaches_refl (p1 ++ p2) (Cfg.run p1.length st)
  | @incr r n h ih =>
    intro p1 p2 st hb
    rw [loadSeg_cons_some (show loadRec (Rec.op .INCR true) =
      some (.opcode .INCR) from rfl)]
    have hfetch : (p1 ++ ((Instr.opcode .INCR :: loadSeg r) ++ p2))[p1.length]? =
        some (.opcode .INCR) := by
      have hk := lk_at p1 ((Instr.opcode .INCR :: loadSeg r) ++ p2) 0
      rw [Nat.add_zero] at hk
      rw [hk]
      simp
    have hstep := stepCfg_of_step (@engineStep_INCR _ _ st hfetch)
    have hIH := ih (p1 ++ [Instr.opcode .INCR]) p2 (bumpCell 1 st)
      (bumpCell_bytemem hb 1)
    rw [bump_bump] at hIH
    have hP : p1 ++ ((Instr.opcode .INCR :: loadSeg r) ++ p2) =
        (p1 ++ [Instr.opcode .INCR]) ++ (loadSeg r ++ p2) := by
      simp
    rw [hP] at hstep ⊢
    have hlen : p1.length + (Rec.op .INCR true :: r).length =
        (p1 ++ [Instr.opcode .INCR]).length + r.length := by
      simp
      omega
    rw [hlen]
    have hpc : (p1 ++ [Instr.opcode .INCR]).length = p1.length + 1 := by simp
    rw [← hpc] at hstep
    exact reaches_step_trans hstep hIH
  | @decr r n h ih =>
    intro p1 p2 st hb
    rw [loadSeg_cons_some (show loadRec (Rec.op .DECR true) =
      some (.opcode .DECR) from rfl)]
    have hfetch : (p1 ++ ((Instr.opcode .DECR :: loadSeg r) ++ p2))[p1.length]? =
        some (.opcode .DECR) := by
      have hk := lk_at p1 ((Instr.opcode .DECR :: loadSeg r) ++ p2) 0
      rw [Nat.add_zero] at hk
      rw [hk]
      simp
    have hstep := stepCfg_of_step (@engineStep_DECR _ _ st hfetch)
    have hIH := ih (p1 ++ [Instr.opcode .DECR]) p2 (bumpCell (-1) st)
      (bumpCell_bytemem hb (-1))
    rw [bump_bump] at hIH
    have hP : p1 ++ ((Instr.opcode .DECR :: loadSeg r) ++ p2) =
        (p1 ++ [Instr.opcode .DECR]) ++ (loadSeg r ++ p2) := by
      simp
    rw [hP] at hstep ⊢
    have hlen : p1.length + (Rec.op .DECR true :: r).length =
        (p1 ++ [Instr.opcode .DECR]).length + r.length := by
      simp
      omega
    rw [hlen]
    have hpc : (p1 ++ [Instr.opcode .DECR]).length = p1.length + 1 := by simp
    rw [← hpc] at hstep
    exact reaches_step_trans hstep hIH
  | @add r n m h ih =>
    intro p1 p2 st hb
    rw [loadSeg_cons_some (show loadRec (Rec.op .ADD true) =
      some (.opcode .ADD) from rfl)]
    rw [loadSeg_cons_some (show loadRec (Rec.operand m true) =
      some (.operand m) from rfl)]
    have hfetch : (p1 ++ ((Instr.opcode .ADD :: Instr.operand m :: loadSeg r) ++
        p2))[p1.length]? = some (.opcode .ADD) := by
      have hk := lk_at p1 ((Instr.opcode .ADD :: Instr.operand m :: loadSeg r) ++ p2) 0
      rw [Nat.add_zero] at hk
      rw [hk]
      simp
    have hfetch2 : (p1 ++ ((Instr.opcode .ADD :: Instr.operand m :: loadSeg r) ++
        p2))[p1.length + 1]? = some (.operand m) := by
      have hk := lk_at p1 ((Instr.opcode .ADD :: Instr.operand m :: loadSeg r) ++ p2) 1
      rw [hk]
      simp
    have hstep := stepCfg_of_step (@engineStep_ADD _ _ st m hfetch hfetch2)
    have hIH := ih (p1 ++ [Instr.opcode .ADD, Instr.operand m]) p2 (bumpCell m st)
      (bumpCell_bytemem hb m)
    rw [bump_bump] at hIH
    have hP : p1 ++ ((Instr.opcode .ADD :: Instr.operand m :: loadSeg r) ++ p2) =
        (p1 ++ [Instr.opcode .ADD, Instr.operand m]) ++ (loadSeg r ++ p2) := by
      simp
    rw [hP] at hstep ⊢
    have hlen : p1.length + (Rec.op .ADD true :: Rec.operand m true :: r).length =
        (p1 ++ [Instr.opcode .ADD, Instr.operand m]).length + r.length := by
      simp
      omega
    rw [hlen]
    have hpc : (p1 ++ [Instr.opcode .ADD, Instr.operand m]).length = p1.length + 2 := by
      simp
    rw [← hpc] at hstep
    exact reaches_step_trans hstep hIH

/-- A marked-unit segment implements any straight-line code whose denotation
is the same net bump of the current cell. -/
theorem cimpl_pend {P : List Rec} {net : Int} {D : List BF}
    (h : MarkedUnits P net) (hD : noLoop D = true)
    (hev : ∀ st : EState, ByteMem st.mem → evalSL D st = bumpCell net st)
    (base : Nat) : CImpl base false false (loadSeg P) D := by
  intro p1 p2 f st st' hp hb hlz hr
  rw [refRun_SL D f st hD, Option.some.injEq] at hr
  refine ⟨?_, by simp⟩
  rw [← hr, hev st hb]
  rw [loadSeg_length (MarkedUnits_NF h)]
  rw [← hp]
  exact mu_reach h p1 p2 st hb

theorem cimpl_addRecs {net : Int} {D : List BF} (hD : noLoop D = true)
    (hev : ∀ st : EState, ByteMem st.mem → evalSL D st = bumpCell net st)
    (base : Nat) : CImpl base false false (loadSeg (addRecs net)) D :=
  cimpl_pend (MarkedUnits_addRecs net) hD hev base

namespace CT

/-- `PeekableProgramInput::peekN` of `cisc_threading_demo.cpp` (lines
76-83): unlike the compiler's version it materialises characters with
`push_front`, while `peek`/`pop`/`drop` of that file work on the back of
the deque. -/
def peekN (n : Nat) (s : PPI) : Option Char × PPI :=
  if s.buffer.length ≤ n then
    match nextChar s.input with
    | none => (none, { s with input := [] })
    | some (c, rest) => peekN n { buffer := c :: s.buffer, input := rest }
  else
    (s.buffer[n]?, s)
termination_by (n + 1) - s.buffer.length
decreasing_by
  simp only [List.length_cons]
  omega

/-- The loop of `PeekableProgramInput::tryPopString` of
`cisc_threading_demo.cpp` (lines 125-131): peek the characters of `str`;
return `true` when all matched — without consuming anything. -/
def tryPopStringAux (str : List Char) (n : Nat) (s : PPI) : Bool × PPI :=
  match str with
  | [] => (true, s)
  | ch :: rest =>
    match peekN n s with
    | (actual, s') =>
      if actual = some ch then tryPopStringAux rest (n + 1) s' else (false, s')

/-- `PeekableProgramInput::tryPopString` of `cisc_threading_demo.cpp`. -/
def tryPopString (str : List Char) (s : PPI) : Bool × PPI :=
  tryPopStringAux str 0 s

end CT

/-- Tape cell observed after a bounded run that reaches HALT. -/
def runMemAt (fuel : Nat) (p : List Instr) (s0 : EState) (i : Int) : Option Nat :=
  match engineRun fuel p 0 s0 with
  | .halted s => some (s.mem i)
  | _ => none

/-- The source text `[->++<]` of the multiply-transfer scenario. -/
def srcXfrClaim : List Char := ['[', '-', '>', '+', '+', '<', ']']

/-- The source text `[>++<-]`, the shape the lifter actually recognises. -/
def srcXfrActual : List Char := ['[', '>', '+', '+', '<', '-', ']']

/-- The flag setting produced by `--none --xfrmultiple`: everything the
group toggle reaches disabled, multiply-transfer enabled. -/
def flagsNoneXfr : CompileFlags :=
  { deadCodeRemoval := false, seekZero := false, locIsZero := false,
    xfrMultiple := true, unplantSuperfluousCode := true }

/-- A tape state whose cell 0 holds 5, as in the multiply-transfer
scenario, with empty input. -/
def stateCell0Is5 : EState :=
  { mem := writeMem zeroMem 0 5, loc := 0, inp := [], out := [] }

/-- The argument string `--no-superfluous`. -/
def argNoSuperfluous : List Char :=
  ['-', '-', 'n', 'o', '-', 's', 'u', 'p', 'e', 'r', 'f', 'l', 'u', 'o', 'u', 's']

/-- C2 counterexample: with the xfrmultiple optimisation enabled — both
under the default flags (which `--xfrmultiple` leaves unchanged) and under
`--none --xfrmultiple` — lifting the source `[->++<]` does NOT produce the
single instruction `XFR_MULTIPLE(1, 2)`: under the defaults the loop is
removed as dead code (the initial cell is provably zero), and with dead-code
removal disabled it lifts to an ordinary `OPEN … DECR ADD_OFFSET(1,2) …
CLOSE` loop, because the leading `-` is absorbed into the `add` part of the
scanned window, so `isNonZeroBalanced` (which requires `lhs ≠ 0`) fails and
the `tryPopString("-]")` guard is never even reached. -/
theorem c2_counterexample :
    lift {} srcXfrClaim = .ok [.op .HALT false] ∧
    lift flagsNoneXfr srcXfrClaim =
      .ok [.op .OPEN false, .operand 7 false, .op .DECR true, .op .ADD_OFFSET false,
           .dyad 1 2, .op .CLOSE false, .operand 2 false, .op .HALT false] ∧
    lift {} srcXfrClaim ≠ .ok [.op .XFR_MULTIPLE false, .dyad 1 2, .op .HALT false] ∧
    lift flagsNoneXfr srcXfrClaim ≠
      .ok [.op .XFR_MULTIPLE false, .dyad 1 2, .op .HALT false] ∧
    lift flagsNoneXfr srcXfrClaim ≠ .ok [.op .XFR_MULTIPLE false, .dyad 1 2] := by
  have h1 : lift {} srcXfrClaim = .ok [.op .HALT false] := by
    simp [lift, plantProgram, plantLoop, plantExpr, plantExprChar, initPlanter,
      PPI.pop, nextChar, isCmdChar, scanAdd, scanMove, scanMoveAddMove, tryPop, peek,
      PPI.drop, plantADD, plantMOVE, plantOpCode, plantOperand, plantOpCodeAndOperand,
      plantPUT, plantGET, plantCLOSE, plantOPEN, plantOpenChar, plantOpenBump,
      plantOpenSeekRight, plantOpenSeekLeft, plantOpenXfr, plantSetZero,
      plantSEEK_LEFT, plantSEEK_RIGHT, plantXFR_MULTIPLE, plantADD_OFFSET, plantDyad,
      skipDead, skipNesting, unplantBeforeSetZero, hasDiscardField, discardFlag,
      locIsZeroFlag, tryPopString, tryPopStringAux, peekN, MoveAddMove.matches,
      MoveAddMove.isNonZeroBalanced, sgn, plantMoveAddMove, Except.map, srcXfrClaim]
  have h2 : lift flagsNoneXfr srcXfrClaim =
      .ok [.op .OPEN false, .operand 7 false, .op .DECR true, .op .ADD_OFFSET false,
           .dyad 1 2, .op .CLOSE false, .operand 2 false, .op .HALT false] := by
    simp [lift, plantProgram, plantLoop, plantExpr, plantExprChar, initPlanter,
      PPI.pop, nextChar, isCmdChar, scanAdd, scanMove, scanMoveAddMove, tryPop, peek,
      PPI.drop, plantADD, plantMOVE, plantOpCode, plantOperand, plantOpCodeAndOperand,
      plantPUT, plantGET, plantCLOSE, plantOPEN, plantOpenChar, plantOpenBump,
      plantOpenSeekRight, plantOpenSeekLeft, plantOpenXfr, plantSetZero,
      plantSEEK_LEFT, plantSEEK_RIGHT, plantXFR_MULTIPLE, plantADD_OFFSET, plantDyad,
      skipDead, skipNesting, unplantBeforeSetZero, hasDiscardField, discardFlag,
      locIsZeroFlag, tryPopString, tryPopStringAux, peekN, MoveAddMove.matches,
      MoveAddMove.isNonZeroBalanced, sgn, plantMoveAddMove, Except.map, srcXfrClaim,
      flagsNoneXfr]
  refine ⟨h1, h2, ?_, ?_, ?_⟩ <;> first
    | (rw [h1]; intro hcon; exact absurd hcon (by simp))
    | (rw [h2]; intro hcon; exact absurd hcon (by simp))

/-- C2 amended: the loop shape the lifter's multiply-transfer guard
actually recognises is `[>++<-]` (window first, then the `-]` tail). With
xfrmultiple enabled and the dead-code skip not applying, that source lifts
to exactly `XFR_MULTIPLE(1, 2)` followed by `HALT`, and executing the
result from a tape whose cell 0 holds 5 leaves cell 0 = 0 and cell 1 = 10. -/
theorem c2_amended :
    lift flagsNoneXfr srcXfrActual =
      .ok [.op .XFR_MULTIPLE false, .dyad 1 2, .op .HALT false] ∧
    runMemAt 4 (loadProgram [.op .XFR_MULTIPLE false, .dyad 1 2, .op .HALT false])
      stateCell0Is5 0 = some 0 ∧
    runMemAt 4 (loadProgram [.op .XFR_MULTIPLE false, .dyad 1 2, .op .HALT false])
      stateCell0Is5 1 = some 10 := by
  refine ⟨?_, by decide, by decide⟩
  simp [lift, plantProgram, plantLoop, plantExpr, plantExprChar, initPlanter,
    PPI.pop, nextChar, isCmdChar, scanAdd, scanMove, scanMoveAddMove, tryPop, peek,
    PPI.drop, plantADD, plantMOVE, plantOpCode, plantOperand, plantOpCodeAndOperand,
    plantPUT, plantGET, plantCLOSE, plantOPEN, plantOpenChar, plantOpenBump,
    plantOpenSeekRight, plantOpenSeekLeft, plantOpenXfr, plantSetZero,
    plantSEEK_LEFT, plantSEEK_RIGHT, plantXFR_MULTIPLE, plantADD_OFFSET, plantDyad,
    skipDead, skipNesting, unplantBeforeSetZero, hasDiscardField, discardFlag,
    locIsZeroFlag, tryPopString, tryPopStringAux, peekN, MoveAddMove.matches,
    MoveAddMove.isNonZeroBalanced, sgn, plantMoveAddMove, Except.map, srcXfrActual,
    flagsNoneXfr]

/-- C3: contrary to the claim, the lifter does not report a lift error for
unmatched brackets. On the source `+[` (an unmatched `[`; the `+` keeps the
dead-code skip from consuming it) planting succeeds and the emitted IR
still contains the never-backpatched `null` placeholder — partial IR is
written and the process exits successfully. On the source `]`
(an unmatched `]`), `plantCLOSE` calls `indexes.back()` / `pop_back()` on
an empty `std::vector`, which is undefined behaviour, not a reported
error. -/
theorem c3_unmatched_brackets_behaviour :
    lift {} ['+', '['] = .ok [.op .INCR true, .op .OPEN false, .null, .op .HALT false] ∧
    lift {} [']'] = .error .undefinedBehaviour := by
  constructor <;>
    simp [lift, plantProgram, plantLoop, plantExpr, plantExprChar, initPlanter,
      PPI.pop, nextChar, isCmdChar, scanAdd, scanMove, scanMoveAddMove, tryPop, peek,
      PPI.drop, plantADD, plantMOVE, plantOpCode, plantOperand, plantOpCodeAndOperand,
      plantPUT, plantGET, plantCLOSE, plantOPEN, plantOpenChar, plantOpenBump,
      plantOpenSeekRight, plantOpenSeekLeft, plantOpenXfr, plantSetZero,
      plantSEEK_LEFT, plantSEEK_RIGHT, plantXFR_MULTIPLE, plantADD_OFFSET, plantDyad,
      skipDead, skipNesting, unplantBeforeSetZero, hasDiscardField, discardFlag,
      locIsZeroFlag, tryPopString, tryPopStringAux, peekN, MoveAddMove.matches,
      MoveAddMove.isNonZeroBalanced, sgn, plantMoveAddMove, Except.map]

/-- C4 counterexample: after parsing the argument list `["--none"]` the
`superfluous` feature (`unplantSuperfluousCode`) is still enabled, because
`CompileFlags::setAll` sets only the other four feature fields; so it is
not the case that all five recognised features are disabled. -/
theorem c4_counterexample :
    mkCompileFlags [argNone] =
      .ok { deadCodeRemoval := false, seekZero := false, locIsZero := false,
            xfrMultiple := false, unplantSuperfluousCode := true } := by
  simp [mkCompileFlags, mkCompileFlagsLoop, CompileFlags.setArg, CompileFlags.setAll,
    argNone, argAll, argDeadcode, argSeekzero, argPruneIfLocIsZero, argXfrmultiple,
    argSuperfluous, strStartsWith, noDashPrefixChars]

/-- C4 amended: `--none` / `--all` toggle exactly the four features
deadcode, seekzero, prune-if-loc-is-zero and xfrmultiple; the superfluous
feature keeps its previous value. Since its default is enabled, after
`--all` all five features are enabled, but after `--none` the superfluous
feature alone remains enabled (and remains disabled if previously disabled,
e.g. after `--no-superfluous --none`). -/
theorem c4_amended :
    (∀ (f : CompileFlags) (e : Bool), f.setAll e =
      { f with deadCodeRemoval := e, seekZero := e, locIsZero := e, xfrMultiple := e }) ∧
    mkCompileFlags [argNone] =
      .ok { deadCodeRemoval := false, seekZero := false, locIsZero := false,
            xfrMultiple := false, unplantSuperfluousCode := true } ∧
    mkCompileFlags [argAll] =
      .ok { deadCodeRemoval := true, seekZero := true, locIsZero := true,
            xfrMultiple := true, unplantSuperfluousCode := true } ∧
    mkCompileFlags [argNoSuperfluous, argNone] =
      .ok { deadCodeRemoval := false, seekZero := false, locIsZero := false,
            xfrMultiple := false, unplantSuperfluousCode := false } := by
  refine ⟨fun f e => rfl, c4_counterexample, ?_, ?_⟩ <;>
    simp [mkCompileFlags, mkCompileFlagsLoop, CompileFlags.setArg, CompileFlags.setAll,
      argNone, argAll, argDeadcode, argSeekzero, argPruneIfLocIsZero, argXfrmultiple,
      argSuperfluous, argNoSuperfluous, strStartsWith, noDashPrefixChars]

/-- C5: the claim holds of the compiler's `tryPopString` but not of the
version in `cisc_threading_demo.cpp`. There, `peekN` pushes materialised
characters onto the front of the deque while the indexed read, `peek` and
`pop` work from the other end, and the success path never erases the
matched characters. Concretely: on filtered input starting `-]`, matching
the string `-]` returns `false` (the second peek re-reads the first
character), and on input `--+`, matching `--` returns `true` while leaving
both matched characters still queued. The compiler's version, evaluated at
the first input, consumes exactly the matched characters. -/
theorem c5_tryPopString_behaviour :
    CT.tryPopString ['-', ']'] { buffer := [], input := ['-', ']'] } =
      (false, { buffer := [']', '-'], input := [] }) ∧
    CT.tryPopString ['-', '-'] { buffer := [], input := ['-', '-', '+'] } =
      (true, { buffer := ['-', '-'], input := ['+'] }) ∧
    tryPopString ['-', ']'] { buffer := [], input := ['-', ']'] } =
      (true, { buffer := [], input := [] }) := by
  refine ⟨?_, ?_, ?_⟩ <;>
    simp [CT.tryPopString, CT.tryPopStringAux, CT.peekN, tryPopString,
      tryPopStringAux, peekN, nextChar, isCmdChar]

/-- C8: cell arithmetic wraps modulo 256 in both directions — a `DECR` step
on a zero cell stores 255, an `INCR` step on a 255 cell stores 0 — and the
program lifted from `-.` under the default flags is `DECR PUT HALT`, whose
execution on empty input emits exactly the byte `0xFF` = 255. -/
theorem c8_cell_arithmetic_wraps :
    (∀ (p : List Instr) (pc : Nat) (s : EState),
      p[pc]? = some (.opcode .DECR) → s.mem s.loc = 0 →
      engineStep p pc s = .next (pc + 1) { s with mem := writeMem s.mem s.loc 255 }) ∧
    (∀ (p : List Instr) (pc : Nat) (s : EState),
      p[pc]? = some (.opcode .INCR) → s.mem s.loc = 255 →
      engineStep p pc s = .next (pc + 1) { s with mem := writeMem s.mem s.loc 0 }) ∧
    lift {} ['-', '.'] = .ok [.op .DECR true, .op .PUT false, .op .HALT false] ∧
    runOutput 10 (loadProgram [.op .DECR true, .op .PUT false, .op .HALT false]) []
      = some [255] := by
  refine ⟨?_, ?_, ?_, by decide⟩
  · intro p pc s h1 h2
    unfold engineStep
    rw [h1, h2]
    norm_num [wrapByte]
    rfl
  · intro p pc s h1 h2
    unfold engineStep
    rw [h1, h2]
    norm_num [wrapByte]
  · simp [lift, plantProgram, plantLoop, plantExpr, plantExprChar, initPlanter,
      PPI.pop, nextChar, isCmdChar, scanAdd, scanMove, scanMoveAddMove, tryPop, peek,
      PPI.drop, plantADD, plantMOVE, plantOpCode, plantOperand, plantOpCodeAndOperand,
      plantPUT, plantGET, plantCLOSE, plantOPEN, plantOpenChar, plantOpenBump,
      plantOpenSeekRight, plantOpenSeekLeft, plantOpenXfr, plantSetZero,
      plantSEEK_LEFT, plantSEEK_RIGHT, plantXFR_MULTIPLE, plantADD_OFFSET, plantDyad,
      skipDead, skipNesting, unplantBeforeSetZero, hasDiscardField, discardFlag,
      locIsZeroFlag, tryPopString, tryPopStringAux, peekN, MoveAddMove.matches,
      MoveAddMove.isNonZeroBalanced, sgn, plantMoveAddMove, Except.map]

/-- Witness for C8 at a concrete input: a `DECR` step from the all-zero
start state stores 255 at cell 0. -/
theorem c8_cell_arithmetic_wraps_witness :
    engineStep [Instr.opcode .DECR] 0 (initEState []) =
      .next 1 { initEState [] with
        mem := writeMem (initEState []).mem (initEState []).loc 255 } :=
  c8_cell_arithmetic_wraps.1 [Instr.opcode .DECR] 0 (initEState []) rfl rfl

/-- The five features recognised by `CompileFlags::setArg`. -/
inductive Feature where
  | deadcode
  | seekzero
  | pruneIfLocIsZero
  | xfrmultiple
  | superfluous
deriving DecidableEq, Repr

/-- The bare name of a feature (its flag string without the leading `--`). -/
def featureName : Feature → List Char
  | .deadcode => argDeadcode.drop 2
  | .seekzero => argSeekzero.drop 2
  | .pruneIfLocIsZero => argPruneIfLocIsZero.drop 2
  | .xfrmultiple => argXfrmultiple.drop 2
  | .superfluous => argSuperfluous.drop 2

/-- The field of `CompileFlags` that a feature controls. -/
def setFeature : Feature → Bool → CompileFlags → CompileFlags
  | .deadcode, e, f => { f with deadCodeRemoval := e }
  | .seekzero, e, f => { f with seekZero := e }
  | .pruneIfLocIsZero, e, f => { f with locIsZero := e }
  | .xfrmultiple, e, f => { f with xfrMultiple := e }
  | .superfluous, e, f => { f with unplantSuperfluousCode := e }

/-- `k` copies of the characters `no-`. -/
def noChain : Nat → List Char
  | 0 => []
  | k + 1 => ['n', 'o', '-'] ++ noChain k

/-- The flag `--no-…no-<f>` with `k` copies of `no-`. -/
def noPrefixedArg (k : Nat) (f : Feature) : List Char :=
  ['-', '-'] ++ noChain k ++ featureName f

theorem setArg_noDash_step (fl : CompileFlags) (t : List Char) (e : Bool) :
    fl.setArg (['-', '-', 'n', 'o', '-'] ++ t) e = fl.setArg (['-', '-'] ++ t) (!e) := by
  rw [CompileFlags.setArg]
  rw [if_neg (by simp [argAll]), if_neg (by simp [argNone]),
    if_neg (by simp [argDeadcode]), if_neg (by simp [argSeekzero]),
    if_neg (by simp [argPruneIfLocIsZero]), if_neg (by simp [argXfrmultiple]),
    if_neg (by simp [argSuperfluous]),
    if_pos (by simp [strStartsWith, noDashPrefixChars, List.isPrefixOf])]
  congr 1

/-- C10: flag parsing strips one `--no-` prefix at a time and recurses with
the enable sense negated, so for every recognised feature `f`, every number
`k` of `no-` prefixes, every starting flag record and every enable sense
`e`, the flag `--no-…no-<f>` is accepted and sets exactly feature `f`, to
`e` when `k` is even and `!e` when `k` is odd; under the top-level sense
`e = true` this is enabled iff `k` is even, and in particular
`--no-no-<f>` has the same effect as `--<f>`. -/
theorem c10_no_prefix_parity :
    (∀ (f : Feature) (k : Nat) (fl : CompileFlags) (e : Bool),
      fl.setArg (noPrefixedArg k f) e =
        .ok (setFeature f (if k % 2 = 0 then e else !e) fl)) ∧
    (∀ (f : Feature) (fl : CompileFlags),
      fl.setArg (noPrefixedArg 2 f) true = fl.setArg (noPrefixedArg 0 f) true) := by
  have main : ∀ (k : Nat) (f : Feature) (fl : CompileFlags) (e : Bool),
      fl.setArg (noPrefixedArg k f) e =
        .ok (setFeature f (if k % 2 = 0 then e else !e) fl) := by
    intro k
    induction k with
    | zero =>
      intro f fl e
      cases f <;>
        simp [noPrefixedArg, noChain, featureName, CompileFlags.setArg, setFeature,
          argAll, argNone, argDeadcode, argSeekzero, argPruneIfLocIsZero,
          argXfrmultiple, argSuperfluous]
    | succ k ih =>
      intro f fl e
      have harg : noPrefixedArg (k + 1) f
          = ['-', '-', 'n', 'o', '-'] ++ (noChain k ++ featureName f) := by
        simp [noPrefixedArg, noChain]
      rw [harg, setArg_noDash_step]
      have harg0 : (['-', '-'] ++ (noChain k ++ featureName f)) = noPrefixedArg k f := by
        simp [noPrefixedArg]
      rw [harg0, ih f fl (!e)]
      by_cases hk : k % 2 = 0
      · have hk1 : (k + 1) % 2 ≠ 0 := by omega
        simp [hk, hk1]
      · have hk1 : (k + 1) % 2 = 0 := by omega
        simp [hk, hk1]
  exact ⟨fun f k => main k f, fun f fl => by rw [main 2 f fl true, main 0 f fl true]⟩

/-- Concrete all-disabled flag setting used by witnesses. -/
def flagsAllOff : CompileFlags :=
  { deadCodeRemoval := false, seekZero := false, locIsZero := false,
    xfrMultiple := false, unplantSuperfluousCode := false }

/-- C6: for every bracket-balanced source (every `]` finds an open loop and
every loop is closed by the end, the `closes 0` check), the lifter
succeeds, and in the emitted IR every `OPEN` record has a matching
`CLOSE`: the `OPEN`'s target operand is the absolute index of the slot
just after the matching `CLOSE`'s operand slot (`close index + 2`), and
the `CLOSE`'s target operand is the absolute index of the slot just after
the matching `OPEN`'s operand slot (`open index + 2`). -/
theorem c6_open_close_matched (flags : CompileFlags) (src : List Char)
    (hbal : closes 0 src = true) :
    ∃ p, lift flags src = .ok p ∧
      (∀ (a : Nat) (d : Bool), p[a]? = some (.op .OPEN d) →
        ∃ b : Nat, p[b]? = some (.op .CLOSE false) ∧
          p[a+1]? = some (.operand ((b : Int) + 2) false) ∧
          p[b+1]? = some (.operand ((a : Int) + 2) false)) ∧
      (∀ (b : Nat) (d : Bool), p[b]? = some (.op .CLOSE d) →
        ∃ a : Nat, p[a]? = some (.op .OPEN false) ∧
          p[a+1]? = some (.operand ((b : Int) + 2) false) ∧
          p[b+1]? = some (.operand ((a : Int) + 2) false)) := by
  obtain ⟨p, hok, hw, ⟨-, -, hnull⟩, hp1, hp2⟩ := lift_inv flags src hbal
  refine ⟨p, hok, ?_, ?_⟩
  · intro a d ha
    have hoc := (wfUnits_open_close p hw).1 a d ha
    rw [hoc.1] at ha
    rcases hoc.2 with hn | ⟨t, hn⟩
    · exact absurd (hnull (a+1) hn) (by simp)
    · obtain ⟨b, hcb, ht, hb1⟩ := hp2 a t false ha hn
      refine ⟨b, hcb, ?_, hb1⟩
      rw [← ht]
      exact hn
  · intro b d hb
    exact hp1 b d hb

/-- Witness for C6 at the source `[-]` with every optimisation disabled:
the balance hypothesis is discharged by evaluation. -/
theorem c6_open_close_matched_witness :
    ∃ p, lift flagsAllOff ['[', '-', ']'] = .ok p ∧
      (∀ (a : Nat) (d : Bool), p[a]? = some (.op .OPEN d) →
        ∃ b : Nat, p[b]? = some (.op .CLOSE false) ∧
          p[a+1]? = some (.operand ((b : Int) + 2) false) ∧
          p[b+1]? = some (.operand ((a : Int) + 2) false)) ∧
      (∀ (b : Nat) (d : Bool), p[b]? = some (.op .CLOSE d) →
        ∃ a : Nat, p[a]? = some (.op .OPEN false) ∧
          p[a+1]? = some (.operand ((b : Int) + 2) false) ∧
          p[b+1]? = some (.operand ((a : Int) + 2) false)) :=
  c6_open_close_matched flagsAllOff ['[', '-', ']'] (by decide)

/-- C9: `plantOpCodeAndOperand` stamps the operand record with exactly the
same discard-before-set-zero marking as its opcode (both come from the
opcode's `discardBeforeSetZero` column), so `unplantBeforeSetZero` always
removes complete opcode-plus-operand units: on any unit-well-formed record
list the unplanted prefix is still unit-well-formed, hence it never ends
with an orphaned operand record (every operand is directly preceded by its
opcode record) and every remaining `ADD` opcode is still immediately
followed by its marked operand slot; moreover every record list the lifter
emits is unit-well-formed. -/
theorem c9_unplant_units :
    (∀ (o : OpName) (n : Int) (s : Planter), (plantOpCodeAndOperand o n s).program =
      s.program ++ [.op o (discardFlag o), .operand n (discardFlag o)]) ∧
    (∀ p : List Rec, wfUnits p = true →
      wfUnits (unplantBeforeSetZero p) = true ∧
      (∀ (i : Nat) (d : Bool), (unplantBeforeSetZero p)[i]? = some (.op .ADD d) →
        ∃ m : Int, (unplantBeforeSetZero p)[i+1]? = some (.operand m true)) ∧
      (∀ (i : Nat) (m : Int) (d : Bool),
        (unplantBeforeSetZero p)[i]? = some (.operand m d) →
        ∃ (j : Nat) (o : OpName) (d2 : Bool), i = j + 1 ∧
          (unplantBeforeSetZero p)[j]? = some (.op o d2))) ∧
    (∀ (flags : CompileFlags) (src : List Char) (p : List Rec),
      lift flags src = .ok p → wfUnits p = true) := by
  refine ⟨?_, ?_, ?_⟩
  · intro o n s
    simp [plantOpCodeAndOperand, plantOperand, plantOpCode, List.append_assoc]
  · intro p hw
    have hwu := wfUnits_unplant hw
    exact ⟨hwu, (wfUnits_positional _ hwu).1, (wfUnits_positional _ hwu).2⟩
  · intro flags src p hok
    exact inv2_lift hok

/-- Witness for C9: the marking equation at a concrete `ADD 5` plant, the
unplant conjunct at a concrete unit-well-formed list, and the lifter
conjunct at the empty source. -/
theorem c9_unplant_units_witness :
    (plantOpCodeAndOperand .ADD 5 (initPlanter flagsAllOff [])).program =
      [] ++ [.op .ADD (discardFlag .ADD), .operand 5 (discardFlag .ADD)] ∧
    wfUnits (unplantBeforeSetZero
      [.op .SET_ZERO false, .op .ADD true, .operand 3 true]) = true ∧
    wfUnits [.op .HALT false] = true :=
  ⟨c9_unplant_units.1 .ADD 5 (initPlanter flagsAllOff []),
   (c9_unplant_units.2.1 [.op .SET_ZERO false, .op .ADD true, .operand 3 true]
     (by decide)).1,
   c9_unplant_units.2.2 flagsAllOff [] [.op .HALT false] (by
     simp [lift, plantProgram, plantLoop, plantExpr, plantExprChar, initPlanter,
       PPI.pop, nextChar, plantOpCode, discardFlag, locIsZeroFlag, Except.map])⟩

/-- One serialised JSON object of the IR array, abstracted to its fields:
the compiler only ever writes `OpCode`, `Operand`, `High`+`Low` and the
optional `DiscardBeforeSetZero` (always `true` when present), and plants a
bare `null` for an unpatched `OPEN` placeholder (all fields absent). -/
structure JRec where
  opCode : Option OpName
  operand : Option Int
  high : Option Int
  low : Option Int
  discard : Option Bool
deriving DecidableEq, Repr

/-- The record each kind of planted `Rec` serialises to (compiler's
`plantOpCode`, `plantOperand`, `plantDyad`, and the `null` placeholder). -/
def serialiseRec : Rec → JRec
  | .op o d => { opCode := some o, operand := none, high := none, low := none,
                 discard := if d then some true else none }
  | .operand n d => { opCode := none, operand := some n, high := none, low := none,
                      discard := if d then some true else none }
  | .dyad hi lo => { opCode := none, operand := none, high := some hi, low := some lo,
                     discard := none }
  | .null => { opCode := none, operand := none, high := none, low := none,
               discard := none }

/-- The runner's per-record dispatch (its `CodePlanter::plantProgram`):
a record with an `OpCode` field loads as an opcode, else one with an
`Operand` field as an operand, else one with a `High` field as a dyad
(reading `Low` as well), and anything else is skipped. All other fields
are ignored. -/
def loadJRec (j : JRec) : Option Instr :=
  match j.opCode with
  | some o => some (.opcode o)
  | none =>
    match j.operand with
    | some n => some (.operand n)
    | none =>
      match j.high, j.low with
      | some hi, some lo => some (.dyad hi lo)
      | _, _ => none

/-- The runner's loader over the whole serialised array, with the extra
`HALT` it appends at the end. -/
def loadJProgram (js : List JRec) : List Instr :=
  js.filterMap loadJRec ++ [.opcode .HALT]

theorem loadJRec_serialiseRec (r : Rec) : loadJRec (serialiseRec r) = loadRec r := by
  cases r with
  | op o d => rfl
  | operand n d => rfl
  | dyad hi lo => rfl
  | null => rfl

/-- C7: serialising the IR to the JSON record form and loading it with the
runner's deserialiser yields exactly the same instruction stream as
loading the IR directly, hence execution from any input with any fuel
budget is identical; and the deserialiser ignores the field it does not
recognise (`DiscardBeforeSetZero`). -/
theorem c7_serialise_roundtrip :
    (∀ p : List Rec, loadJProgram (p.map serialiseRec) = loadProgram p) ∧
    (∀ (p : List Rec) (inp : List Nat) (fuel : Nat),
      engineRun fuel (loadJProgram (p.map serialiseRec)) 0 (initEState inp) =
      engineRun fuel (loadProgram p) 0 (initEState inp)) ∧
    (∀ (j : JRec) (d : Option Bool),
      loadJRec { j with discard := d } = loadJRec j) := by
  have hload : ∀ p : List Rec, loadJProgram (p.map serialiseRec) = loadProgram p := by
    intro p
    unfold loadJProgram loadProgram
    rw [List.filterMap_map]
    have hcomp : (loadJRec ∘ serialiseRec) = loadRec := by
      funext r
      exact loadJRec_serialiseRec r
    rw [hcomp]
  refine ⟨hload, ?_, ?_⟩
  · intro p inp fuel
    rw [hload]
  · intro j d
    rfl

end TCD
